import Mathlib

/-!
Suffix array and banded edit distance of the genome mapper: a shallow embedding.

A `std::string` is modelled as the list of its bytes, each byte as its unsigned value
(`(unsigned char)s[i]`).  C++ `int` values are modelled as unbounded integers; sizes are
assumed to stay far below `2^31`.
-/

namespace bio

/-- A string: the list of its bytes, each as its unsigned value. -/
abbrev Str := List Nat

/-! ## `suffix_array.hpp` -/

/-- The comparator lambda `cmp` of `buildSuffixArray`, for the current `k` and rank vector `rk`. -/
def cmp (n k : Nat) (rk : List Int) (a b : Nat) : Bool :=
  if rk.getD a 0 ≠ rk.getD b 0 then decide (rk.getD a 0 < rk.getD b 0)
  else
    let ra : Int := if a + k < n then rk.getD (a + k) 0 else -1
    let rb : Int := if b + k < n then rk.getD (b + k) 0 else -1
    decide (ra < rb)

/-- One iteration `tmp[sa[i]] = tmp[sa[i-1]] + (cmp(sa[i-1], sa[i]) ? 1 : 0)`. -/
def rerankStep (c : Nat → Nat → Bool) (sa : List Nat) (tmp : List Int) (i : Nat) : List Int :=
  tmp.set (sa.getD i 0)
    (tmp.getD (sa.getD (i - 1) 0) 0 + (if c (sa.getD (i - 1) 0) (sa.getD i 0) then 1 else 0))

/-- The rank recomputation: `tmp[sa[0]] = 0; for (i = 1; i < n; i++) ...`. -/
def rerank (c : Nat → Nat → Bool) (n : Nat) (sa : List Nat) (tmp : List Int) : List Int :=
  (List.range' 1 (n - 1)).foldl (rerankStep c sa) (tmp.set (sa.getD 0 0) 0)

/-- The doubling loop `for (k = 1; k < n; k *= 2)` of `buildSuffixArray`.  `std::sort` is the
parameter `sort`; after `rk = tmp` both vectors hold the same values.  `none` means that the
fuel ran out before the loop ended. -/
def saLoop (sort : (Nat → Nat → Bool) → List Nat → List Nat) (n : Nat) :
    Nat → Nat → List Nat → List Int → List Int → Option (List Nat)
  | fuel, k, sa, rk, tmp =>
    if k < n then
      match fuel with
      | 0 => none
      | fuel + 1 =>
        let sa1 := sort (cmp n k rk) sa
        let tmp1 := rerank (cmp n k rk) n sa1 tmp
        if tmp1.getD (sa1.getD (n - 1) 0) 0 = (n : Int) - 1 then some sa1
        else saLoop sort n fuel (k * 2) sa1 tmp1 tmp1
    else some sa

/-- The function `buildSuffixArray`: `sa` starts as the identity, `rk` as the bytes of `s`. -/
def buildSuffixArray (sort : (Nat → Nat → Bool) → List Nat → List Nat) (s : Str) :
    Option (List Nat) :=
  saLoop sort s.length s.length 1 (List.range s.length) (s.map Int.ofNat)
    (List.replicate s.length 0)

/-- What `std::sort` requires of its comparator: a strict weak ordering. -/
structure StrictWeak (c : Nat → Nat → Bool) : Prop where
  irrefl : ∀ a, c a a = false
  trans : ∀ a b d, c a b = true → c b d = true → c a d = true
  incompTrans : ∀ a b d, c a b = false → c b a = false → c b d = false → c d b = false →
    c a d = false ∧ c d a = false

/-- What `std::sort` guarantees: for a strict weak ordering the result is a rearrangement of
the input in which no later element compares less than an earlier one.  The order of
equivalent elements is left open. -/
def SortContract (sort : (Nat → Nat → Bool) → List Nat → List Nat) : Prop :=
  ∀ c l, StrictWeak c →
    (sort c l).Perm l ∧ (sort c l).Pairwise (fun a b => c b a = false)

/-- Insertion of one element into a sorted list. -/
def insertSorted (c : Nat → Nat → Bool) (a : Nat) : List Nat → List Nat
  | [] => [a]
  | b :: l => if c a b then a :: b :: l else b :: insertSorted c a l

/-- An executable sorting function that meets `SortContract`. -/
def insertionSort (c : Nat → Nat → Bool) : List Nat → List Nat
  | [] => []
  | a :: l => insertSorted c a (insertionSort c l)

/-- Strict lexicographic order on byte strings: the first differing byte decides, and a proper
prefix sorts before its extensions. -/
def lexLt : Str → Str → Bool
  | _, [] => false
  | [], _ :: _ => true
  | a :: as, b :: bs => decide (a < b) || (decide (a = b) && lexLt as bs)

/-- Non-strict lexicographic order: `x ≤ y` when `y` is not strictly below `x`. -/
def lexLe (x y : Str) : Bool := !lexLt y x

/-! ## Specification vocabulary for the suffix array -/

/-- The first `k` bytes of the suffix of `s` that starts at `a`. -/
def pre (s : Str) (k a : Nat) : Str := (s.drop a).take k

/-- What the rank vector means before the round for `k`: ranks are non-negative and order the
suffixes as their first `k` bytes do. -/
def RankInv (s : Str) (k : Nat) (rk : List Int) : Prop :=
  rk.length = s.length ∧ (∀ a, a < s.length → 0 ≤ rk.getD a 0) ∧
  ∀ a b, a < s.length → b < s.length →
    (rk.getD a 0 < rk.getD b 0 ↔ lexLt (pre s k a) (pre s k b) = true)

/-- The rank that the recomputation gives to position `i` of the sorted array: the number of
strict steps `cmp(sa[j-1], sa[j])` with `j ≤ i`. -/
def rankAt (c : Nat → Nat → Bool) (sa : List Nat) : Nat → Int
  | 0 => 0
  | i + 1 => rankAt c sa i + (if c (sa.getD i 0) (sa.getD (i + 1) 0) then 1 else 0)

/-- The suffixes listed by `sa` are in non-decreasing lexicographic order. -/
def SortedSuffixes (s : Str) (sa : List Nat) : Prop :=
  ∀ i j, i < j → j < sa.length → lexLe (s.drop (sa.getD i 0)) (s.drop (sa.getD j 0)) = true

/-- An array `sa` is the suffix array of `s`: it lists every index of `s` once, in the
lexicographic order of the suffixes. -/
def IsSuffixArray (s : Str) (sa : List Nat) : Prop :=
  sa.Perm (List.range s.length) ∧ SortedSuffixes s sa

/-! ## Range search -/

/-- The sign of `std::string::compare`: bytes are compared as unsigned values up to the first
difference, and a proper prefix compares less. -/
def compareStr : Str → Str → Int
  | [], [] => 0
  | [], _ :: _ => -1
  | _ :: _, [] => 1
  | a :: as, b :: bs => if a < b then -1 else if b < a then 1 else compareStr as bs

/-- The call `s.compare(pos, len, pat)`: it compares `s.substr(pos, len)` with `pat` and throws
`std::out_of_range` (here `none`) when `pos > s.size()`. -/
def substrCompare (s : Str) (pos len : Nat) (pat : Str) : Option Int :=
  if pos ≤ s.length then some (compareStr ((s.drop pos).take len) pat) else none

/-- The loop of `suffixArrayLowerBound`; `none` when the fuel runs out or `compare` throws. -/
def lowerBoundLoop (s : Str) (sa : List Nat) (pat : Str) : Nat → Nat → Nat → Option Nat
  | fuel, lo, hi =>
    if lo < hi then
      match fuel with
      | 0 => none
      | fuel + 1 =>
        let mid := (lo + hi) / 2
        match substrCompare s (sa.getD mid 0) pat.length pat with
        | none => none
        | some c =>
          if c < 0 then lowerBoundLoop s sa pat fuel (mid + 1) hi
          else lowerBoundLoop s sa pat fuel lo mid
    else some lo

/-- The function `suffixArrayLowerBound`. -/
def suffixArrayLowerBound (s : Str) (sa : List Nat) (pat : Str) : Option Nat :=
  lowerBoundLoop s sa pat sa.length 0 sa.length

/-- The loop of `suffixArrayUpperBound`; `none` when the fuel runs out or `compare` throws. -/
def upperBoundLoop (s : Str) (sa : List Nat) (pat : Str) : Nat → Nat → Nat → Option Nat
  | fuel, lo, hi =>
    if lo < hi then
      match fuel with
      | 0 => none
      | fuel + 1 =>
        let mid := (lo + hi) / 2
        match substrCompare s (sa.getD mid 0) pat.length pat with
        | none => none
        | some c =>
          if c ≤ 0 then upperBoundLoop s sa pat fuel (mid + 1) hi
          else upperBoundLoop s sa pat fuel lo mid
    else some lo

/-- The function `suffixArrayUpperBound`. -/
def suffixArrayUpperBound (s : Str) (sa : List Nat) (pat : Str) : Option Nat :=
  upperBoundLoop s sa pat sa.length 0 sa.length

/-- The function `findAllOccurrences`: the entries `sa[lo], ..., sa[hi-1]`. -/
def findAllOccurrences (text : Str) (sa : List Nat) (pattern : Str) : Option (List Nat) :=
  match suffixArrayLowerBound text sa pattern, suffixArrayUpperBound text sa pattern with
  | some lo, some hi => some ((List.range' lo (hi - lo)).map (fun i => sa.getD i 0))
  | _, _ => none

/-- The start positions of `p` in `s`, in increasing order: the indices `q` of `s` (so
`q < |s|`) with `s[q .. q+|p|) = p`. -/
def occurrences (s p : Str) : List Nat :=
  (List.range s.length).filter (fun q => decide ((s.drop q).take p.length = p))

/-- A binary search for the end of the initial run on which `P` holds. -/
def searchLoop (P : Nat → Option Bool) : Nat → Nat → Nat → Option Nat
  | fuel, lo, hi =>
    if lo < hi then
      match fuel with
      | 0 => none
      | fuel + 1 =>
        match P ((lo + hi) / 2) with
        | none => none
        | some b =>
          if b then searchLoop P fuel ((lo + hi) / 2 + 1) hi
          else searchLoop P fuel lo ((lo + hi) / 2)
    else some lo

/-! ## `edit_distance.hpp` -/

/-- The body of the inner loop of `editDistance` for the cell `(i, j)`: `prev` and `cur` are
the rows `dp[prev]` and `dp[curr]`, and the three assignments to `dp[curr][idx]` are kept as
three writes.  Inside the loop `i - maxDist ≤ j ≤ i + maxDist`, so the shifted index
`idx = (j - i) + maxDist` lies in `[0, W)`; the reads of `idx - 1` and `idx + 1` are guarded
as in the source. -/
def cellStep (maxDist : Nat) (s t : Str) (i : Nat) (prev cur : List Int) (j : Nat) : List Int :=
  let d : Int := (j : Int) - (i : Int)
  let idx : Nat := (d + (maxDist : Int)).toNat
  if i = 0 ∧ j = 0 then cur.set idx 0
  else if i = 0 then cur.set idx (j : Int)
  else if j = 0 then cur.set idx (i : Int)
  else
    let cur1 := cur.set idx
      (prev.getD idx 0 + (if s.getD (i - 1) 0 ≠ t.getD (j - 1) 0 then 1 else 0))
    let cur2 := if idx > 0 ∧ j > 0 then
        cur1.set idx (min (cur1.getD idx 0) (cur1.getD (idx - 1) 0 + 1))
      else cur1
    if idx < (2 * maxDist + 1) - 1 then
      cur2.set idx (min (cur2.getD idx 0) (prev.getD (idx + 1) 0 + 1))
    else cur2

/-- One pass of the outer loop of `editDistance` on the row `dp[curr]`: the row is reset to
`INF = maxDist + 1` and the cells `j_min .. j_max` are filled in increasing order, where
`j_min = max(0, i - maxDist)` (the truncated difference) and `j_max = min(m, i + maxDist)`. -/
def rowStep (maxDist : Nat) (s t : Str) (i : Nat) (prev : List Int) : List Int :=
  let jMin := i - maxDist
  let jMax := min t.length (i + maxDist)
  (List.range' jMin (jMax + 1 - jMin)).foldl (cellStep maxDist s t i prev)
    (List.replicate (2 * maxDist + 1) ((maxDist : Int) + 1))

/-- The outer loop body on the two rolling rows: `curr = i & 1`, `prev = 1 - curr`. -/
def outerStep (maxDist : Nat) (s t : Str) (dp : List Int × List Int) (i : Nat) :
    List Int × List Int :=
  if i % 2 = 0 then (rowStep maxDist s t i dp.2, dp.2) else (dp.1, rowStep maxDist s t i dp.1)

/-- The function `editDistance<maxDist>`.  The final read `dp[n & 1][m - n + maxDist]` is
checked: an index outside `[0, W)` is an out-of-bounds read and gives `none`. -/
def editDistance (maxDist : Nat) (s t : Str) : Option Int :=
  let inf : Int := (maxDist : Int) + 1
  let dp0 : List Int × List Int :=
    ((List.replicate (2 * maxDist + 1) inf).set maxDist 0, List.replicate (2 * maxDist + 1) inf)
  let dp := (List.range (s.length + 1)).foldl (outerStep maxDist s t) dp0
  let idx : Int := (t.length : Int) - (s.length : Int) + (maxDist : Int)
  if 0 ≤ idx ∧ idx < ((2 * maxDist + 1 : Nat) : Int) then
    (if s.length % 2 = 0 then dp.1 else dp.2)[idx.toNat]?
  else none

/-- The function `withinEditDistance<maxDist>`. -/
def withinEditDistance (maxDist : Nat) (s t : Str) (threshold : Int) : Option Bool :=
  if |(s.length : Int) - (t.length : Int)| > threshold then some false
  else (editDistance maxDist s t).map (fun d => decide (d ≤ threshold))

/-- The distances from `a :: s` to the suffixes of a string, given the distances `f` from
`s`. -/
def levCons (a : Nat) (f : Str → Nat) : Str → Nat
  | [] => f [] + 1
  | b :: t => min (min (f (b :: t) + 1) (levCons a f t + 1)) (f t + (if a = b then 0 else 1))

/-- The Levenshtein distance, the least number of single-byte insertions, deletions and
substitutions that turn `s` into `t`, by its recurrence on the first bytes:
`lev [] t = |t|`, `lev s [] = |s|` and
`lev (a :: s) (b :: t) = min (lev s (b :: t) + 1) (lev (a :: s) t + 1) (lev s t + [a ≠ b])`. -/
def lev : Str → Str → Nat
  | [], t => t.length
  | a :: s, t => levCons a (lev s) t

/-- The Levenshtein distance between the first `i` bytes of `s` and the first `j` bytes of
`t`: the cell `(i, j)` of the full Wagner-Fischer table. -/
def levAt (s t : Str) (i j : Nat) : Nat := lev (s.take i) (t.take j)

/-- The value that `cellStep` leaves in the cell `(i, j)`. -/
def cellVal (maxDist : Nat) (s t : Str) (i : Nat) (prev cur : List Int) (j : Nat) : Int :=
  if i = 0 ∧ j = 0 then 0
  else if i = 0 then (j : Int)
  else if j = 0 then (i : Int)
  else
    let idx := j + maxDist - i
    let v0 := prev.getD idx 0 + (if s.getD (i - 1) 0 ≠ t.getD (j - 1) 0 then 1 else 0)
    let v1 := if idx > 0 ∧ j > 0 then min v0 (cur.getD (idx - 1) 0 + 1) else v0
    if idx < 2 * maxDist then min v1 (prev.getD (idx + 1) 0 + 1) else v1

/-- What a row of the band means for row `i` of the table: a cell inside the table is at
least the true distance capped at `INF` and at most the true distance when that is within the
band; a cell outside the table is at least `INF`. -/
def RowOK (maxDist : Nat) (s t : Str) (i : Nat) (row : List Int) : Prop :=
  row.length = 2 * maxDist + 1 ∧
  (∀ idx j, idx < 2 * maxDist + 1 → j + maxDist = i + idx → j ≤ t.length →
    min (levAt s t i j : Int) ((maxDist : Int) + 1) ≤ row.getD idx 0 ∧
    (levAt s t i j ≤ maxDist → row.getD idx 0 ≤ (levAt s t i j : Int))) ∧
  (∀ idx, idx < 2 * maxDist + 1 → (i + idx < maxDist ∨ t.length + maxDist < i + idx) →
    (maxDist : Int) + 1 ≤ row.getD idx 0)

/-! ## `mapper.cpp` -/

/-- The enumeration `MapStatus`. -/
inductive MapStatus where
  | Unmapped
  | Unique
  | Multi
  deriving DecidableEq, Repr

/-- The record `MappingResult`. -/
structure MappingResult where
  status : MapStatus
  position : Int
  edit_dist : Int
  deriving DecidableEq, Repr

/-- The call `s.substr(pos, len)` with `int` arguments: both are converted to `size_t`, so a
negative `pos` becomes a huge position and a negative `len` a huge length; the call throws
`std::out_of_range` (here `none`) when the position is beyond the end of `s`. -/
def substr (s : Str) (pos len : Int) : Option Str :=
  if pos < 0 ∨ (s.length : Int) < pos then none
  else some ((s.drop pos.toNat).take (if len < 0 then s.length else len.toNat))

/-- The conversion of an unsigned value to a 32-bit `int`. -/
def toInt32 (x : Int) : Int := (x + 2 ^ 31) % 2 ^ 32 - 2 ^ 31

/-- The statement `int step = (read.size() - seed_len) / max(1, num_seeds - 1)` with
`num_seeds = 3`.  The difference is computed in `size_t`: for `seed_len ≤ |read|` it is the
plain difference, otherwise it wraps modulo `2^64` and the quotient is cut to 32 bits. -/
def seedStep (read : Str) (seed_len : Int) : Int :=
  if seed_len ≤ (read.length : Int) then ((read.length : Int) - seed_len) / 2
  else toInt32 ((2 ^ 64 + (read.length : Int) - seed_len) / 2)

/-- The values of `i` for which the body of the seed loop
`for (i = 0; i < num_seeds && i * step + seed_len <= (int)read.size(); i++)` runs: the loop
ends at the first `i` that fails the test. -/
def seedIters (read : Str) (seed_len step : Int) : List Nat :=
  [0, 1, 2].takeWhile (fun i => decide ((i : Int) * step + seed_len ≤ (read.length : Int)))

/-- The inner loop `for (j = slo; j < shi && j < slo + max_hits; j++)` with `max_hits = 100`:
the back-projected starts `sa[j] - i * step` that pass the range test, in the order of `j`. -/
def hitCandidates (genome : Str) (sa : List Nat) (read : Str) (off : Int) (slo shi : Nat) :
    List Int :=
  ((List.range' slo (min (shi - slo) 100)).map (fun j => ((sa.getD j 0 : Nat) : Int) - off)).filter
    (fun gs => decide (0 ≤ gs ∧ gs + (read.length : Int) ≤ (genome.length : Int)))

/-- The body of the seed loop for one `i`: a seed that contains `'N'` (byte 78) is skipped,
otherwise the hits of its range are appended to `candidates`. -/
def seedBody (genome : Str) (sa : List Nat) (read : Str) (seed_len step : Int)
    (candidates : List Int) (i : Nat) : Option (List Int) :=
  match substr read ((i : Int) * step) seed_len with
  | none => none
  | some seed =>
    if (78 : Nat) ∈ seed then some candidates
    else
      match suffixArrayLowerBound genome sa seed, suffixArrayUpperBound genome sa seed with
      | some slo, some shi =>
        some (candidates ++ hitCandidates genome sa read ((i : Int) * step) slo shi)
      | _, _ => none

/-- The seed loop over the values of `i` that pass the loop test. -/
def seedLoop (genome : Str) (sa : List Nat) (read : Str) (seed_len step : Int) :
    List Nat → List Int → Option (List Int)
  | [], candidates => some candidates
  | i :: rest, candidates =>
    match seedBody genome sa read seed_len step candidates i with
    | none => none
    | some c => seedLoop genome sa read seed_len step rest c

/-- The vector `candidates` after the seed loop. -/
def seedCandidates (genome : Str) (sa : List Nat) (read : Str) (seed_len : Int) :
    Option (List Int) :=
  seedLoop genome sa read seed_len (seedStep read seed_len)
    (seedIters read seed_len (seedStep read seed_len)) []

/-- The call `std::sort(candidates.begin(), candidates.end())` on integers: the order `<` is
total, so the sorted result does not depend on the sorting algorithm. -/
def sortInts (l : List Int) : List Int := l.insertionSort (fun a b => a ≤ b)

/-- The idiom `erase(unique(...))`: of every run of equal neighbours one element is kept. -/
def uniqueAdj : List Int → List Int
  | [] => []
  | [a] => [a]
  | a :: b :: l => if a = b then uniqueAdj (b :: l) else a :: uniqueAdj (b :: l)

/-- The variables `best_dist`, `best_pos`, `best_count` of the verification loop. -/
structure Best where
  dist : Int
  pos : Int
  count : Int
  deriving DecidableEq, Repr

/-- The body of the verification loop for one candidate. -/
def verifyStep (genome read : Str) (b : Best) (cand : Int) : Option Best :=
  match substr genome cand (read.length : Int) with
  | none => none
  | some ref_seg =>
    match editDistance 10 ref_seg read with
    | none => none
    | some dist =>
      if dist < b.dist then some ⟨dist, cand, 1⟩
      else if dist = b.dist ∧ cand ≠ b.pos then some ⟨b.dist, b.pos, b.count + 1⟩
      else some b

/-- The verification loop `for (int cand : candidates)`. -/
def verifyLoop (genome read : Str) : List Int → Best → Option Best
  | [], b => some b
  | cand :: rest, b =>
    match verifyStep genome read b cand with
    | none => none
    | some b1 => verifyLoop genome read rest b1

/-- The reference segment `g[c .. c + len)`. -/
def segment (g : Str) (c : Int) (len : Nat) : Str := (g.drop c.toNat).take len

/-- The seed-and-extend part of `mapRead`: candidate generation, deduplication, verification
and classification. -/
def seedAndExtend (genome : Str) (sa : List Nat) (read : Str) (seed_len max_errors : Int) :
    Option MappingResult :=
  match seedCandidates genome sa read seed_len with
  | none => none
  | some candidates =>
    if candidates = [] then some ⟨MapStatus.Unmapped, -1, -1⟩
    else
      match verifyLoop genome read (uniqueAdj (sortInts candidates))
          ⟨max_errors + 1, -1, 0⟩ with
      | none => none
      | some b =>
        if b.dist ≤ max_errors then
          some ⟨if b.count = 1 then MapStatus.Unique else MapStatus.Multi, b.pos, b.dist⟩
        else some ⟨MapStatus.Unmapped, -1, -1⟩

/-- The function `mapRead`.  `none` stands for a run that does not return a result: an
exception of `compare` or `substr`, or an out-of-bounds read of `editDistance`. -/
def mapRead (genome : Str) (sa : List Nat) (read : Str) (seed_len max_errors : Int) :
    Option MappingResult :=
  if read.head? = some 78 then some ⟨MapStatus.Unmapped, -1, -1⟩
  else
    match suffixArrayLowerBound genome sa read, suffixArrayUpperBound genome sa read with
    | some lo, some hi =>
      if hi > lo then
        if hi - lo = 1 then some ⟨MapStatus.Unique, ((sa.getD lo 0 : Nat) : Int), 0⟩
        else some ⟨MapStatus.Multi, ((sa.getD lo 0 : Nat) : Int), 0⟩
      else seedAndExtend genome sa read seed_len max_errors
    | _, _ => none

/-! ## Specification vocabulary for the read mapper -/

/-- A candidate start that passed the range test of the seed loop. -/
def ValidCand (g read : Str) (c : Int) : Prop :=
  0 ≤ c ∧ c + (read.length : Int) ≤ (g.length : Int)

/-- The call `editDistance<10>(ref_seg, read)` of the verification loop for the candidate
`c`, with `ref_seg = g[c .. c + |read|)`. -/
def segDist (g read : Str) (c : Int) : Option Int :=
  editDistance 10 (segment g c read.length) read

/-- The verification loop after the candidates `done`: `best_dist` is at most
`max_errors + 1` and at most every distance seen; once it is within `max_errors`, `best_pos`
is the smallest candidate seen that attains it and `best_count` counts the candidates seen
that attain it. -/
def BestInv (g read : Str) (maxErrors : Int) (done : List Int) (b : Best) : Prop :=
  b.dist ≤ maxErrors + 1 ∧
  (∀ c, c ∈ done → ∀ d, segDist g read c = some d → b.dist ≤ d) ∧
  (b.dist ≤ maxErrors →
    b.pos ∈ done ∧ segDist g read b.pos = some b.dist ∧
    (∀ c, c ∈ done → segDist g read c = some b.dist → b.pos ≤ c) ∧
    b.count = ((done.filter (fun c => decide (segDist g read c = some b.dist))).length : Int))

/-- The offset of seed `i` in the read: `i * ⌊(|read| - seed_len) / 2⌋`. -/
def seedOffset (read : Str) (seed_len : Int) (i : Nat) : Nat :=
  i * ((read.length - seed_len.toNat) / 2)

/-- The seed `i` of the read: its `seed_len` bytes from the offset of seed `i` on. -/
def seedOf (read : Str) (seed_len : Int) (i : Nat) : Str :=
  (read.drop (seedOffset read seed_len i)).take seed_len.toNat

/-- Seed `i` of the read hits the placement `p` of the reference: the seed contains no `'N'`
(byte 78), it equals the reference at `p` plus its offset, and fewer than 100 occurrences of
the seed in the reference start a suffix that is lexicographically smaller than the suffix
at that position. -/
def SeedHit (g read : Str) (seed_len : Int) (p i : Nat) : Prop :=
  78 ∉ seedOf read seed_len i ∧
  (g.drop (p + seedOffset read seed_len i)).take seed_len.toNat = seedOf read seed_len i ∧
  ((occurrences g (seedOf read seed_len i)).filter
    (fun q => lexLt (g.drop q) (g.drop (p + seedOffset read seed_len i)))).length < 100

/-! ## `mapper.cpp`: the read loop of `main` -/

/-- The mapping statistics and the coverage vector of `main`. -/
structure RunState where
  total_reads : Int
  mapped_reads : Int
  unique_mapped : Int
  multi_mapped : Int
  total_edit_dist : Int
  coverage : List Int
  deriving DecidableEq, Repr

/-- The loop `for (int i = start; i < end; i++) coverage[i]++`.  A write below index 0 or
beyond the end of the vector is out of bounds (here `none`). -/
def coverageUpdate (coverage : List Int) (start stop : Int) : Option (List Int) :=
  if start < stop ∧ (start < 0 ∨ (coverage.length : Int) < stop) then none
  else some ((List.range' start.toNat (stop - start).toNat).foldl
    (fun c i => c.set i (c.getD i 0 + 1)) coverage)

/-- The body of the read loop of `main` after the test of `max_reads`: the read is counted
and mapped, and the counters and the coverage are updated from the result. -/
def aggStep (genome : Str) (sa : List Nat) (seed_len max_errors : Int) (st : RunState)
    (read : Str) : Option RunState :=
  match mapRead genome sa read seed_len max_errors with
  | none => none
  | some result =>
    if result.status ≠ MapStatus.Unmapped then
      if result.status = MapStatus.Unique then
        match coverageUpdate st.coverage result.position
            (min (result.position + (read.length : Int)) (genome.length : Int)) with
        | none => none
        | some cov =>
          some ⟨st.total_reads + 1, st.mapped_reads + 1, st.unique_mapped + 1, st.multi_mapped,
            st.total_edit_dist + result.edit_dist, cov⟩
      else
        some ⟨st.total_reads + 1, st.mapped_reads + 1, st.unique_mapped, st.multi_mapped + 1,
          st.total_edit_dist + result.edit_dist, st.coverage⟩
    else
      some ⟨st.total_reads + 1, st.mapped_reads, st.unique_mapped, st.multi_mapped,
        st.total_edit_dist, st.coverage⟩

/-- The read loop `while (readFastq(reads_in, read))` of `main` over the reads of the input
file: it stops at the end of the input or when `max_reads ≥ 0` reads have been counted. -/
def mapLoop (genome : Str) (sa : List Nat) (seed_len max_errors max_reads : Int) :
    List Str → RunState → Option RunState
  | [], st => some st
  | read :: rest, st =>
    if 0 ≤ max_reads ∧ max_reads ≤ st.total_reads then some st
    else
      match aggStep genome sa seed_len max_errors st read with
      | none => none
      | some st1 => mapLoop genome sa seed_len max_errors max_reads rest st1

/-- The state before the read loop: all counters 0, `coverage` of the size of the genome and
filled with 0. -/
def initState (genome : Str) : RunState :=
  ⟨0, 0, 0, 0, 0, List.replicate genome.length 0⟩

/-- The number of processed reads with the given status. -/
def countStatus (results : List (Str × MappingResult)) (s : MapStatus) : Nat :=
  (results.filter (fun p => decide (p.2.status = s))).length

/-- The sum of `edit_dist` over the processed reads whose result is not `Unmapped`. -/
def editSum (results : List (Str × MappingResult)) : Int :=
  ((results.filter (fun p => decide (p.2.status ≠ MapStatus.Unmapped))).map
    (fun p => p.2.edit_dist)).sum

/-- The number of processed reads that are mapped uniquely and whose placement interval
`[position, position + |read|)` contains the base `i`. -/
def coverCount (results : List (Str × MappingResult)) (i : Nat) : Nat :=
  (results.filter (fun p => decide (p.2.status = MapStatus.Unique ∧ p.2.position ≤ (i : Int) ∧
    (i : Int) < p.2.position + (p.1.length : Int)))).length

/-- The sum of the read lengths over the processed reads that are mapped uniquely. -/
def uniqueLenSum (results : List (Str × MappingResult)) : Int :=
  ((results.filter (fun p => decide (p.2.status = MapStatus.Unique))).map
    (fun p => (p.1.length : Int))).sum

/-- The state of the read loop after the reads of `results` (each with its mapping result):
the counters count the results by status, `total_edit_dist` sums the distances of the mapped
reads, and `coverage[i]` counts the uniquely mapped reads that cover base `i`. -/
def RunInv (n : Nat) (results : List (Str × MappingResult)) (st : RunState) : Prop :=
  st.total_reads = (results.length : Int) ∧
  st.unique_mapped = (countStatus results MapStatus.Unique : Int) ∧
  st.multi_mapped = (countStatus results MapStatus.Multi : Int) ∧
  st.mapped_reads = st.unique_mapped + st.multi_mapped ∧
  st.mapped_reads ≤ st.total_reads ∧
  st.total_edit_dist = editSum results ∧
  st.coverage.length = n ∧
  (∀ i, i < n → st.coverage.getD i 0 = (coverCount results i : Int)) ∧
  st.coverage.sum ≤ uniqueLenSum results


/-! ## `bwt.hpp` -/

/-- A loop `for (i : items) st = f(st, i)` whose body can fail. -/
def loopOpt {σ : Type} (f : σ → Nat → Option σ) : List Nat → σ → Option σ
  | [], st => some st
  | i :: rest, st =>
    match f st i with
    | none => none
    | some st1 => loopOpt f rest st1

/-- The index `(i + k < n) ? rk[i + k] + 1 : 0` of the first counting pass of `computeBWT`. -/
def secondKey (n k : Nat) (rk : List Int) (i : Nat) : Int :=
  if i + k < n then rk.getD (i + k) 0 + 1 else 0

/-- The index `rk[i] + 1` of the second counting pass of `computeBWT`. -/
def firstKey (rk : List Int) (i : Nat) : Int := rk.getD i 0 + 1

/-- The statement `cnt[idx]++`; an index outside the vector is out of bounds (here `none`). -/
def bump (cnt : List Int) (idx : Int) : Option (List Int) :=
  if 0 ≤ idx ∧ idx < (cnt.length : Int) then
    some (cnt.set idx.toNat (cnt.getD idx.toNat 0 + 1))
  else none

/-- The loop `for (i = 0; i < n; i++) cnt[key(i)]++`. -/
def countLoop (key : Nat → Int) (n : Nat) (cnt : List Int) : Option (List Int) :=
  loopOpt (fun c i => bump c (key i)) (List.range n) cnt

/-- The loop `for (i = 1; i < (int)cnt.size(); i++) cnt[i] += cnt[i - 1]`. -/
def prefixSums (cnt : List Int) : List Int :=
  (List.range' 1 (cnt.length - 1)).foldl
    (fun c i => c.set i (c.getD i 0 + c.getD (i - 1) 0)) cnt

/-- The statement `tmp[--cnt[key(i)]] = i` on the pair `(cnt, tmp)`. -/
def placeBackStep (key : Nat → Int) (st : List Int × List Int) (i : Nat) :
    Option (List Int × List Int) :=
  if 0 ≤ key i ∧ key i < (st.1.length : Int) then
    if 0 ≤ st.1.getD (key i).toNat 0 - 1 ∧ st.1.getD (key i).toNat 0 - 1 < (st.2.length : Int) then
      some (st.1.set (key i).toNat (st.1.getD (key i).toNat 0 - 1),
        st.2.set (st.1.getD (key i).toNat 0 - 1).toNat (i : Int))
    else none
  else none

/-- The statement `sa[cnt[rk[tmp[i]]]++] = tmp[i]` on the pair `(cnt, sa)`. -/
def placeStep (rk tmp : List Int) (st : List Int × List Nat) (i : Nat) :
    Option (List Int × List Nat) :=
  if 0 ≤ tmp.getD i 0 ∧ tmp.getD i 0 < (rk.length : Int) then
    if 0 ≤ rk.getD (tmp.getD i 0).toNat 0 ∧
        rk.getD (tmp.getD i 0).toNat 0 < (st.1.length : Int) then
      if 0 ≤ st.1.getD (rk.getD (tmp.getD i 0).toNat 0).toNat 0 ∧
          st.1.getD (rk.getD (tmp.getD i 0).toNat 0).toNat 0 < (st.2.length : Int) then
        some (st.1.set (rk.getD (tmp.getD i 0).toNat 0).toNat
            (st.1.getD (rk.getD (tmp.getD i 0).toNat 0).toNat 0 + 1),
          st.2.set (st.1.getD (rk.getD (tmp.getD i 0).toNat 0).toNat 0).toNat
            (tmp.getD i 0).toNat)
      else none
    else none
  else none

/-- The two counting passes of one round of `computeBWT`: the indices are first ordered by the
rank of the second half (into `tmp`), then by the rank of the first half (into `sa`).  The
vector `cnt` has `max(256, n)` entries and is cleared before each pass. -/
def radixSort (n k : Nat) (rk : List Int) (sa : List Nat) (tmp : List Int) :
    Option (List Nat × List Int) :=
  match countLoop (secondKey n k rk) n (List.replicate (max 256 n) 0) with
  | none => none
  | some c1 =>
    match loopOpt (placeBackStep (secondKey n k rk)) (List.range n).reverse
        (prefixSums c1, tmp) with
    | none => none
    | some st1 =>
      match countLoop (firstKey rk) n (List.replicate (max 256 n) 0) with
      | none => none
      | some c2 =>
        match loopOpt (placeStep rk st1.2) (List.range n) (prefixSums c2, sa) with
        | none => none
        | some st2 => some (st2.2, st1.2)

/-- The value `!eq` of the rank recomputation of `computeBWT`, for `a = sa[i - 1]` and
`b = sa[i]`. -/
def differ (n k : Nat) (rk : List Int) (a b : Nat) : Bool :=
  !(decide (rk.getD a 0 = rk.getD b 0) &&
    decide ((if a + k < n then rk.getD (a + k) 0 else (-1 : Int)) =
      (if b + k < n then rk.getD (b + k) 0 else (-1 : Int))))

/-- The doubling loop `for (k = 1; k < n; k *= 2)` of `computeBWT`.  `none` means an
out-of-bounds access or that the fuel ran out before the loop ended. -/
def bwtLoop (n : Nat) : Nat → Nat → List Nat → List Int → List Int → Option (List Nat)
  | fuel, k, sa, rk, tmp =>
    if k < n then
      match fuel with
      | 0 => none
      | fuel + 1 =>
        match radixSort n k rk sa tmp with
        | none => none
        | some st =>
          if (rerank (differ n k rk) n st.1 st.2).getD (st.1.getD (n - 1) 0) 0 = (n : Int) - 1
          then some st.1
          else bwtLoop n fuel (k * 2) st.1 (rerank (differ n k rk) n st.1 st.2)
            (rerank (differ n k rk) n st.1 st.2)
    else some sa

/-- The loop `for (i = 0; i < n; i++) bwt[i] = s[(sa[i] + n - 1) % n]`. -/
def lastColumn (s : Str) (sa : List Nat) : Str :=
  (List.range s.length).map (fun i => s.getD ((sa.getD i 0 + s.length - 1) % s.length) 0)

/-- The function `computeBWT`: the sentinel `'$'` (byte 36) is appended, the suffixes of
`s = input + '$'` are sorted by the doubling loop (`sa` starts filled with 0, `rk` as the
bytes of `s`), and the last column is read off. -/
def computeBWT (input : Str) : Option Str :=
  match bwtLoop (input ++ [36]).length (input ++ [36]).length 1
      (List.replicate (input ++ [36]).length 0) ((input ++ [36]).map Int.ofNat)
      (List.replicate (input ++ [36]).length 0) with
  | none => none
  | some sa => some (lastColumn (input ++ [36]) sa)

/-- The function `detail::dnaCharToIdx`. -/
def dnaCharToIdx (c : Nat) : Nat :=
  if c = 36 then 0 else if c = 65 then 1 else if c = 67 then 2 else if c = 71 then 3 else 4

/-- The loop `for (char c : bwt) cnt[dnaCharToIdx(c)]++` on a vector of five zeros. -/
def charCounts (bwt : Str) : List Nat :=
  bwt.foldl (fun cnt c => cnt.set (dnaCharToIdx c) (cnt.getD (dnaCharToIdx c) 0 + 1))
    (List.replicate 5 0)

/-- The array `C`: `C[0] = 0; for (i = 1; i < 5; i++) C[i] = C[i-1] + cnt[i-1]`. -/
def cumulativeCounts (cnt : List Nat) : List Nat :=
  (List.range' 1 4).foldl (fun C i => C.set i (C.getD (i - 1) 0 + cnt.getD (i - 1) 0))
    (List.replicate 5 0)

/-- The statement `rank[i] = seen[idx]++` on the pair `(rank, seen)`. -/
def rankStep (bwt : Str) (st : List Nat × List Nat) (i : Nat) : List Nat × List Nat :=
  (st.1.set i (st.2.getD (dnaCharToIdx (bwt.getD i 0)) 0),
    st.2.set (dnaCharToIdx (bwt.getD i 0)) (st.2.getD (dnaCharToIdx (bwt.getD i 0)) 0 + 1))

/-- The vector `rank` of `inverseBWT`. -/
def rankArray (bwt : Str) : List Nat :=
  ((List.range bwt.length).foldl (rankStep bwt)
    (List.replicate bwt.length 0, List.replicate 5 0)).1

/-- The search `pos = 0; for (i ...) if (bwt[i] == '$') { pos = i; break; }` from index `i`
on. -/
def dollarScan : Str → Nat → Nat
  | [], _ => 0
  | c :: rest, i => if c = 36 then i else dollarScan rest (i + 1)

/-- The reconstruction loop of `inverseBWT` with `t` passes left: `pos = C[idx(bwt[pos])] +
rank[pos]; result += bwt[pos]`.  A position outside `bwt` is out of bounds (here `none`). -/
def invLoop (bwt : Str) (C rank : List Nat) : Nat → Nat → Str → Option Str
  | 0, _, result => some result
  | t + 1, pos, result =>
    if pos < bwt.length then
      if C.getD (dnaCharToIdx (bwt.getD pos 0)) 0 + rank.getD pos 0 < bwt.length then
        invLoop bwt C rank t (C.getD (dnaCharToIdx (bwt.getD pos 0)) 0 + rank.getD pos 0)
          (result ++ [bwt.getD (C.getD (dnaCharToIdx (bwt.getD pos 0)) 0 + rank.getD pos 0) 0])
      else none
    else none

/-- The function `inverseBWT`.  For the empty input `result.reserve(n - 1)` is called with
the size `-1` and throws `std::length_error` (here `none`). -/
def inverseBWT (bwt : Str) : Option Str :=
  if bwt.length = 0 then none
  else
    (invLoop bwt (cumulativeCounts (charCounts bwt)) (rankArray bwt) (bwt.length - 1)
      (dollarScan bwt 0) []).map List.reverse

/-! ## Specification vocabulary for the counting passes -/

/-- The number of `i < n` with `κ i = v`. -/
def cntEq (κ : Nat → Nat) : Nat → Nat → Nat
  | 0, _ => 0
  | n + 1, v => cntEq κ n v + (if κ n = v then 1 else 0)

/-- The number of `i < n` with `κ i < v`. -/
def cntLt (κ : Nat → Nat) : Nat → Nat → Nat
  | 0, _ => 0
  | n + 1, v => cntLt κ n v + (if κ n < v then 1 else 0)

/-- The place of item `j` in a stable ordering of the items `0, ..., n - 1` by their keys `κ`:
the number of items with a smaller key plus the number of earlier items with the same key. -/
def slot (κ : Nat → Nat) (n j : Nat) : Nat := cntLt κ n (κ j) + cntEq κ j (κ j)

/-- The sum `c 0 + ... + c v`. -/
def psum (c : Nat → Int) : Nat → Int
  | 0 => c 0
  | v + 1 => psum c v + c (v + 1)

/-! ## Sorting -/


theorem cmp_iff (n k : Nat) (rk : List Int) (a b : Nat) :
    cmp n k rk a b = true ↔
      (rk.getD a 0 < rk.getD b 0 ∨ (rk.getD a 0 = rk.getD b 0 ∧
        (if a + k < n then rk.getD (a + k) 0 else (-1 : Int)) <
          (if b + k < n then rk.getD (b + k) 0 else (-1 : Int)))) := by
  unfold cmp
  by_cases h : rk.getD a 0 = rk.getD b 0
  · simp only [ne_eq, h, not_true_eq_false, if_false, decide_eq_true_eq, lt_self_iff_false,
      true_and, false_or]
  · simp only [ne_eq, h, not_false_eq_true, if_true, decide_eq_true_eq, false_and, or_false]

theorem cmp_eq_false_iff (n k : Nat) (rk : List Int) (a b : Nat) :
    cmp n k rk a b = false ↔
      ¬ (rk.getD a 0 < rk.getD b 0 ∨ (rk.getD a 0 = rk.getD b 0 ∧
        (if a + k < n then rk.getD (a + k) 0 else (-1 : Int)) <
          (if b + k < n then rk.getD (b + k) 0 else (-1 : Int)))) := by
  rw [← cmp_iff]; simp

theorem cmp_strictWeak (n k : Nat) (rk : List Int) : StrictWeak (cmp n k rk) := by
  refine ⟨?_, ?_, ?_⟩
  · intro a; rw [cmp_eq_false_iff]; omega
  · intro a b d; rw [cmp_iff, cmp_iff, cmp_iff]
    generalize (if a + k < n then rk.getD (a + k) 0 else (-1 : Int)) = ga
    generalize (if b + k < n then rk.getD (b + k) 0 else (-1 : Int)) = gb
    generalize (if d + k < n then rk.getD (d + k) 0 else (-1 : Int)) = gd
    omega
  · intro a b d
    rw [cmp_eq_false_iff, cmp_eq_false_iff, cmp_eq_false_iff, cmp_eq_false_iff,
      cmp_eq_false_iff, cmp_eq_false_iff]
    generalize (if a + k < n then rk.getD (a + k) 0 else (-1 : Int)) = ga
    generalize (if b + k < n then rk.getD (b + k) 0 else (-1 : Int)) = gb
    generalize (if d + k < n then rk.getD (d + k) 0 else (-1 : Int)) = gd
    omega

theorem insertSorted_perm (c : Nat → Nat → Bool) (a : Nat) (l : List Nat) :
    (insertSorted c a l).Perm (a :: l) := by
  induction l with
  | nil => simp [insertSorted]
  | cons b l ih =>
    simp only [insertSorted]
    split
    · exact List.Perm.refl _
    · exact (List.Perm.cons b ih).trans (List.Perm.swap a b l)

theorem insertionSort_perm (c : Nat → Nat → Bool) (l : List Nat) :
    (insertionSort c l).Perm l := by
  induction l with
  | nil => simp [insertionSort]
  | cons a l ih =>
    simp only [insertionSort]
    exact (insertSorted_perm c a _).trans (List.Perm.cons a ih)

theorem insertSorted_sorted (c : Nat → Nat → Bool) (hc : StrictWeak c) (a : Nat) (l : List Nat)
    (hl : l.Pairwise (fun x y => c y x = false)) :
    (insertSorted c a l).Pairwise (fun x y => c y x = false) := by
  induction l with
  | nil => simp [insertSorted]
  | cons b l ih =>
    simp only [insertSorted]
    rw [List.pairwise_cons] at hl
    split
    · rename_i hab
      refine List.Pairwise.cons ?_ (List.Pairwise.cons hl.1 hl.2)
      intro y hy
      rcases List.mem_cons.1 hy with rfl | hy
      · cases hba : c y a
        · rfl
        · have := hc.trans _ _ _ hab hba; rw [hc.irrefl] at this; cases this
      · have hyb := hl.1 y hy
        cases hya : c y a
        · rfl
        · have := hc.trans _ _ _ hya hab; rw [hyb] at this; cases this
    · rename_i hab
      refine List.Pairwise.cons ?_ (ih hl.2)
      intro y hy
      rcases List.mem_cons.1 ((insertSorted_perm c a l).subset hy) with rfl | hy
      · simpa using hab
      · exact hl.1 y hy

theorem insertionSort_contract : SortContract insertionSort := by
  intro c l hc
  refine ⟨insertionSort_perm c l, ?_⟩
  induction l with
  | nil => simp [insertionSort]
  | cons a l ih => exact insertSorted_sorted c hc a _ ih

theorem saLoop_total (sort : (Nat → Nat → Bool) → List Nat → List Nat) (n : Nat) :
    ∀ (fuel k : Nat) (sa : List Nat) (rk tmp : List Int), n ≤ k * 2 ^ fuel →
      ∃ out, saLoop sort n fuel k sa rk tmp = some out := by
  intro fuel
  induction fuel with
  | zero =>
    intro k sa rk tmp h
    unfold saLoop
    have : ¬ k < n := by simpa using h
    simp [this]
  | succ fuel ih =>
    intro k sa rk tmp h
    unfold saLoop
    by_cases hk : k < n
    · simp only [hk, if_true]
      split
      · exact ⟨_, rfl⟩
      · apply ih
        rw [pow_succ] at h
        calc n ≤ k * (2 ^ fuel * 2) := h
          _ = k * 2 * 2 ^ fuel := by ring
    · simp [hk]

theorem saLoop_perm (sort : (Nat → Nat → Bool) → List Nat → List Nat) (hs : SortContract sort)
    (n : Nat) : ∀ (fuel k : Nat) (sa : List Nat) (rk tmp : List Int) (out : List Nat),
      saLoop sort n fuel k sa rk tmp = some out → sa.Perm (List.range n) →
      out.Perm (List.range n) := by
  intro fuel
  induction fuel with
  | zero =>
    intro k sa rk tmp out h hp
    unfold saLoop at h
    by_cases hk : k < n
    · simp [hk] at h
    · simp [hk] at h; subst h; exact hp
  | succ fuel ih =>
    intro k sa rk tmp out h hp
    unfold saLoop at h
    by_cases hk : k < n
    · simp only [hk, if_true] at h
      have hp1 := ((hs (cmp n k rk) sa (cmp_strictWeak n k rk)).1).trans hp
      split at h
      · simp at h; subst h; exact hp1
      · exact ih _ _ _ _ _ h hp1
    · simp [hk] at h; subst h; exact hp

/-- C1: `buildSuffixArray` returns, and what it returns has the length of the string and is a
rearrangement of `0 .. n-1`: every index below `n` occurs exactly once, and the empty string
gives the empty list. -/
theorem buildSuffixArray_perm (sort : (Nat → Nat → Bool) → List Nat → List Nat)
    (hs : SortContract sort) (s : Str) :
    ∃ sa, buildSuffixArray sort s = some sa ∧ sa.length = s.length ∧
      sa.Perm (List.range s.length) ∧ (∀ i, i < s.length → sa.count i = 1) ∧
      (s = [] → sa = []) := by
  obtain ⟨sa, hsa⟩ := saLoop_total sort s.length s.length 1 (List.range s.length)
    (s.map Int.ofNat) (List.replicate s.length 0) (by simpa using (Nat.lt_two_pow s.length).le)
  have hp := saLoop_perm sort hs s.length _ _ _ _ _ sa hsa (List.Perm.refl _)
  have hlen : sa.length = s.length := by simpa using hp.length_eq
  refine ⟨sa, hsa, hlen, hp, ?_, ?_⟩
  · intro i hi
    rw [hp.count_eq]
    exact List.count_eq_one_of_mem (List.nodup_range _) (List.mem_range.2 hi)
  · intro h
    subst h
    exact List.length_eq_zero.1 hlen

theorem buildSuffixArray_perm_witness :
    SortContract insertionSort ∧
    ∃ sa, buildSuffixArray insertionSort [98, 97, 110, 97, 110, 97] = some sa ∧
      sa.length = ([98, 97, 110, 97, 110, 97] : Str).length ∧
      sa.Perm (List.range ([98, 97, 110, 97, 110, 97] : Str).length) ∧
      (∀ i, i < ([98, 97, 110, 97, 110, 97] : Str).length → sa.count i = 1) ∧
      (([98, 97, 110, 97, 110, 97] : Str) = [] → sa = []) :=
  ⟨insertionSort_contract, buildSuffixArray_perm insertionSort insertionSort_contract _⟩

/-! ## The lexicographic order -/

theorem lexLt_nil_right (x : Str) : lexLt x [] = false := by
  cases x <;> rfl

theorem lexLt_cons_cons (a b : Nat) (as bs : Str) :
    lexLt (a :: as) (b :: bs) = true ↔ a < b ∨ (a = b ∧ lexLt as bs = true) := by
  simp [lexLt]

theorem lexLt_irrefl (x : Str) : lexLt x x = false := by
  induction x with
  | nil => rfl
  | cons a as ih => simp [lexLt, ih]

theorem lexLt_trans : ∀ (x y z : Str), lexLt x y = true → lexLt y z = true → lexLt x z = true
  | _, [], _, h, _ => by rw [lexLt_nil_right] at h; cases h
  | _, _ :: _, [], _, h => by rw [lexLt_nil_right] at h; cases h
  | [], _ :: _, _ :: _, _, _ => rfl
  | a :: as, b :: bs, c :: cs, h1, h2 => by
    rw [lexLt_cons_cons] at h1 h2 ⊢
    rcases h1 with h1 | ⟨h1, h1'⟩
    · rcases h2 with h2 | ⟨h2, _⟩
      · left; omega
      · left; omega
    · rcases h2 with h2 | ⟨h2, h2'⟩
      · left; omega
      · right; exact ⟨by omega, lexLt_trans as bs cs h1' h2'⟩

theorem lexLt_total : ∀ (x y : Str), lexLt x y = false → lexLt y x = false → x = y
  | [], [], _, _ => rfl
  | [], _ :: _, h, _ => by simp [lexLt] at h
  | _ :: _, [], _, h => by simp [lexLt] at h
  | a :: as, b :: bs, h1, h2 => by
    have e1 : ¬ (a < b ∨ (a = b ∧ lexLt as bs = true)) := by
      rw [← lexLt_cons_cons]; simp [h1]
    have e2 : ¬ (b < a ∨ (b = a ∧ lexLt bs as = true)) := by
      rw [← lexLt_cons_cons]; simp [h2]
    have hab : a = b := by omega
    subst hab
    have t1 : lexLt as bs = false := by
      cases h : lexLt as bs
      · rfl
      · exact absurd (Or.inr ⟨rfl, h⟩) e1
    have t2 : lexLt bs as = false := by
      cases h : lexLt bs as
      · rfl
      · exact absurd (Or.inr ⟨rfl, h⟩) e2
    rw [lexLt_total as bs t1 t2]

theorem lexLt_asymm (x y : Str) (h : lexLt x y = true) : lexLt y x = false := by
  cases h2 : lexLt y x
  · rfl
  · have := lexLt_trans x y x h h2
    rw [lexLt_irrefl] at this; cases this

theorem lexLt_of_lt_of_le (x y z : Str) (h1 : lexLt x y = true) (h2 : lexLt z y = false) :
    lexLt x z = true := by
  cases h3 : lexLt x z
  · cases h4 : lexLt z x
    · have := lexLt_total x z h3 h4
      subst this
      rw [h1] at h2; cases h2
    · have := lexLt_trans z x y h4 h1
      rw [this] at h2; cases h2
  · rfl

theorem lexLt_of_le_of_lt (x y z : Str) (h1 : lexLt y x = false) (h2 : lexLt y z = true) :
    lexLt x z = true := by
  cases h3 : lexLt x z
  · cases h4 : lexLt z x
    · have := lexLt_total x z h3 h4
      subst this
      rw [h2] at h1; cases h1
    · have := lexLt_trans y z x h2 h4
      rw [this] at h1; cases h1
  · rfl

/-- If the truncations to `k` bytes are strictly ordered, so are the strings. -/
theorem lexLt_of_take : ∀ (k : Nat) (x y : Str),
    lexLt (x.take k) (y.take k) = true → lexLt x y = true
  | 0, _, _, h => by simp [lexLt] at h
  | _ + 1, _, [], h => by simp [lexLt_nil_right] at h
  | _ + 1, [], _ :: _, _ => rfl
  | k + 1, a :: as, b :: bs, h => by
    rw [List.take_succ_cons, List.take_succ_cons, lexLt_cons_cons] at h
    rw [lexLt_cons_cons]
    rcases h with h | ⟨h, h'⟩
    · exact Or.inl h
    · exact Or.inr ⟨h, lexLt_of_take k as bs h'⟩

/-- If the first `k` bytes agree, the order is decided by what follows them. -/
theorem lexLt_drop_of_take_eq : ∀ (k : Nat) (x y : Str),
    x.take k = y.take k → lexLt x y = lexLt (x.drop k) (y.drop k)
  | 0, _, _, _ => rfl
  | _ + 1, [], [], _ => rfl
  | _ + 1, [], _ :: _, h => by simp at h
  | _ + 1, _ :: _, [], h => by simp at h
  | k + 1, a :: as, b :: bs, h => by
    rw [List.take_succ_cons, List.take_succ_cons] at h
    injection h with h1 h2
    subst h1
    rw [List.drop_succ_cons, List.drop_succ_cons, ← lexLt_drop_of_take_eq k as bs h2]
    simp [lexLt]

/-! ## Prefix doubling -/

theorem pre_of_le (s : Str) (k a : Nat) (h : s.length ≤ a) : pre s k a = [] := by
  unfold pre
  rw [List.drop_eq_nil_of_le h, List.take_nil]

theorem pre_ne_nil (s : Str) (k a : Nat) (hk : 0 < k) (h : a < s.length) :
    ∃ x xs, pre s k a = x :: xs := by
  unfold pre
  cases hd : s.drop a with
  | nil =>
    have := List.drop_eq_nil_iff.1 hd
    omega
  | cons x xs =>
    cases k with
    | zero => omega
    | succ k => exact ⟨x, xs.take k, rfl⟩

theorem pre_take (s : Str) (k a : Nat) : (pre s (k * 2) a).take k = pre s k a := by
  unfold pre
  rw [List.take_take]
  congr 1
  omega

theorem pre_drop (s : Str) (k a : Nat) : (pre s (k * 2) a).drop k = pre s k (a + k) := by
  unfold pre
  rw [List.drop_take, List.drop_drop]
  congr 1
  omega

theorem pre_full (s : Str) (k a : Nat) (h : s.length ≤ k) : pre s k a = s.drop a := by
  unfold pre
  apply List.take_of_length_le
  rw [List.length_drop]
  omega

theorem rank_eq_iff (s : Str) (k : Nat) (rk : List Int) (h : RankInv s k rk) (a b : Nat)
    (ha : a < s.length) (hb : b < s.length) :
    rk.getD a 0 = rk.getD b 0 ↔ pre s k a = pre s k b := by
  have h1 := h.2.2 a b ha hb
  have h2 := h.2.2 b a hb ha
  constructor
  · intro e
    apply lexLt_total
    · cases hx : lexLt (pre s k a) (pre s k b)
      · rfl
      · have := h1.2 hx; omega
    · cases hx : lexLt (pre s k b) (pre s k a)
      · rfl
      · have := h2.2 hx; omega
  · intro e
    have n1 : ¬ rk.getD a 0 < rk.getD b 0 := by
      intro hlt
      have := h1.1 hlt
      rw [e, lexLt_irrefl] at this; cases this
    have n2 : ¬ rk.getD b 0 < rk.getD a 0 := by
      intro hlt
      have := h2.1 hlt
      rw [e, lexLt_irrefl] at this; cases this
    omega

theorem key_lt_iff (s : Str) (k : Nat) (rk : List Int) (hk : 0 < k) (h : RankInv s k rk)
    (a b : Nat) :
    (if a < s.length then rk.getD a 0 else (-1 : Int)) <
        (if b < s.length then rk.getD b 0 else (-1 : Int)) ↔
      lexLt (pre s k a) (pre s k b) = true := by
  by_cases ha : a < s.length
  · by_cases hb : b < s.length
    · rw [if_pos ha, if_pos hb]
      exact h.2.2 a b ha hb
    · rw [if_pos ha, if_neg hb, pre_of_le s k b (by omega), lexLt_nil_right]
      have := h.2.1 a ha
      constructor
      · intro; omega
      · intro h'; cases h'
  · by_cases hb : b < s.length
    · rw [if_neg ha, if_pos hb, pre_of_le s k a (by omega)]
      obtain ⟨x, xs, hx⟩ := pre_ne_nil s k b hk hb
      rw [hx]
      have := h.2.1 b hb
      constructor
      · intro; rfl
      · intro; omega
    · rw [if_neg ha, if_neg hb, pre_of_le s k a (by omega), pre_of_le s k b (by omega)]
      constructor
      · intro; omega
      · intro h'; cases h'

/-- The comparator of the round for `k` orders suffixes by their first `2k` bytes. -/
theorem cmp_spec (s : Str) (k : Nat) (rk : List Int) (hk : 0 < k) (h : RankInv s k rk)
    (a b : Nat) (ha : a < s.length) (hb : b < s.length) :
    cmp s.length k rk a b = true ↔ lexLt (pre s (k * 2) a) (pre s (k * 2) b) = true := by
  rw [cmp_iff]
  have hkey := key_lt_iff s k rk hk h (a + k) (b + k)
  have hlt := h.2.2 a b ha hb
  have hgt := h.2.2 b a hb ha
  have heq := rank_eq_iff s k rk h a b ha hb
  constructor
  · rintro (h1 | ⟨h1, h2⟩)
    · apply lexLt_of_take k
      rw [pre_take, pre_take]
      exact hlt.1 h1
    · rw [lexLt_drop_of_take_eq k _ _ (by rw [pre_take, pre_take]; exact heq.1 h1),
        pre_drop, pre_drop]
      exact hkey.1 h2
  · intro hx
    by_cases e : rk.getD a 0 = rk.getD b 0
    · right
      refine ⟨e, hkey.2 ?_⟩
      rw [lexLt_drop_of_take_eq k _ _ (by rw [pre_take, pre_take]; exact heq.1 e),
        pre_drop, pre_drop] at hx
      exact hx
    · left
      by_contra hn
      have hgt' : rk.getD b 0 < rk.getD a 0 := by omega
      have h3 := hgt.1 hgt'
      have h4 : lexLt (pre s (k * 2) b) (pre s (k * 2) a) = true := by
        apply lexLt_of_take k
        rw [pre_take, pre_take]
        exact h3
      rw [lexLt_asymm _ _ h4] at hx
      cases hx

theorem getD_set_self {α : Type} (l : List α) (i : Nat) (v d : α) (h : i < l.length) :
    (l.set i v).getD i d = v := by
  simp [List.getD_eq_getElem?_getD, List.getElem?_set_self h]

theorem getD_set_ne {α : Type} (l : List α) (i j : Nat) (v d : α) (h : i ≠ j) :
    (l.set i v).getD j d = l.getD j d := by
  simp [List.getD_eq_getElem?_getD, List.getElem?_set_ne h]

theorem getD_inj (sa : List Nat) (hnd : sa.Nodup) (i j : Nat) (hi : i < sa.length)
    (hj : j < sa.length) (h : sa.getD i 0 = sa.getD j 0) : i = j := by
  rw [List.getD_eq_getElem _ _ hi, List.getD_eq_getElem _ _ hj] at h
  exact (hnd.getElem_inj_iff).1 h

theorem getD_mem (sa : List Nat) (i : Nat) (hi : i < sa.length) : sa.getD i 0 ∈ sa := by
  rw [List.getD_eq_getElem _ _ hi]
  exact List.getElem_mem hi

theorem exists_getD_of_mem (sa : List Nat) (a : Nat) (h : a ∈ sa) :
    ∃ i, i < sa.length ∧ sa.getD i 0 = a := by
  obtain ⟨i, hi, e⟩ := List.mem_iff_getElem.1 h
  exact ⟨i, hi, by rw [List.getD_eq_getElem _ _ hi]; exact e⟩

theorem rerank_fold_length (c : Nat → Nat → Bool) (sa : List Nat) (l : List Nat) :
    ∀ (tmp : List Int), (l.foldl (rerankStep c sa) tmp).length = tmp.length := by
  induction l with
  | nil => intro tmp; rfl
  | cons i l ih =>
    intro tmp
    rw [List.foldl_cons, ih]
    simp [rerankStep]

theorem rerank_length (c : Nat → Nat → Bool) (n : Nat) (sa : List Nat) (tmp : List Int) :
    (rerank c n sa tmp).length = tmp.length := by
  unfold rerank
  rw [rerank_fold_length]
  simp

theorem rerank_fold_spec (c : Nat → Nat → Bool) (sa : List Nat) (tmp : List Int)
    (hnd : sa.Nodup) (hlt : ∀ x, x ∈ sa → x < tmp.length) :
    ∀ m, m < sa.length → ∀ i, i ≤ m →
      ((List.range' 1 m).foldl (rerankStep c sa) (tmp.set (sa.getD 0 0) 0)).getD
        (sa.getD i 0) 0 = rankAt c sa i := by
  intro m
  induction m with
  | zero =>
    intro hm i hi
    have : i = 0 := by omega
    subst this
    simp only [List.range'_zero, List.foldl_nil, rankAt]
    exact getD_set_self _ _ _ _ (hlt _ (getD_mem sa 0 hm))
  | succ m ih =>
    intro hm i hi
    rw [List.range'_concat, List.foldl_append]
    simp only [List.foldl_cons, List.foldl_nil, Nat.one_mul]
    have ih' := ih (by omega)
    generalize hT : (List.range' 1 m).foldl (rerankStep c sa) (tmp.set (sa.getD 0 0) 0) = T
      at ih'
    have hTlen : T.length = tmp.length := by
      rw [← hT, rerank_fold_length]; simp
    unfold rerankStep
    have e1 : 1 + m - 1 = m := by omega
    rw [e1]
    by_cases hi' : i = m + 1
    · subst hi'
      have e2 : 1 + m = m + 1 := by omega
      rw [e2, getD_set_self _ _ _ _ (by rw [hTlen]; exact hlt _ (getD_mem sa _ hm)),
        ih' m (le_refl _)]
      rfl
    · have hne : sa.getD (1 + m) 0 ≠ sa.getD i 0 := by
        intro e
        have := getD_inj sa hnd _ _ (by omega) (by omega) e
        omega
      rw [getD_set_ne _ _ _ _ _ hne]
      exact ih' i (by omega)

theorem rerank_spec (c : Nat → Nat → Bool) (n : Nat) (sa : List Nat) (tmp : List Int)
    (hlen : sa.length = n) (hnd : sa.Nodup) (hlt : ∀ x, x ∈ sa → x < tmp.length)
    (i : Nat) (hi : i < n) :
    (rerank c n sa tmp).getD (sa.getD i 0) 0 = rankAt c sa i := by
  unfold rerank
  exact rerank_fold_spec c sa tmp hnd hlt (n - 1) (by omega) i (by omega)

theorem rankAt_step (c : Nat → Nat → Bool) (sa : List Nat) (i : Nat) :
    rankAt c sa i ≤ rankAt c sa (i + 1) ∧ rankAt c sa (i + 1) ≤ rankAt c sa i + 1 := by
  simp only [rankAt]
  split <;> omega

theorem rankAt_mono (c : Nat → Nat → Bool) (sa : List Nat) (i j : Nat) (h : i ≤ j) :
    rankAt c sa i ≤ rankAt c sa j ∧ rankAt c sa j ≤ rankAt c sa i + ((j - i : Nat) : Int) := by
  induction j, h using Nat.le_induction with
  | base => simp
  | succ j hij ih =>
    have := rankAt_step c sa j
    have e : ((j + 1 - i : Nat) : Int) = ((j - i : Nat) : Int) + 1 := by omega
    rw [e]
    omega

theorem rankAt_bounds (c : Nat → Nat → Bool) (sa : List Nat) (i : Nat) :
    0 ≤ rankAt c sa i ∧ rankAt c sa i ≤ (i : Int) := by
  have := rankAt_mono c sa 0 i (Nat.zero_le _)
  simp only [rankAt, Nat.sub_zero] at this
  omega

theorem rankAt_lt_iff_of_lt (c : Nat → Nat → Bool) (K : Nat → Str) (sa : List Nat)
    (hc : ∀ i j, i < sa.length → j < sa.length →
      (c (sa.getD i 0) (sa.getD j 0) = true ↔ lexLt (K (sa.getD i 0)) (K (sa.getD j 0)) = true))
    (hsorted : ∀ i j, i < j → j < sa.length → lexLt (K (sa.getD j 0)) (K (sa.getD i 0)) = false)
    (i j : Nat) (hij : i < j) (hj : j < sa.length) :
    rankAt c sa i < rankAt c sa j ↔ lexLt (K (sa.getD i 0)) (K (sa.getD j 0)) = true := by
  have hle : i + 1 ≤ j := hij
  clear hij
  revert hj
  induction j, hle using Nat.le_induction with
  | base =>
    intro hj
    simp only [rankAt]
    rw [← hc i (i + 1) (by omega) hj]
    cases c (sa.getD i 0) (sa.getD (i + 1) 0) <;> simp
  | succ j hle ih =>
    intro hj
    have hij' : i < j := by omega
    have ih' := ih (by omega)
    have hm := (rankAt_mono c sa i j (by omega)).1
    have hstep := hc j (j + 1) (by omega) hj
    have hs1 := hsorted i j hij' (by omega)
    have hs2 := hsorted j (j + 1) (by omega) hj
    simp only [rankAt]
    constructor
    · intro h
      by_cases hlt : rankAt c sa i < rankAt c sa j
      · exact lexLt_of_lt_of_le _ _ _ (ih'.1 hlt) hs2
      · have hcj : c (sa.getD j 0) (sa.getD (j + 1) 0) = true := by
          cases hcc : c (sa.getD j 0) (sa.getD (j + 1) 0)
          · rw [hcc] at h; simp at h; omega
          · rfl
        exact lexLt_of_le_of_lt _ _ _ hs1 (hstep.1 hcj)
    · intro h
      by_cases hlt : lexLt (K (sa.getD i 0)) (K (sa.getD j 0)) = true
      · have := ih'.2 hlt
        split <;> omega
      · have hlt' : lexLt (K (sa.getD i 0)) (K (sa.getD j 0)) = false := by
          simpa using hlt
        have e := lexLt_total _ _ hlt' hs1
        rw [e] at h
        rw [if_pos (hstep.2 h)]
        omega

theorem rankAt_lt_iff (c : Nat → Nat → Bool) (K : Nat → Str) (sa : List Nat)
    (hc : ∀ i j, i < sa.length → j < sa.length →
      (c (sa.getD i 0) (sa.getD j 0) = true ↔ lexLt (K (sa.getD i 0)) (K (sa.getD j 0)) = true))
    (hsorted : ∀ i j, i < j → j < sa.length → lexLt (K (sa.getD j 0)) (K (sa.getD i 0)) = false)
    (i j : Nat) (hi : i < sa.length) (hj : j < sa.length) :
    rankAt c sa i < rankAt c sa j ↔ lexLt (K (sa.getD i 0)) (K (sa.getD j 0)) = true := by
  rcases Nat.lt_trichotomy i j with h | h | h
  · exact rankAt_lt_iff_of_lt c K sa hc hsorted i j h hj
  · subst h
    rw [lexLt_irrefl]
    simp
  · have hm := (rankAt_mono c sa j i (by omega)).1
    rw [hsorted j i h hi]
    constructor
    · intro; omega
    · intro h'; cases h'

theorem sorted_getD (c : Nat → Nat → Bool) (sa : List Nat)
    (h : sa.Pairwise (fun a b => c b a = false)) (i j : Nat) (hij : i < j) (hj : j < sa.length) :
    c (sa.getD j 0) (sa.getD i 0) = false := by
  rw [List.getD_eq_getElem _ _ hj, List.getD_eq_getElem _ _ (by omega : i < sa.length)]
  exact (List.pairwise_iff_getElem.1 h) i j (by omega) hj hij

theorem perm_range_facts (sa : List Nat) (n : Nat) (h : sa.Perm (List.range n)) :
    sa.length = n ∧ sa.Nodup ∧ (∀ x, x ∈ sa → x < n) ∧
      (∀ a, a < n → ∃ i, i < sa.length ∧ sa.getD i 0 = a) := by
  refine ⟨by simpa using h.length_eq, h.nodup_iff.2 (List.nodup_range n), ?_, ?_⟩
  · intro x hx
    exact List.mem_range.1 (h.mem_iff.1 hx)
  · intro a ha
    exact exists_getD_of_mem sa a (h.mem_iff.2 (List.mem_range.2 ha))

/-- One round re-establishes the rank invariant for the doubled `k`. -/
theorem rerank_rankInv (s : Str) (k : Nat) (rk tmp : List Int) (sa : List Nat) (hk : 0 < k)
    (hinv : RankInv s k rk) (hp : sa.Perm (List.range s.length))
    (hsorted : sa.Pairwise (fun a b => cmp s.length k rk b a = false))
    (htmp : tmp.length = s.length) :
    RankInv s (k * 2) (rerank (cmp s.length k rk) s.length sa tmp) ∧
    ∀ i j, i < sa.length → j < sa.length →
      (rankAt (cmp s.length k rk) sa i < rankAt (cmp s.length k rk) sa j ↔
        lexLt (pre s (k * 2) (sa.getD i 0)) (pre s (k * 2) (sa.getD j 0)) = true) := by
  obtain ⟨hlen, hnd, hlt, hex⟩ := perm_range_facts sa s.length hp
  have hin : ∀ i, i < sa.length → sa.getD i 0 < s.length := fun i hi => hlt _ (getD_mem sa i hi)
  have hc : ∀ i j, i < sa.length → j < sa.length →
      (cmp s.length k rk (sa.getD i 0) (sa.getD j 0) = true ↔
        lexLt (pre s (k * 2) (sa.getD i 0)) (pre s (k * 2) (sa.getD j 0)) = true) :=
    fun i j hi hj => cmp_spec s k rk hk hinv _ _ (hin i hi) (hin j hj)
  have hso : ∀ i j, i < j → j < sa.length →
      lexLt (pre s (k * 2) (sa.getD j 0)) (pre s (k * 2) (sa.getD i 0)) = false := by
    intro i j hij hj
    have h1 := sorted_getD _ sa hsorted i j hij hj
    cases hx : lexLt (pre s (k * 2) (sa.getD j 0)) (pre s (k * 2) (sa.getD i 0))
    · rfl
    · rw [(hc j i hj (by omega)).2 hx] at h1; cases h1
  have hiff := rankAt_lt_iff (cmp s.length k rk) (pre s (k * 2)) sa hc hso
  have hget : ∀ i, i < sa.length →
      (rerank (cmp s.length k rk) s.length sa tmp).getD (sa.getD i 0) 0 =
        rankAt (cmp s.length k rk) sa i :=
    fun i hi => rerank_spec _ _ sa tmp hlen hnd (fun x hx => by rw [htmp]; exact hlt x hx) i
      (by omega)
  refine ⟨⟨by rw [rerank_length, htmp], ?_, ?_⟩, hiff⟩
  · intro a ha
    obtain ⟨i, hi, e⟩ := hex a ha
    rw [← e, hget i hi]
    exact (rankAt_bounds _ _ _).1
  · intro a b ha hb
    obtain ⟨i, hi, e⟩ := hex a ha
    obtain ⟨j, hj, e'⟩ := hex b hb
    rw [← e, ← e', hget i hi, hget j hj]
    exact hiff i j hi hj

theorem rankInv_init (s : Str) : RankInv s 1 (s.map Int.ofNat) := by
  have hget : ∀ a, a < s.length → (s.map Int.ofNat).getD a 0 = ((s.getD a 0 : Nat) : Int) := by
    intro a ha
    rw [List.getD_eq_getElem _ _ (by simpa using ha), List.getD_eq_getElem _ _ ha,
      List.getElem_map]
    rfl
  have hpre : ∀ a, a < s.length → pre s 1 a = [s.getD a 0] := by
    intro a ha
    unfold pre
    rw [List.drop_eq_getElem_cons ha, List.getD_eq_getElem _ _ ha]
    rfl
  refine ⟨by simp, ?_, ?_⟩
  · intro a ha
    rw [hget a ha]
    exact Int.ofNat_nonneg _
  · intro a b ha hb
    rw [hget a ha, hget b hb, hpre a ha, hpre b hb]
    simp [lexLt]

theorem saLoop_sorted (sort : (Nat → Nat → Bool) → List Nat → List Nat) (hs : SortContract sort)
    (s : Str) : ∀ (fuel k : Nat) (sa : List Nat) (rk tmp : List Int) (out : List Nat),
      0 < k → sa.Perm (List.range s.length) → RankInv s k rk → tmp.length = s.length →
      (s.length ≤ k → SortedSuffixes s sa) →
      saLoop sort s.length fuel k sa rk tmp = some out → SortedSuffixes s out := by
  intro fuel
  induction fuel with
  | zero =>
    intro k sa rk tmp out hk hp hinv htmp hdone h
    unfold saLoop at h
    by_cases hkn : k < s.length
    · simp [hkn] at h
    · simp [hkn] at h; subst h; exact hdone (by omega)
  | succ fuel ih =>
    intro k sa rk tmp out hk hp hinv htmp hdone h
    unfold saLoop at h
    by_cases hkn : k < s.length
    · simp only [hkn, if_true] at h
      obtain ⟨hp1, hsorted⟩ := hs (cmp s.length k rk) sa (cmp_strictWeak _ _ _)
      have hp1' := hp1.trans hp
      obtain ⟨hlen, hnd, hlt, hex⟩ := perm_range_facts _ s.length hp1'
      obtain ⟨hinv', hiff⟩ := rerank_rankInv s k rk tmp _ hk hinv hp1' hsorted htmp
      split at h
      · rename_i hbreak
        simp only [Option.some.injEq] at h
        subst h
        rw [rerank_spec _ _ _ tmp hlen hnd (fun x hx => by rw [htmp]; exact hlt x hx)
          (s.length - 1) (by omega)] at hbreak
        intro i j hij hj
        have hid : ∀ t, t < s.length →
            rankAt (cmp s.length k rk) (sort (cmp s.length k rk) sa) t = (t : Int) := by
          intro t ht
          have h1 := (rankAt_mono (cmp s.length k rk) (sort (cmp s.length k rk) sa) t
            (s.length - 1) (by omega)).2
          have h2 := (rankAt_bounds (cmp s.length k rk) (sort (cmp s.length k rk) sa) t).2
          omega
        have hlt' := (hiff i j (by omega) hj).1
          (by rw [hid i (by omega), hid j (by omega)]; exact_mod_cast hij)
        have := lexLt_of_take (k * 2) _ _ hlt'
        unfold lexLe
        rw [lexLt_asymm _ _ this]
        rfl
      · refine ih (k * 2) _ _ _ out (by omega) hp1' hinv' (by rw [rerank_length, htmp]) ?_ h
        intro hfull i j hij hj
        have h1 := sorted_getD _ _ hsorted i j hij hj
        have hj' : (sort (cmp s.length k rk) sa).getD j 0 < s.length :=
          hlt _ (getD_mem _ j hj)
        have hi' : (sort (cmp s.length k rk) sa).getD i 0 < s.length :=
          hlt _ (getD_mem _ i (by omega))
        have h2 := cmp_spec s k rk hk hinv _ _ hj' hi'
        rw [pre_full s _ _ hfull, pre_full s _ _ hfull] at h2
        unfold lexLe
        cases hx : lexLt (s.drop ((sort (cmp s.length k rk) sa).getD j 0))
          (s.drop ((sort (cmp s.length k rk) sa).getD i 0))
        · rfl
        · rw [h2.2 hx] at h1; cases h1
    · simp [hkn] at h; subst h; exact hdone (by omega)

/-- The array that `buildSuffixArray` returns is the suffix array of `s`. -/
theorem buildSuffixArray_isSuffixArray (sort : (Nat → Nat → Bool) → List Nat → List Nat)
    (hs : SortContract sort) (s : Str) (sa : List Nat) (h : buildSuffixArray sort s = some sa) :
    IsSuffixArray s sa := by
  have hp := saLoop_perm sort hs s.length _ _ _ _ _ sa h (List.Perm.refl _)
  refine ⟨hp, ?_⟩
  refine saLoop_sorted sort hs s s.length 1 (List.range s.length) (s.map Int.ofNat)
    (List.replicate s.length 0) sa (by omega) (List.Perm.refl _) (rankInv_init s) (by simp)
    ?_ h
  intro h1 i j hij hj
  simp at hj
  omega

/-- C2: in the array that `buildSuffixArray` returns, an earlier entry never starts a suffix
that is lexicographically greater than the suffix of a later entry (bytes compared as unsigned
values, a proper prefix before its extensions). -/
theorem buildSuffixArray_sorted (sort : (Nat → Nat → Bool) → List Nat → List Nat)
    (hs : SortContract sort) (s : Str) (sa : List Nat) (h : buildSuffixArray sort s = some sa)
    (i j : Nat) (hij : i < j) (hj : j < s.length) :
    lexLe (s.drop (sa.getD i 0)) (s.drop (sa.getD j 0)) = true := by
  have hsa := buildSuffixArray_isSuffixArray sort hs s sa h
  have hlen : sa.length = s.length := by simpa using hsa.1.length_eq
  exact hsa.2 i j hij (by omega)

theorem buildSuffixArray_sorted_witness :
    SortContract insertionSort ∧
    buildSuffixArray insertionSort [98, 97, 110, 97, 110, 97] = some [5, 3, 1, 0, 4, 2] ∧
    0 < 1 ∧ 1 < ([98, 97, 110, 97, 110, 97] : Str).length ∧
    lexLe (([98, 97, 110, 97, 110, 97] : Str).drop (([5, 3, 1, 0, 4, 2] : List Nat).getD 0 0))
      (([98, 97, 110, 97, 110, 97] : Str).drop (([5, 3, 1, 0, 4, 2] : List Nat).getD 1 0))
      = true :=
  ⟨insertionSort_contract, by decide, by decide, by decide,
    buildSuffixArray_sorted insertionSort insertionSort_contract [98, 97, 110, 97, 110, 97]
      [5, 3, 1, 0, 4, 2] (by decide) 0 1 (by decide) (by decide)⟩

/-! ## Range search -/

theorem compareStr_neg_iff : ∀ (x y : Str), compareStr x y < 0 ↔ lexLt x y = true
  | [], [] => by simp [compareStr, lexLt]
  | [], _ :: _ => by simp [compareStr, lexLt]
  | _ :: _, [] => by simp [compareStr, lexLt]
  | a :: as, b :: bs => by
    rw [lexLt_cons_cons]
    simp only [compareStr]
    have ih := compareStr_neg_iff as bs
    by_cases h1 : a < b
    · rw [if_pos h1]
      exact ⟨fun _ => Or.inl h1, fun _ => by omega⟩
    · by_cases h2 : b < a
      · rw [if_neg h1, if_pos h2]
        constructor
        · intro h; omega
        · rintro (h | ⟨h, -⟩)
          · omega
          · omega
      · rw [if_neg h1, if_neg h2, ih]
        constructor
        · intro h; exact Or.inr ⟨by omega, h⟩
        · rintro (h | ⟨-, h⟩)
          · omega
          · exact h

theorem compareStr_pos_iff : ∀ (x y : Str), 0 < compareStr x y ↔ lexLt y x = true
  | [], [] => by simp [compareStr, lexLt]
  | [], _ :: _ => by simp [compareStr, lexLt]
  | _ :: _, [] => by simp [compareStr, lexLt]
  | a :: as, b :: bs => by
    rw [lexLt_cons_cons]
    simp only [compareStr]
    have ih := compareStr_pos_iff as bs
    by_cases h1 : a < b
    · rw [if_pos h1]
      constructor
      · intro h; omega
      · rintro (h | ⟨h, -⟩)
        · omega
        · omega
    · by_cases h2 : b < a
      · rw [if_neg h1, if_pos h2]
        exact ⟨fun _ => Or.inl h2, fun _ => by omega⟩
      · rw [if_neg h1, if_neg h2, ih]
        constructor
        · intro h; exact Or.inr ⟨by omega, h⟩
        · rintro (h | ⟨-, h⟩)
          · omega
          · exact h

theorem compareStr_le_iff (x y : Str) : compareStr x y ≤ 0 ↔ lexLt y x = false := by
  have := compareStr_pos_iff x y
  constructor
  · intro h
    cases hx : lexLt y x
    · rfl
    · have := this.2 hx; omega
  · intro h
    by_contra hn
    have := this.1 (by omega)
    rw [h] at this; cases this

theorem lowerBoundLoop_eq (s : Str) (sa : List Nat) (pat : Str) :
    ∀ fuel lo hi, lowerBoundLoop s sa pat fuel lo hi =
      searchLoop (fun i => (substrCompare s (sa.getD i 0) pat.length pat).map
        (fun c => decide (c < 0))) fuel lo hi := by
  intro fuel
  induction fuel with
  | zero => intro lo hi; unfold lowerBoundLoop searchLoop; rfl
  | succ fuel ih =>
    intro lo hi
    unfold lowerBoundLoop searchLoop
    by_cases h : lo < hi
    · simp only [h, if_true]
      cases hc : substrCompare s (sa.getD ((lo + hi) / 2) 0) pat.length pat with
      | none => simp
      | some c =>
        simp only [Option.map_some', decide_eq_true_eq]
        split
        · exact ih _ _
        · exact ih _ _
    · simp [h]

theorem upperBoundLoop_eq (s : Str) (sa : List Nat) (pat : Str) :
    ∀ fuel lo hi, upperBoundLoop s sa pat fuel lo hi =
      searchLoop (fun i => (substrCompare s (sa.getD i 0) pat.length pat).map
        (fun c => decide (c ≤ 0))) fuel lo hi := by
  intro fuel
  induction fuel with
  | zero => intro lo hi; unfold upperBoundLoop searchLoop; rfl
  | succ fuel ih =>
    intro lo hi
    unfold upperBoundLoop searchLoop
    by_cases h : lo < hi
    · simp only [h, if_true]
      cases hc : substrCompare s (sa.getD ((lo + hi) / 2) 0) pat.length pat with
      | none => simp
      | some c =>
        simp only [Option.map_some', decide_eq_true_eq]
        split
        · exact ih _ _
        · exact ih _ _
    · simp [h]

/-- The binary search returns the boundary of a predicate that holds on an initial run. -/
theorem searchLoop_spec (P : Nat → Option Bool) (Q : Nat → Bool) :
    ∀ fuel lo hi, lo ≤ hi → hi - lo ≤ fuel →
      (∀ i, lo ≤ i → i < hi → P i = some (Q i)) →
      (∀ i j, lo ≤ i → i ≤ j → j < hi → Q j = true → Q i = true) →
      ∃ r, searchLoop P fuel lo hi = some r ∧ lo ≤ r ∧ r ≤ hi ∧
        (∀ i, lo ≤ i → i < r → Q i = true) ∧ (∀ i, r ≤ i → i < hi → Q i = false) := by
  intro fuel
  induction fuel with
  | zero =>
    intro lo hi hle hf hP hmono
    have : lo = hi := by omega
    subst this
    unfold searchLoop
    simp only [lt_self_iff_false, if_false]
    exact ⟨lo, rfl, le_refl _, le_refl _, fun i h1 h2 => by omega, fun i h1 h2 => by omega⟩
  | succ fuel ih =>
    intro lo hi hle hf hP hmono
    unfold searchLoop
    by_cases h : lo < hi
    · simp only [h, if_true]
      have hm1 : lo ≤ (lo + hi) / 2 := by omega
      have hm2 : (lo + hi) / 2 < hi := by omega
      rw [hP _ hm1 hm2]
      simp only
      cases hq : Q ((lo + hi) / 2)
      · simp only [Bool.false_eq_true, if_false]
        obtain ⟨r, hr, h1, h2, h3, h4⟩ := ih lo ((lo + hi) / 2) hm1 (by omega)
          (fun i hi1 hi2 => hP i hi1 (by omega))
          (fun i j hi1 hij hj hqj => hmono i j hi1 hij (by omega) hqj)
        refine ⟨r, hr, h1, by omega, h3, ?_⟩
        intro i hi1 hi2
        by_cases him : i < (lo + hi) / 2
        · exact h4 i hi1 him
        · cases hqi : Q i
          · rfl
          · have := hmono ((lo + hi) / 2) i hm1 (by omega) hi2 hqi
            rw [hq] at this; cases this
      · simp only [if_true]
        obtain ⟨r, hr, h1, h2, h3, h4⟩ := ih ((lo + hi) / 2 + 1) hi (by omega) (by omega)
          (fun i hi1 hi2 => hP i (by omega) hi2)
          (fun i j hi1 hij hj hqj => hmono i j (by omega) hij hj hqj)
        refine ⟨r, hr, by omega, h2, ?_, h4⟩
        intro i hi1 hi2
        by_cases him : (lo + hi) / 2 + 1 ≤ i
        · exact h3 i him hi2
        · exact hmono i ((lo + hi) / 2) hi1 (by omega) hm2 hq
    · have : lo = hi := by omega
      subst this
      simp only [lt_self_iff_false, if_false]
      exact ⟨lo, rfl, le_refl _, le_refl _, fun i h1 h2 => by omega, fun i h1 h2 => by omega⟩

theorem take_sorted (s : Str) (sa : List Nat) (h : IsSuffixArray s sa) (m i j : Nat)
    (hij : i ≤ j) (hj : j < sa.length) :
    lexLt ((s.drop (sa.getD j 0)).take m) ((s.drop (sa.getD i 0)).take m) = false := by
  rcases Nat.eq_or_lt_of_le hij with e | hlt
  · subst e; exact lexLt_irrefl _
  · have h1 := h.2 i j hlt hj
    unfold lexLe at h1
    cases hx : lexLt ((s.drop (sa.getD j 0)).take m) ((s.drop (sa.getD i 0)).take m)
    · rfl
    · rw [lexLt_of_take m _ _ hx] at h1; cases h1

theorem substrCompare_sa (s : Str) (sa : List Nat) (h : IsSuffixArray s sa) (pat : Str)
    (i : Nat) (hi : i < sa.length) :
    substrCompare s (sa.getD i 0) pat.length pat =
      some (compareStr ((s.drop (sa.getD i 0)).take pat.length) pat) := by
  obtain ⟨hlen, hnd, hlt, hex⟩ := perm_range_facts sa s.length h.1
  unfold substrCompare
  rw [if_pos (Nat.le_of_lt (hlt _ (getD_mem sa i hi)))]

/-- The lower bound is the number of suffixes whose first `|pat|` bytes are below `pat`. -/
theorem suffixArrayLowerBound_spec (s : Str) (sa : List Nat) (h : IsSuffixArray s sa)
    (pat : Str) :
    ∃ lo, suffixArrayLowerBound s sa pat = some lo ∧ lo ≤ sa.length ∧
      (∀ i, i < lo → lexLt ((s.drop (sa.getD i 0)).take pat.length) pat = true) ∧
      (∀ i, lo ≤ i → i < sa.length →
        lexLt ((s.drop (sa.getD i 0)).take pat.length) pat = false) := by
  unfold suffixArrayLowerBound
  rw [lowerBoundLoop_eq]
  obtain ⟨r, hr, -, h2, h3, h4⟩ := searchLoop_spec
    (fun i => (substrCompare s (sa.getD i 0) pat.length pat).map (fun c => decide (c < 0)))
    (fun i => lexLt ((s.drop (sa.getD i 0)).take pat.length) pat)
    sa.length 0 sa.length (Nat.zero_le _) (by omega)
    (by
      intro i _ hi
      simp only [substrCompare_sa s sa h pat i hi, Option.map_some', Option.some.injEq]
      cases hx : lexLt ((s.drop (sa.getD i 0)).take pat.length) pat
      · rw [decide_eq_false_iff_not, compareStr_neg_iff, hx]; simp
      · rw [decide_eq_true_iff, compareStr_neg_iff, hx])
    (by
      intro i j _ hij hj hq
      exact lexLt_of_le_of_lt _ _ _ (take_sorted s sa h pat.length i j hij hj) hq)
  exact ⟨r, hr, h2, fun i hi => h3 i (Nat.zero_le _) hi, h4⟩

/-- The upper bound is the number of suffixes whose first `|pat|` bytes are not above `pat`. -/
theorem suffixArrayUpperBound_spec (s : Str) (sa : List Nat) (h : IsSuffixArray s sa)
    (pat : Str) :
    ∃ hi, suffixArrayUpperBound s sa pat = some hi ∧ hi ≤ sa.length ∧
      (∀ i, i < hi → lexLt pat ((s.drop (sa.getD i 0)).take pat.length) = false) ∧
      (∀ i, hi ≤ i → i < sa.length →
        lexLt pat ((s.drop (sa.getD i 0)).take pat.length) = true) := by
  unfold suffixArrayUpperBound
  rw [upperBoundLoop_eq]
  obtain ⟨r, hr, -, h2, h3, h4⟩ := searchLoop_spec
    (fun i => (substrCompare s (sa.getD i 0) pat.length pat).map (fun c => decide (c ≤ 0)))
    (fun i => !lexLt pat ((s.drop (sa.getD i 0)).take pat.length))
    sa.length 0 sa.length (Nat.zero_le _) (by omega)
    (by
      intro i _ hi
      simp only [substrCompare_sa s sa h pat i hi, Option.map_some', Option.some.injEq]
      cases hx : lexLt pat ((s.drop (sa.getD i 0)).take pat.length)
      · rw [Bool.not_false, decide_eq_true_iff, compareStr_le_iff, hx]
      · rw [Bool.not_true, decide_eq_false_iff_not, compareStr_le_iff, hx]; simp)
    (by
      intro i j _ hij hj hq
      simp only [Bool.not_eq_true'] at hq ⊢
      cases hx : lexLt pat ((s.drop (sa.getD i 0)).take pat.length)
      · rfl
      · have := lexLt_of_lt_of_le _ _ _ hx (take_sorted s sa h pat.length i j hij hj)
        rw [this] at hq; cases hq)
  refine ⟨r, hr, h2, fun i hi => ?_, fun i hi1 hi2 => ?_⟩
  · simpa using h3 i (Nat.zero_le _) hi
  · simpa using h4 i hi1 hi2

/-- The indices between the two bounds are exactly those whose suffix starts with `p`. -/
theorem suffixArray_range (s : Str) (sa : List Nat) (h : IsSuffixArray s sa) (p : Str) :
    ∃ lo hi, suffixArrayLowerBound s sa p = some lo ∧ suffixArrayUpperBound s sa p = some hi ∧
      lo ≤ hi ∧ hi ≤ sa.length ∧
      ∀ i, i < sa.length →
        ((lo ≤ i ∧ i < hi) ↔ (s.drop (sa.getD i 0)).take p.length = p) := by
  obtain ⟨lo, hlo, l1, l2, l3⟩ := suffixArrayLowerBound_spec s sa h p
  obtain ⟨hi, hhi, u1, u2, u3⟩ := suffixArrayUpperBound_spec s sa h p
  have hle : lo ≤ hi := by
    by_contra hn
    have a1 := l2 hi (by omega)
    have a2 := u3 hi (le_refl _) (by omega)
    rw [lexLt_asymm _ _ a1] at a2
    cases a2
  refine ⟨lo, hi, hlo, hhi, hle, u1, ?_⟩
  intro i hi'
  constructor
  · rintro ⟨h1, h2⟩
    exact lexLt_total _ _ (l3 i h1 hi') (u2 i h2)
  · intro e
    constructor
    · by_contra hn
      have := l2 i (by omega)
      rw [e, lexLt_irrefl] at this
      cases this
    · by_contra hn
      have := u3 i (by omega) hi'
      rw [e, lexLt_irrefl] at this
      cases this

theorem map_getD_range' (sa : List Nat) :
    (List.range' 0 sa.length).map (fun i => sa.getD i 0) = sa := by
  apply List.ext_getElem
  · simp
  · intro n h1 h2
    rw [List.getElem_map, List.getElem_range', show 0 + 1 * n = n by omega,
      List.getD_eq_getElem _ _ h2]

theorem range'_split (lo hi n : Nat) (h1 : lo ≤ hi) (h2 : hi ≤ n) :
    List.range' 0 n = List.range' 0 lo ++ (List.range' lo (hi - lo) ++ List.range' hi (n - hi)) := by
  have e1 : List.range' lo (hi - lo) ++ List.range' hi (n - hi) = List.range' lo (n - lo) := by
    have := List.range'_append lo (hi - lo) (n - hi) 1
    rw [show lo + 1 * (hi - lo) = hi by omega, show n - hi + (hi - lo) = n - lo by omega] at this
    exact this
  rw [e1]
  have := List.range'_append 0 lo (n - lo) 1
  rw [show 0 + 1 * lo = lo by omega, show n - lo + lo = n by omega] at this
  exact this.symm

/-- The entries between the two bounds are a rearrangement of the start positions of `p`. -/
theorem suffixArray_range_perm (s : Str) (sa : List Nat) (h : IsSuffixArray s sa) (p : Str)
    (lo hi : Nat) (hle : lo ≤ hi) (hhi : hi ≤ sa.length)
    (hiff : ∀ i, i < sa.length →
        ((lo ≤ i ∧ i < hi) ↔ (s.drop (sa.getD i 0)).take p.length = p)) :
    ((List.range' lo (hi - lo)).map (fun i => sa.getD i 0)).Perm (occurrences s p) := by
  have hf : List.filter (fun q => decide ((s.drop q).take p.length = p)) sa =
      (List.range' lo (hi - lo)).map (fun i => sa.getD i 0) := by
    conv_lhs => rw [← map_getD_range' sa, range'_split lo hi sa.length hle hhi]
    rw [List.map_append, List.map_append, List.filter_append, List.filter_append]
    have e1 : List.filter (fun q => decide ((s.drop q).take p.length = p))
        ((List.range' 0 lo).map (fun i => sa.getD i 0)) = [] := by
      rw [List.filter_eq_nil_iff]
      intro a ha
      obtain ⟨i, hi1, rfl⟩ := List.mem_map.1 ha
      rw [List.mem_range'_1] at hi1
      simp only [decide_eq_true_eq]
      intro e
      have := (hiff i (by omega)).2 e
      omega
    have e2 : List.filter (fun q => decide ((s.drop q).take p.length = p))
        ((List.range' hi (sa.length - hi)).map (fun i => sa.getD i 0)) = [] := by
      rw [List.filter_eq_nil_iff]
      intro a ha
      obtain ⟨i, hi1, rfl⟩ := List.mem_map.1 ha
      rw [List.mem_range'_1] at hi1
      simp only [decide_eq_true_eq]
      intro e
      have := (hiff i (by omega)).2 e
      omega
    have e3 : List.filter (fun q => decide ((s.drop q).take p.length = p))
        ((List.range' lo (hi - lo)).map (fun i => sa.getD i 0)) =
        (List.range' lo (hi - lo)).map (fun i => sa.getD i 0) := by
      rw [List.filter_eq_self]
      intro a ha
      obtain ⟨i, hi1, rfl⟩ := List.mem_map.1 ha
      rw [List.mem_range'_1] at hi1
      simp only [decide_eq_true_eq]
      exact (hiff i (by omega)).1 ⟨hi1.1, by omega⟩
    rw [e1, e2, e3]
    simp
  rw [← hf]
  exact h.1.filter _

theorem mem_occurrences (s p : Str) (q : Nat) :
    q ∈ occurrences s p ↔ q < s.length ∧ (s.drop q).take p.length = p := by
  simp [occurrences]

/-- C3: for the suffix array of `s` and any pattern `p`, both bounds are returned, and with
`k` the number of start positions of `p` in `s`: `hi - lo = k`, the entries
`sa[lo], ..., sa[hi-1]` (the result of `findAllOccurrences`) are exactly the start positions
`q` with `s[q .. q+|p|) = p`, each once, and a pattern longer than `s` gives `lo = hi`. -/
theorem suffixArray_range_complete (sort : (Nat → Nat → Bool) → List Nat → List Nat)
    (hs : SortContract sort) (s p : Str) (sa : List Nat)
    (h : buildSuffixArray sort s = some sa) :
    ∃ lo hi r, suffixArrayLowerBound s sa p = some lo ∧
      suffixArrayUpperBound s sa p = some hi ∧ findAllOccurrences s sa p = some r ∧
      lo ≤ hi ∧ hi ≤ s.length ∧ hi - lo = (occurrences s p).length ∧
      r = (List.range' lo (hi - lo)).map (fun i => sa.getD i 0) ∧
      r.Perm (occurrences s p) ∧ r.Nodup ∧
      (∀ q, q ∈ r ↔ (q < s.length ∧ (s.drop q).take p.length = p)) ∧
      (s.length < p.length → lo = hi) := by
  have hsa := buildSuffixArray_isSuffixArray sort hs s sa h
  have hlen : sa.length = s.length := by simpa using hsa.1.length_eq
  obtain ⟨lo, hi, hlo, hhi, hle, hhi', hiff⟩ := suffixArray_range s sa hsa p
  have hperm := suffixArray_range_perm s sa hsa p lo hi hle hhi' hiff
  have hk : hi - lo = (occurrences s p).length := by
    rw [← hperm.length_eq]; simp
  refine ⟨lo, hi, _, hlo, hhi, ?_, hle, by omega, hk, rfl, hperm, ?_, ?_, ?_⟩
  · unfold findAllOccurrences
    rw [hlo, hhi]
  · exact hperm.symm.nodup ((List.nodup_range _).filter _)
  · intro q
    rw [hperm.mem_iff, mem_occurrences]
  · intro hlong
    have : (occurrences s p).length = 0 := by
      rw [List.length_eq_zero, occurrences, List.filter_eq_nil_iff]
      intro q _
      simp only [decide_eq_true_eq]
      intro e
      have := congrArg List.length e
      rw [List.length_take, List.length_drop] at this
      omega
    omega

theorem suffixArray_range_complete_witness :
    SortContract insertionSort ∧
    buildSuffixArray insertionSort [98, 97, 110, 97, 110, 97] = some [5, 3, 1, 0, 4, 2] ∧
    ∃ lo hi r, suffixArrayLowerBound [98, 97, 110, 97, 110, 97] [5, 3, 1, 0, 4, 2] [97, 110]
        = some lo ∧
      suffixArrayUpperBound [98, 97, 110, 97, 110, 97] [5, 3, 1, 0, 4, 2] [97, 110] = some hi ∧
      findAllOccurrences [98, 97, 110, 97, 110, 97] [5, 3, 1, 0, 4, 2] [97, 110] = some r ∧
      lo ≤ hi ∧ hi ≤ ([98, 97, 110, 97, 110, 97] : Str).length ∧
      hi - lo = (occurrences [98, 97, 110, 97, 110, 97] [97, 110]).length ∧
      r = (List.range' lo (hi - lo)).map (fun i => ([5, 3, 1, 0, 4, 2] : List Nat).getD i 0) ∧
      r.Perm (occurrences [98, 97, 110, 97, 110, 97] [97, 110]) ∧ r.Nodup ∧
      (∀ q, q ∈ r ↔ (q < ([98, 97, 110, 97, 110, 97] : Str).length ∧
        (([98, 97, 110, 97, 110, 97] : Str).drop q).take ([97, 110] : Str).length = [97, 110])) ∧
      (([98, 97, 110, 97, 110, 97] : Str).length < ([97, 110] : Str).length → lo = hi) :=
  ⟨insertionSort_contract, by decide,
    suffixArray_range_complete insertionSort insertionSort_contract [98, 97, 110, 97, 110, 97]
      [97, 110] [5, 3, 1, 0, 4, 2] (by decide)⟩

/-! ## The Levenshtein distance -/

theorem lev_nil_left (t : Str) : lev [] t = t.length := rfl

theorem lev_nil_right (s : Str) : lev s [] = s.length := by
  induction s with
  | nil => rfl
  | cons a s ih =>
    show levCons a (lev s) [] = _
    simp [levCons, ih]

theorem lev_cons_cons (a b : Nat) (s t : Str) :
    lev (a :: s) (b :: t) =
      min (min (lev s (b :: t) + 1) (lev (a :: s) t + 1)) (lev s t + (if a = b then 0 else 1)) :=
  rfl

/-- The distance `lev` is the Levenshtein distance of Mathlib with unit costs. -/
theorem lev_eq_levenshtein (s t : Str) : lev s t = levenshtein Levenshtein.defaultCost s t := by
  induction s generalizing t with
  | nil =>
    induction t with
    | nil => simp [lev_nil_left]
    | cons b t ih =>
      rw [levenshtein_nil_cons, ← ih]
      simp [lev_nil_left, Levenshtein.defaultCost]
      omega
  | cons a s ih =>
    induction t with
    | nil =>
      rw [levenshtein_cons_nil, ← ih, lev_nil_right, lev_nil_right]
      simp [Levenshtein.defaultCost]
      omega
    | cons b t ih2 =>
      rw [levenshtein_cons_cons, lev_cons_cons, ← ih, ← ih, ← ih2]
      simp only [Levenshtein.defaultCost]
      generalize (if a = b then 0 else 1) = c
      generalize lev s (b :: t) = x
      generalize lev (a :: s) t = y
      generalize lev s t = z
      omega

theorem lev_symm (s t : Str) : lev s t = lev t s := by
  induction s generalizing t with
  | nil => rw [lev_nil_left, lev_nil_right]
  | cons a s ih =>
    induction t with
    | nil => rw [lev_nil_left, lev_nil_right]
    | cons b t ih2 =>
      rw [lev_cons_cons, lev_cons_cons, ih (b :: t), ih2, ih t]
      have e : (if a = b then 0 else 1) = (if b = a then 0 else 1) := by
        by_cases h : a = b
        · subst h; rfl
        · rw [if_neg h, if_neg (fun h' => h h'.symm)]
      rw [e]
      generalize (if b = a then 0 else 1) = c
      omega

theorem lev_length_diff (s t : Str) :
    s.length ≤ t.length + lev s t ∧ t.length ≤ s.length + lev s t := by
  induction s generalizing t with
  | nil => rw [lev_nil_left]; simp
  | cons a s ih =>
    induction t with
    | nil => rw [lev_nil_right]; simp
    | cons b t ih2 =>
      rw [lev_cons_cons]
      have h1 := ih (b :: t)
      have h2 := ih t
      simp only [List.length_cons] at h1 h2 ih2 ⊢
      generalize (if a = b then 0 else 1) = c
      omega

theorem lev_self (s : Str) : lev s s = 0 := by
  induction s with
  | nil => rfl
  | cons a s ih =>
    rw [lev_cons_cons, ih]
    simp

/-- The recurrence of the Levenshtein distance on the last bytes of both strings. -/
theorem lev_snoc_snoc (a b : Nat) : ∀ (n : Nat) (s t : Str), s.length + t.length = n →
    lev (s ++ [a]) (t ++ [b]) =
      min (min (lev s (t ++ [b]) + 1) (lev (s ++ [a]) t + 1))
        (lev s t + (if a = b then 0 else 1)) := by
  intro n
  induction n using Nat.strong_induction_on with
  | _ n ih =>
    intro s t hn
    cases s with
    | nil =>
      cases t with
      | nil => rfl
      | cons y t =>
        have ih1 := ih (([] : Str).length + t.length) (by simp at hn ⊢; omega) [] t rfl
        simp only [List.nil_append, List.cons_append] at ih1 ⊢
        rw [lev_cons_cons, lev_cons_cons a y, ih1]
        simp only [lev_nil_left, List.length_append, List.length_cons, List.length_nil]
        generalize (if a = b then 0 else 1) = c
        generalize (if a = y then 0 else 1) = c2
        generalize lev [a] t = u
        omega
    | cons x s =>
      cases t with
      | nil =>
        have ih1 := ih (s.length + ([] : Str).length) (by simp at hn ⊢; omega) s [] rfl
        simp only [List.nil_append, List.cons_append] at ih1 ⊢
        rw [lev_cons_cons, lev_cons_cons x b, ih1]
        simp only [lev_nil_right, List.length_append, List.length_cons, List.length_nil]
        generalize (if a = b then 0 else 1) = c
        generalize (if x = b then 0 else 1) = c2
        generalize lev s [b] = u
        omega
      | cons y t =>
        have ih1 := ih (s.length + (y :: t).length) (by simp at hn ⊢; omega) s (y :: t) rfl
        have ih2 := ih ((x :: s).length + t.length) (by simp at hn ⊢; omega) (x :: s) t rfl
        have ih3 := ih (s.length + t.length) (by simp at hn ⊢; omega) s t rfl
        simp only [List.cons_append] at ih1 ih2 ih3 ⊢
        rw [lev_cons_cons, ih1, ih2, ih3, lev_cons_cons x y s (t ++ [b]),
          lev_cons_cons x y (s ++ [a]) t, lev_cons_cons x y s t]
        generalize (if a = b then 0 else 1) = c
        generalize (if x = y then 0 else 1) = c2
        generalize lev s (y :: (t ++ [b])) = u1
        generalize lev (s ++ [a]) (y :: t) = u2
        generalize lev s (y :: t) = u3
        generalize lev (x :: s) (t ++ [b]) = u4
        generalize lev (x :: (s ++ [a])) t = u5
        generalize lev (x :: s) t = u6
        generalize lev s (t ++ [b]) = u7
        generalize lev (s ++ [a]) t = u8
        generalize lev s t = u9
        simp only [← Nat.add_min_add_right]
        ac_rfl

theorem levAt_zero_left (s t : Str) (j : Nat) (hj : j ≤ t.length) : levAt s t 0 j = j := by
  unfold levAt
  rw [List.take_zero, lev_nil_left, List.length_take]
  omega

theorem levAt_zero_right (s t : Str) (i : Nat) (hi : i ≤ s.length) : levAt s t i 0 = i := by
  unfold levAt
  rw [List.take_zero, lev_nil_right, List.length_take]
  omega

theorem take_succ_getD (s : Str) (i : Nat) (hi : i < s.length) :
    s.take (i + 1) = s.take i ++ [s.getD i 0] := by
  rw [List.take_succ, List.getD_eq_getElem _ _ hi, List.getElem?_eq_getElem hi]
  rfl

theorem levAt_succ_succ (s t : Str) (i j : Nat) (hi : i < s.length) (hj : j < t.length) :
    levAt s t (i + 1) (j + 1) =
      min (min (levAt s t i (j + 1) + 1) (levAt s t (i + 1) j + 1))
        (levAt s t i j + (if s.getD i 0 = t.getD j 0 then 0 else 1)) := by
  unfold levAt
  rw [take_succ_getD s i hi, take_succ_getD t j hj]
  exact lev_snoc_snoc _ _ _ _ _ rfl

theorem levAt_diff (s t : Str) (i j : Nat) (hi : i ≤ s.length) (hj : j ≤ t.length) :
    i ≤ j + levAt s t i j ∧ j ≤ i + levAt s t i j := by
  have := lev_length_diff (s.take i) (t.take j)
  rw [List.length_take, List.length_take] at this
  unfold levAt
  omega

theorem levAt_full (s t : Str) : levAt s t s.length t.length = lev s t := by
  unfold levAt
  rw [List.take_length, List.take_length]

/-! ## The banded table -/

theorem cellStep_eq (maxDist : Nat) (s t : Str) (i : Nat) (prev cur : List Int) (j : Nat)
    (hidx : i ≤ j + maxDist) (hlen : cur.length = 2 * maxDist + 1)
    (hlt : j + maxDist - i < 2 * maxDist + 1) :
    cellStep maxDist s t i prev cur j =
      cur.set (j + maxDist - i) (cellVal maxDist s t i prev cur j) := by
  have e : ((j : Int) - (i : Int) + (maxDist : Int)).toNat = j + maxDist - i := by omega
  unfold cellStep cellVal
  simp only [e]
  by_cases h1 : i = 0 ∧ j = 0
  · rw [if_pos h1, if_pos h1]
  · rw [if_neg h1, if_neg h1]
    by_cases h2 : i = 0
    · rw [if_pos h2, if_pos h2]
    · rw [if_neg h2, if_neg h2]
      by_cases h3 : j = 0
      · rw [if_pos h3, if_pos h3]
      · rw [if_neg h3, if_neg h3]
        have hl : j + maxDist - i < cur.length := by omega
        have e2 : 2 * maxDist + 1 - 1 = 2 * maxDist := by omega
        rw [e2]
        by_cases h4 : j + maxDist - i > 0 ∧ j > 0
        · have hne : j + maxDist - i ≠ j + maxDist - i - 1 := by omega
          by_cases h5 : j + maxDist - i < 2 * maxDist
          · simp only [if_pos h4, if_pos h5, List.set_set, getD_set_self _ _ _ _ hl,
              getD_set_ne _ _ _ _ _ hne]
          · simp only [if_pos h4, if_neg h5, List.set_set, getD_set_self _ _ _ _ hl,
              getD_set_ne _ _ _ _ _ hne]
        · by_cases h5 : j + maxDist - i < 2 * maxDist
          · simp only [if_neg h4, if_pos h5, List.set_set, getD_set_self _ _ _ _ hl]
          · simp only [if_neg h4, if_neg h5]

theorem min3_facts (a b c d : Nat) (h : d = min (min a b) c) :
    d ≤ a ∧ d ≤ b ∧ d ≤ c ∧ (d = a ∨ d = b ∨ d = c) := by
  omega

theorem lb_step (M D D' k : Nat) (p : Int) (h : min (D' : Int) ((M : Int) + 1) ≤ p)
    (hD : D ≤ D' + k) : min (D : Int) ((M : Int) + 1) ≤ p + (k : Int) := by
  omega

theorem lb_step_one (M D D' : Nat) (p : Int) (h : min (D' : Int) ((M : Int) + 1) ≤ p)
    (hD : D ≤ D' + 1) : min (D : Int) ((M : Int) + 1) ≤ p + 1 := by
  omega

theorem ub_step (M D D' k : Nat) (p : Int) (h : D' ≤ M → p ≤ (D' : Int)) (hD : D = D' + k)
    (hM : D ≤ M) : p + (k : Int) ≤ (D : Int) := by
  have := h (by omega)
  omega

theorem ub_step_one (M D D' : Nat) (p : Int) (h : D' ≤ M → p ≤ (D' : Int)) (hD : D = D' + 1)
    (hM : D ≤ M) : p + 1 ≤ (D : Int) := by
  have := h (by omega)
  omega

/-- The value written to an inner cell keeps the two bounds of `RowOK`. -/
theorem cellVal_ok (maxDist : Nat) (s t : Str) (i : Nat) (prev cur : List Int) (j : Nat)
    (hi1 : 0 < i) (hin : i ≤ s.length) (hjm : j ≤ t.length) (hlo : i ≤ j + maxDist)
    (hhi : j ≤ i + maxDist) (hprev : RowOK maxDist s t (i - 1) prev)
    (hleft : 0 < j → i < j + maxDist →
      min (levAt s t i (j - 1) : Int) ((maxDist : Int) + 1) ≤ cur.getD (j + maxDist - i - 1) 0 ∧
      (levAt s t i (j - 1) ≤ maxDist →
        cur.getD (j + maxDist - i - 1) 0 ≤ (levAt s t i (j - 1) : Int))) :
    min (levAt s t i j : Int) ((maxDist : Int) + 1) ≤ cellVal maxDist s t i prev cur j ∧
    (levAt s t i j ≤ maxDist → cellVal maxDist s t i prev cur j ≤ (levAt s t i j : Int)) := by
  unfold cellVal
  have h1 : ¬ (i = 0 ∧ j = 0) := by omega
  have h2 : ¬ i = 0 := by omega
  rw [if_neg h1, if_neg h2]
  by_cases h3 : j = 0
  · rw [if_pos h3]
    subst h3
    rw [levAt_zero_right s t i hin]
    constructor
    · exact min_le_left _ _
    · intro _; exact le_refl _
  · rw [if_neg h3]
    obtain ⟨i', rfl⟩ : ∃ i', i = i' + 1 := ⟨i - 1, by omega⟩
    obtain ⟨j', rfl⟩ : ∃ j', j = j' + 1 := ⟨j - 1, by omega⟩
    obtain ⟨r1, r2, r3, r4⟩ := min3_facts _ _ _ _
      (levAt_succ_succ s t i' j' (by omega) (by omega))
    have hd := hprev.2.1 (j' + 1 + maxDist - (i' + 1)) j' (by omega) (by omega) (by omega)
    have hdl := (levAt_diff s t (i' + 1) j' (by omega) (by omega)).1
    have hdu := (levAt_diff s t i' (j' + 1) (by omega) (by omega)).2
    have hc : (if s.getD (i' + 1 - 1) 0 ≠ t.getD (j' + 1 - 1) 0 then (1 : Int) else 0) =
        (((if s.getD i' 0 = t.getD j' 0 then 0 else 1 : Nat)) : Int) := by
      simp only [Nat.add_sub_cancel]
      by_cases hh : s.getD i' 0 = t.getD j' 0
      · simp [hh]
      · simp [hh]
    rw [hc]
    simp only [Nat.add_sub_cancel] at hd hleft ⊢
    by_cases h4 : j' + 1 + maxDist - (i' + 1) > 0 ∧ j' + 1 > 0
    · have hl := hleft (by omega) (by omega)
      clear hleft
      by_cases h5 : j' + 1 + maxDist - (i' + 1) < 2 * maxDist
      · have hu := hprev.2.1 (j' + 1 + maxDist - (i' + 1) + 1) (j' + 1) (by omega) (by omega)
          (by omega)
        simp only [Nat.add_sub_cancel] at hu
        rw [if_pos h4, if_pos h5]
        constructor
        · exact le_min (le_min (lb_step _ _ _ _ _ hd.1 r3) (lb_step_one _ _ _ _ hl.1 r2))
            (lb_step_one _ _ _ _ hu.1 r1)
        · intro hM
          rcases r4 with e | e | e
          · exact (min_le_right _ _).trans (ub_step_one _ _ _ _ hu.2 e hM)
          · exact ((min_le_left _ _).trans (min_le_right _ _)).trans
              (ub_step_one _ _ _ _ hl.2 e hM)
          · exact ((min_le_left _ _).trans (min_le_left _ _)).trans
              (ub_step _ _ _ _ _ hd.2 e hM)
      · rw [if_pos h4, if_neg h5]
        have hU : maxDist + 1 ≤ levAt s t i' (j' + 1) := by omega
        constructor
        · exact le_min (lb_step _ _ _ _ _ hd.1 r3) (lb_step_one _ _ _ _ hl.1 r2)
        · intro hM
          rcases r4 with e | e | e
          · omega
          · exact (min_le_right _ _).trans (ub_step_one _ _ _ _ hl.2 e hM)
          · exact (min_le_left _ _).trans (ub_step _ _ _ _ _ hd.2 e hM)
    · clear hleft
      have hL : maxDist + 1 ≤ levAt s t (i' + 1) j' := by omega
      by_cases h5 : j' + 1 + maxDist - (i' + 1) < 2 * maxDist
      · have hu := hprev.2.1 (j' + 1 + maxDist - (i' + 1) + 1) (j' + 1) (by omega) (by omega)
          (by omega)
        simp only [Nat.add_sub_cancel] at hu
        rw [if_neg h4, if_pos h5]
        constructor
        · exact le_min (lb_step _ _ _ _ _ hd.1 r3) (lb_step_one _ _ _ _ hu.1 r1)
        · intro hM
          rcases r4 with e | e | e
          · exact (min_le_right _ _).trans (ub_step_one _ _ _ _ hu.2 e hM)
          · omega
          · exact (min_le_left _ _).trans (ub_step _ _ _ _ _ hd.2 e hM)
      · rw [if_neg h4, if_neg h5]
        have hU : maxDist + 1 ≤ levAt s t i' (j' + 1) := by omega
        constructor
        · exact lb_step _ _ _ _ _ hd.1 r3
        · intro hM
          rcases r4 with e | e | e
          · omega
          · omega
          · exact ub_step _ _ _ _ _ hd.2 e hM

theorem cellVal_ok_all (maxDist : Nat) (s t : Str) (i : Nat) (prev cur : List Int) (j : Nat)
    (hin : i ≤ s.length) (hjm : j ≤ t.length) (hlo : i ≤ j + maxDist)
    (hhi : j ≤ i + maxDist) (hprev : 0 < i → RowOK maxDist s t (i - 1) prev)
    (hleft : 0 < j → i < j + maxDist →
      min (levAt s t i (j - 1) : Int) ((maxDist : Int) + 1) ≤ cur.getD (j + maxDist - i - 1) 0 ∧
      (levAt s t i (j - 1) ≤ maxDist →
        cur.getD (j + maxDist - i - 1) 0 ≤ (levAt s t i (j - 1) : Int))) :
    min (levAt s t i j : Int) ((maxDist : Int) + 1) ≤ cellVal maxDist s t i prev cur j ∧
    (levAt s t i j ≤ maxDist → cellVal maxDist s t i prev cur j ≤ (levAt s t i j : Int)) := by
  by_cases hi : i = 0
  · subst hi
    rw [levAt_zero_left s t j hjm]
    have e : cellVal maxDist s t 0 prev cur j = (j : Int) := by
      unfold cellVal
      by_cases hj : j = 0
      · subst hj; simp
      · simp [hj]
    rw [e]
    exact ⟨min_le_left _ _, fun _ => le_refl _⟩
  · exact cellVal_ok maxDist s t i prev cur j (by omega) hin hjm hlo hhi (hprev (by omega)) hleft

/-- The inner loop after `k` cells: the cells done satisfy the bounds, the others hold `INF`. -/
theorem inner_inv (maxDist : Nat) (s t : Str) (i : Nat) (prev : List Int)
    (hin : i ≤ s.length) (hprev : 0 < i → RowOK maxDist s t (i - 1) prev) :
    ∀ k, (0 < k → i - maxDist + k ≤ min t.length (i + maxDist) + 1) →
      ((List.range' (i - maxDist) k).foldl (cellStep maxDist s t i prev)
        (List.replicate (2 * maxDist + 1) ((maxDist : Int) + 1))).length = 2 * maxDist + 1 ∧
      (∀ idx j, idx < 2 * maxDist + 1 → j + maxDist = i + idx → i - maxDist ≤ j →
        j < i - maxDist + k →
        min (levAt s t i j : Int) ((maxDist : Int) + 1) ≤
          ((List.range' (i - maxDist) k).foldl (cellStep maxDist s t i prev)
            (List.replicate (2 * maxDist + 1) ((maxDist : Int) + 1))).getD idx 0 ∧
        (levAt s t i j ≤ maxDist →
          ((List.range' (i - maxDist) k).foldl (cellStep maxDist s t i prev)
            (List.replicate (2 * maxDist + 1) ((maxDist : Int) + 1))).getD idx 0 ≤
              (levAt s t i j : Int))) ∧
      (∀ idx, idx < 2 * maxDist + 1 →
        (∀ j, j + maxDist = i + idx → i - maxDist ≤ j → j < i - maxDist + k → False) →
        ((List.range' (i - maxDist) k).foldl (cellStep maxDist s t i prev)
          (List.replicate (2 * maxDist + 1) ((maxDist : Int) + 1))).getD idx 0 =
            (maxDist : Int) + 1) := by
  intro k
  induction k with
  | zero =>
    intro _
    simp only [List.range'_zero, List.foldl_nil]
    refine ⟨by simp, ?_, ?_⟩
    · intro idx j _ _ h1 h2
      omega
    · intro idx hidx _
      rw [List.getD_eq_getElem _ _ (by simpa using hidx)]
      simp
  | succ k ih =>
    intro hk'
    have hk := hk' (by omega)
    obtain ⟨hlen, hdone, hrest⟩ := ih (by omega)
    rw [List.range'_concat, List.foldl_append]
    simp only [List.foldl_cons, List.foldl_nil, Nat.one_mul]
    generalize hcur : (List.range' (i - maxDist) k).foldl (cellStep maxDist s t i prev)
      (List.replicate (2 * maxDist + 1) ((maxDist : Int) + 1)) = cur at hlen hdone hrest
    have hj1 : i ≤ i - maxDist + k + maxDist := by omega
    have hj2 : i - maxDist + k ≤ i + maxDist := by omega
    have hj3 : i - maxDist + k ≤ t.length := by omega
    rw [cellStep_eq maxDist s t i prev cur (i - maxDist + k) hj1 hlen (by omega)]
    have hval := cellVal_ok_all maxDist s t i prev cur (i - maxDist + k) hin hj3 hj1 hj2 hprev
      (by
        intro h0 h1
        exact hdone (i - maxDist + k + maxDist - i - 1) (i - maxDist + k - 1) (by omega)
          (by omega) (by omega) (by omega))
    refine ⟨by rw [List.length_set]; exact hlen, ?_, ?_⟩
    · intro idx j hidx hj h1 h2
      by_cases hjk : j = i - maxDist + k
      · subst hjk
        have e : idx = i - maxDist + k + maxDist - i := by omega
        rw [e, getD_set_self _ _ _ _ (by omega)]
        exact hval
      · rw [getD_set_ne _ _ _ _ _ (by omega)]
        exact hdone idx j hidx hj h1 (by omega)
    · intro idx hidx hno
      have hne : i - maxDist + k + maxDist - i ≠ idx := by
        intro e
        exact hno (i - maxDist + k) (by omega) (by omega) (by omega)
      rw [getD_set_ne _ _ _ _ _ hne]
      exact hrest idx hidx (fun j a b c => hno j a b (by omega))

/-- Filling row `i` from a correct row `i - 1` gives a correct row. -/
theorem rowStep_ok (maxDist : Nat) (s t : Str) (i : Nat) (prev : List Int)
    (hin : i ≤ s.length) (hprev : 0 < i → RowOK maxDist s t (i - 1) prev) :
    RowOK maxDist s t i (rowStep maxDist s t i prev) := by
  unfold rowStep
  simp only
  by_cases hemp : i - maxDist ≤ min t.length (i + maxDist) + 1
  · obtain ⟨hlen, hdone, hrest⟩ := inner_inv maxDist s t i prev hin hprev
      (min t.length (i + maxDist) + 1 - (i - maxDist)) (by omega)
    refine ⟨hlen, ?_, ?_⟩
    · intro idx j hidx hj hjm
      exact hdone idx j hidx hj (by omega) (by omega)
    · intro idx hidx hout
      rw [hrest idx hidx (by intro j a b c; omega)]
  · have e : min t.length (i + maxDist) + 1 - (i - maxDist) = 0 := by omega
    rw [e]
    obtain ⟨hlen, hdone, hrest⟩ := inner_inv maxDist s t i prev hin hprev 0 (by omega)
    refine ⟨hlen, ?_, ?_⟩
    · intro idx j hidx hj hjm
      omega
    · intro idx hidx hout
      rw [hrest idx hidx (by intro j a b c; omega)]

/-- After the outer loop has handled the rows `0 .. k`, the row of parity `k` is correct. -/
theorem outer_inv (maxDist : Nat) (s t : Str) (dp0 : List Int × List Int) :
    ∀ k, k ≤ s.length →
      RowOK maxDist s t k
        (if k % 2 = 0 then ((List.range (k + 1)).foldl (outerStep maxDist s t) dp0).1
          else ((List.range (k + 1)).foldl (outerStep maxDist s t) dp0).2) := by
  intro k
  induction k with
  | zero =>
    intro _
    have e : (List.range (0 + 1)).foldl (outerStep maxDist s t) dp0 =
        (rowStep maxDist s t 0 dp0.2, dp0.2) := by
      simp [List.range_succ, outerStep]
    rw [e]
    simp only [Nat.zero_mod, if_true]
    exact rowStep_ok maxDist s t 0 dp0.2 (Nat.zero_le _) (fun h => absurd h (by omega))
  | succ k ih =>
    intro hk
    have ih' := ih (by omega)
    rw [List.range_succ, List.foldl_append]
    simp only [List.foldl_cons, List.foldl_nil]
    generalize (List.range (k + 1)).foldl (outerStep maxDist s t) dp0 = dp at ih'
    unfold outerStep
    by_cases hpar : (k + 1) % 2 = 0
    · have hk2 : ¬ k % 2 = 0 := by omega
      rw [if_neg hk2] at ih'
      simp only [hpar, if_true]
      exact rowStep_ok maxDist s t (k + 1) dp.2 hk (fun _ => by simpa using ih')
    · have hk2 : k % 2 = 0 := by omega
      rw [if_pos hk2] at ih'
      simp only [hpar, if_false]
      exact rowStep_ok maxDist s t (k + 1) dp.1 hk (fun _ => by simpa using ih')

/-- When the lengths differ by at most `maxDist` the final read is inside the row, and the
value read is at least the true distance capped at `maxDist + 1` and at most the true distance
when that is within the band. -/
theorem editDistance_core (maxDist : Nat) (s t : Str)
    (h1 : t.length ≤ s.length + maxDist) (h2 : s.length ≤ t.length + maxDist) :
    ∃ v, editDistance maxDist s t = some v ∧
      min (lev s t : Int) ((maxDist : Int) + 1) ≤ v ∧ (lev s t ≤ maxDist → v ≤ (lev s t : Int)) := by
  have hrow := outer_inv maxDist s t
    ((List.replicate (2 * maxDist + 1) ((maxDist : Int) + 1)).set maxDist 0,
      List.replicate (2 * maxDist + 1) ((maxDist : Int) + 1)) s.length (le_refl _)
  unfold editDistance
  simp only
  generalize (List.range (s.length + 1)).foldl (outerStep maxDist s t)
    ((List.replicate (2 * maxDist + 1) ((maxDist : Int) + 1)).set maxDist 0,
      List.replicate (2 * maxDist + 1) ((maxDist : Int) + 1)) = dp at hrow
  have hidx : 0 ≤ (t.length : Int) - (s.length : Int) + (maxDist : Int) ∧
      (t.length : Int) - (s.length : Int) + (maxDist : Int) < ((2 * maxDist + 1 : Nat) : Int) := by
    omega
  rw [if_pos hidx]
  have e : ((t.length : Int) - (s.length : Int) + (maxDist : Int)).toNat =
      t.length + maxDist - s.length := by omega
  rw [e]
  generalize (if s.length % 2 = 0 then dp.1 else dp.2) = row at hrow
  have hlt : t.length + maxDist - s.length < row.length := by rw [hrow.1]; omega
  refine ⟨row.getD (t.length + maxDist - s.length) 0, ?_, ?_⟩
  · rw [List.getD_eq_getElem _ _ hlt, List.getElem?_eq_getElem hlt]
  · have := hrow.2.1 (t.length + maxDist - s.length) t.length (by omega) (by omega) (le_refl _)
    rw [levAt_full] at this
    exact this

/-- When the lengths differ by more than `maxDist`, the index of the final read is outside the
row: the read is undefined for every such input. -/
theorem editDistance_out_of_band (maxDist : Nat) (s t : Str)
    (h : s.length + maxDist < t.length ∨ t.length + maxDist < s.length) :
    editDistance maxDist s t = none := by
  unfold editDistance
  simp only
  rw [if_neg]
  omega

/-- When the lengths differ by at most `maxDist` and the true distance is above `maxDist`, the
value returned is above `maxDist`. -/
theorem editDistance_above_in_band (maxDist : Nat) (s t : Str)
    (h1 : t.length ≤ s.length + maxDist) (h2 : s.length ≤ t.length + maxDist)
    (h : maxDist < lev s t) :
    ∃ v, editDistance maxDist s t = some v ∧ (maxDist : Int) < v := by
  obtain ⟨v, hv, hlb, -⟩ := editDistance_core maxDist s t h1 h2
  exact ⟨v, hv, by omega⟩

/-- C4: when the true Levenshtein distance is at most `maxDist`, `editDistance<maxDist>`
returns exactly that distance. -/
theorem editDistance_exact (maxDist : Nat) (s t : Str) (h : lev s t ≤ maxDist) :
    editDistance maxDist s t = some (lev s t : Int) := by
  have hd := lev_length_diff s t
  obtain ⟨v, hv, hlb, hub⟩ := editDistance_core maxDist s t (by omega) (by omega)
  have := hub h
  rw [hv]
  congr 1
  omega

theorem editDistance_exact_witness :
    lev [107, 105, 116, 116, 101, 110] [115, 105, 116, 116, 105, 110, 103] ≤ 3 ∧
    editDistance 3 [107, 105, 116, 116, 101, 110] [115, 105, 116, 116, 105, 110, 103] =
      some (lev [107, 105, 116, 116, 101, 110] [115, 105, 116, 116, 105, 110, 103] : Int) :=
  ⟨by decide, editDistance_exact 3 _ _ (by decide)⟩

set_option maxRecDepth 100000 in
/-- C5: for `maxDist = 1` and the strings `"abc"`, `"def"`, whose true distance is 3,
`editDistance<1>` returns 3 and not the sentinel `maxDist + 1 = 2`; for `maxDist = 10` (the
band of the mapper) and two strings of 12 bytes that differ everywhere it returns 12 and not
the sentinel 11. -/
theorem editDistance_not_sentinel :
    lev [97, 98, 99] [100, 101, 102] = 3 ∧
    editDistance 1 [97, 98, 99] [100, 101, 102] = some 3 ∧
    editDistance 1 [97, 98, 99] [100, 101, 102] ≠ some ((1 : Int) + 1) ∧
    lev [1, 2, 3, 4, 5, 6, 7, 8, 9, 10, 11, 12]
      [21, 22, 23, 24, 25, 26, 27, 28, 29, 30, 31, 32] = 12 ∧
    editDistance 10 [1, 2, 3, 4, 5, 6, 7, 8, 9, 10, 11, 12]
      [21, 22, 23, 24, 25, 26, 27, 28, 29, 30, 31, 32] = some 12 := by
  decide

/-- C6: for `maxDist = 0` and the strings `""`, `"a"`, whose true distance is 1, the final
read of `editDistance<0>` is outside the row, so no value above `maxDist` is returned. -/
theorem editDistance_no_value :
    lev [] [97] = 1 ∧ editDistance 0 [] [97] = none ∧
    ¬ ∃ v, editDistance 0 [] [97] = some v ∧ (0 : Int) < v := by
  decide

/-- C7: for `maxDist = 1`, `s = "ab"` and `t = "abcd"` the lengths differ by 2, the final
index `m - n + maxDist = 3` is not within `[0, 2 * maxDist + 1) = [0, 3)`, and the read is
undefined instead of giving the sentinel. -/
theorem editDistance_read_out_of_row :
    (1 : Int) < |(([97, 98, 99, 100] : Str).length : Int) - (([97, 98] : Str).length : Int)| ∧
    ¬ ((([97, 98, 99, 100] : Str).length : Int) - (([97, 98] : Str).length : Int) + 1 <
      ((2 * 1 + 1 : Nat) : Int)) ∧
    editDistance 1 [97, 98] [97, 98, 99, 100] = none ∧
    editDistance 1 [97, 98] [97, 98, 99, 100] ≠ some ((1 : Int) + 1) := by
  decide

/-- C8: the banded distance of a string to itself is 0, for every length and every band. -/
theorem editDistance_self (maxDist : Nat) (s : Str) : editDistance maxDist s s = some 0 := by
  obtain ⟨v, hv, hlb, hub⟩ := editDistance_core maxDist s s (by omega) (by omega)
  rw [lev_self] at hlb hub
  have := hub (Nat.zero_le _)
  rw [hv]
  congr 1
  simp only [Nat.cast_zero] at hlb this
  omega

/-- C9: when the true distance is within the band, `editDistance` is symmetric. -/
theorem editDistance_symm (maxDist : Nat) (s t : Str) (h : lev s t ≤ maxDist) :
    editDistance maxDist s t = editDistance maxDist t s := by
  have hd := lev_length_diff s t
  have hsym := lev_symm s t
  obtain ⟨v, hv, hlb, hub⟩ := editDistance_core maxDist s t (by omega) (by omega)
  obtain ⟨w, hw, hlb', hub'⟩ := editDistance_core maxDist t s (by omega) (by omega)
  have a1 := hub h
  have a2 := hub' (by omega)
  rw [hv, hw]
  congr 1
  omega

theorem editDistance_symm_witness :
    lev [107, 105, 116, 116, 101, 110] [115, 105, 116, 116, 105, 110, 103] ≤ 3 ∧
    editDistance 3 [107, 105, 116, 116, 101, 110] [115, 105, 116, 116, 105, 110, 103] =
      editDistance 3 [115, 105, 116, 116, 105, 110, 103] [107, 105, 116, 116, 101, 110] :=
  ⟨by decide, editDistance_symm 3 _ _ (by decide)⟩

/-- C10: for a threshold not above `maxDist`, `withinEditDistance<maxDist>` returns true
exactly when the true distance is at most the threshold; and whenever the lengths differ by
more than the threshold it returns false from the length test alone. -/
theorem withinEditDistance_iff (maxDist : Nat) (s t : Str) (threshold : Int)
    (h : threshold ≤ (maxDist : Int)) :
    withinEditDistance maxDist s t threshold = some (decide ((lev s t : Int) ≤ threshold)) ∧
    (threshold < |(s.length : Int) - (t.length : Int)| →
      withinEditDistance maxDist s t threshold = some false) := by
  have hd := lev_length_diff s t
  unfold withinEditDistance
  by_cases hgt : |(s.length : Int) - (t.length : Int)| > threshold
  · rw [if_pos hgt]
    refine ⟨?_, fun _ => rfl⟩
    congr 1
    symm
    rw [decide_eq_false_iff_not]
    intro hle
    have : |(s.length : Int) - (t.length : Int)| ≤ (lev s t : Int) := by
      rw [abs_le]; omega
    omega
  · rw [if_neg hgt]
    refine ⟨?_, fun h' => absurd h' (by omega)⟩
    have hab : |(s.length : Int) - (t.length : Int)| ≤ (maxDist : Int) := by omega
    rw [abs_le] at hab
    obtain ⟨v, hv, hlb, hub⟩ := editDistance_core maxDist s t (by omega) (by omega)
    rw [hv]
    simp only [Option.map_some', Option.some.injEq, decide_eq_decide]
    constructor
    · intro hvt
      omega
    · intro hlt
      have := hub (by omega)
      omega

theorem withinEditDistance_iff_witness :
    (3 : Int) ≤ ((3 : Nat) : Int) ∧
    withinEditDistance 3 [107, 105, 116, 116, 101, 110] [115, 105, 116, 116, 105, 110, 103] 3 =
      some (decide
        ((lev [107, 105, 116, 116, 101, 110] [115, 105, 116, 116, 105, 110, 103] : Int) ≤ 3)) ∧
    ((3 : Int) < |(([107, 105, 116, 116, 101, 110] : Str).length : Int) -
        (([115, 105, 116, 116, 105, 110, 103] : Str).length : Int)| →
      withinEditDistance 3 [107, 105, 116, 116, 101, 110] [115, 105, 116, 116, 105, 110, 103] 3 =
        some false) :=
  ⟨by decide, withinEditDistance_iff 3 _ _ 3 (by decide)⟩

/-! ## The read mapper: exact fast path -/

/-- The exact fast path of `mapRead`: a read that does not start with `'N'` and occurs in the
reference is answered from its suffix-array range. -/
theorem mapRead_exact (g : Str) (sa : List Nat) (h : IsSuffixArray g sa) (read : Str)
    (seed_len max_errors : Int) (hN : read.head? ≠ some 78) (hocc : occurrences g read ≠ []) :
    ∃ lo hi, suffixArrayLowerBound g sa read = some lo ∧
      suffixArrayUpperBound g sa read = some hi ∧ lo < hi ∧ hi ≤ sa.length ∧
      hi - lo = (occurrences g read).length ∧
      ((List.range' lo (hi - lo)).map (fun i => sa.getD i 0)).Perm (occurrences g read) ∧
      mapRead g sa read seed_len max_errors =
        some ⟨if hi - lo = 1 then MapStatus.Unique else MapStatus.Multi,
          ((sa.getD lo 0 : Nat) : Int), 0⟩ := by
  obtain ⟨lo, hi, hlo, hhi, hle, hhi', hiff⟩ := suffixArray_range g sa h read
  have hperm := suffixArray_range_perm g sa h read lo hi hle hhi' hiff
  have hk : hi - lo = (occurrences g read).length := by
    rw [← hperm.length_eq]; simp
  have hpos : 0 < (occurrences g read).length := List.length_pos.2 hocc
  have hlt : lo < hi := by omega
  refine ⟨lo, hi, hlo, hhi, hlt, hhi', hk, hperm, ?_⟩
  unfold mapRead
  rw [if_neg hN, hlo, hhi]
  simp only
  rw [if_pos hlt]
  by_cases h1 : hi - lo = 1
  · rw [if_pos h1, if_pos h1]
  · rw [if_neg h1, if_neg h1]

/-- A pattern that does not start with `'N'` and has the single start position `q` is answered
`Unique` at `q` with edit distance 0. -/
theorem mapRead_exact_single (g : Str) (sa : List Nat) (h : IsSuffixArray g sa) (pattern : Str)
    (seed_len max_errors : Int) (q : Nat)
    (hN : pattern.head? ≠ some 78) (hq : occurrences g pattern = [q]) :
    mapRead g sa pattern seed_len max_errors = some ⟨MapStatus.Unique, (q : Int), 0⟩ := by
  obtain ⟨lo, hi, -, -, hlt, -, hk, hperm, hres⟩ :=
    mapRead_exact g sa h pattern seed_len max_errors hN (by rw [hq]; simp)
  rw [hq] at hk hperm
  have h1 : hi - lo = 1 := by simpa using hk
  rw [h1] at hperm
  simp only [List.range'_one, List.map_cons, List.map_nil, List.perm_singleton,
    List.cons.injEq, and_true] at hperm
  rw [hres, if_pos h1, hperm]

/-- C11: a read whose first byte is `'N'` is answered `Unmapped` with position `-1` and edit
distance `-1`, whatever the reference, the suffix array, the parameters and the rest of the
read are. -/
theorem mapRead_leading_N (genome : Str) (sa : List Nat) (rest : Str)
    (seed_len max_errors : Int) :
    mapRead genome sa (78 :: rest) seed_len max_errors =
      some ⟨MapStatus.Unmapped, -1, -1⟩ := by
  unfold mapRead
  rw [if_pos (by rfl : (78 :: rest).head? = some 78)]

/-- C12 as stated fails: in the reference `"N"` the pattern `"N"` occurs exactly once, at
position 0, and `mapRead` answers `Unmapped`, not `Unique` at position 0. -/
theorem mapRead_unique_leading_N :
    buildSuffixArray insertionSort [78] = some [0] ∧ occurrences [78] [78] = [0] ∧
    mapRead [78] [0] [78] 20 3 = some ⟨MapStatus.Unmapped, -1, -1⟩ ∧
    mapRead [78] [0] [78] 20 3 ≠ some ⟨MapStatus.Unique, 0, 0⟩ := by
  decide

/-- C12, amended: a pattern that does not start with `'N'` and occurs exactly once in the
reference, at position `q`, is answered `Unique` with edit distance 0 and position `q`. -/
theorem mapRead_exact_unique (sort : (Nat → Nat → Bool) → List Nat → List Nat)
    (hs : SortContract sort) (g : Str) (sa : List Nat) (hsa : buildSuffixArray sort g = some sa)
    (pattern : Str) (seed_len max_errors : Int) (q : Nat)
    (hN : pattern.head? ≠ some 78) (hq : occurrences g pattern = [q]) :
    mapRead g sa pattern seed_len max_errors = some ⟨MapStatus.Unique, (q : Int), 0⟩ :=
  mapRead_exact_single g sa (buildSuffixArray_isSuffixArray sort hs g sa hsa) pattern seed_len
    max_errors q hN hq

theorem mapRead_exact_unique_witness :
    SortContract insertionSort ∧
    buildSuffixArray insertionSort [65, 67, 71, 84, 65, 67, 71, 84] =
      some [4, 0, 5, 1, 6, 2, 7, 3] ∧
    ([65, 67, 71, 84, 65] : Str).head? ≠ some 78 ∧
    occurrences [65, 67, 71, 84, 65, 67, 71, 84] [65, 67, 71, 84, 65] = [0] ∧
    mapRead [65, 67, 71, 84, 65, 67, 71, 84] [4, 0, 5, 1, 6, 2, 7, 3] [65, 67, 71, 84, 65] 3 0 =
      some ⟨MapStatus.Unique, ((0 : Nat) : Int), 0⟩ :=
  ⟨insertionSort_contract, by decide, by decide, by decide,
    mapRead_exact_unique insertionSort insertionSort_contract _ _ (by decide) _ 3 0 0
      (by decide) (by decide)⟩

/-- C13: a read that does not start with `'N'` and occurs more than once in the reference is
answered `Multi` with edit distance 0 and position `sa[lo]`, `lo` being the lower bound of the
read; that position is an occurrence, and its suffix is lexicographically least among the
suffixes at the occurrences. -/
theorem mapRead_exact_multi (sort : (Nat → Nat → Bool) → List Nat → List Nat)
    (hs : SortContract sort) (g : Str) (sa : List Nat) (hsa : buildSuffixArray sort g = some sa)
    (read : Str) (seed_len max_errors : Int)
    (hN : read.head? ≠ some 78) (hk : 1 < (occurrences g read).length) :
    ∃ lo, suffixArrayLowerBound g sa read = some lo ∧
      mapRead g sa read seed_len max_errors =
        some ⟨MapStatus.Multi, ((sa.getD lo 0 : Nat) : Int), 0⟩ ∧
      sa.getD lo 0 ∈ occurrences g read ∧
      ∀ q, q ∈ occurrences g read → lexLe (g.drop (sa.getD lo 0)) (g.drop q) = true := by
  have h := buildSuffixArray_isSuffixArray sort hs g sa hsa
  obtain ⟨lo, hi, hlo, -, hlt, hhi, hlen, hperm, hres⟩ :=
    mapRead_exact g sa h read seed_len max_errors hN
      (by intro e; rw [e] at hk; simp at hk)
  refine ⟨lo, hlo, ?_, ?_, ?_⟩
  · rw [hres, if_neg (by omega)]
  · rw [← hperm.mem_iff]
    exact List.mem_map.2 ⟨lo, by rw [List.mem_range'_1]; omega, rfl⟩
  · intro q hq
    rw [← hperm.mem_iff] at hq
    obtain ⟨i, hi1, rfl⟩ := List.mem_map.1 hq
    rw [List.mem_range'_1] at hi1
    rcases Nat.eq_or_lt_of_le hi1.1 with e | hlt'
    · subst e
      unfold lexLe
      rw [lexLt_irrefl]
      rfl
    · exact h.2 lo i hlt' (by omega)

theorem mapRead_exact_multi_witness :
    SortContract insertionSort ∧
    buildSuffixArray insertionSort [65, 67, 71, 84, 65, 67, 71, 84] =
      some [4, 0, 5, 1, 6, 2, 7, 3] ∧
    ([65, 67, 71, 84] : Str).head? ≠ some 78 ∧
    1 < (occurrences [65, 67, 71, 84, 65, 67, 71, 84] [65, 67, 71, 84]).length ∧
    occurrences [65, 67, 71, 84, 65, 67, 71, 84] [65, 67, 71, 84] = [0, 4] ∧
    mapRead [65, 67, 71, 84, 65, 67, 71, 84] [4, 0, 5, 1, 6, 2, 7, 3] [65, 67, 71, 84] 2 0 =
      some ⟨MapStatus.Multi, 4, 0⟩ ∧
    ∃ lo, suffixArrayLowerBound [65, 67, 71, 84, 65, 67, 71, 84] [4, 0, 5, 1, 6, 2, 7, 3]
        [65, 67, 71, 84] = some lo ∧
      mapRead [65, 67, 71, 84, 65, 67, 71, 84] [4, 0, 5, 1, 6, 2, 7, 3] [65, 67, 71, 84] 2 0 =
        some ⟨MapStatus.Multi,
          (((([4, 0, 5, 1, 6, 2, 7, 3] : List Nat).getD lo 0 : Nat)) : Int), 0⟩ ∧
      ([4, 0, 5, 1, 6, 2, 7, 3] : List Nat).getD lo 0 ∈
        occurrences [65, 67, 71, 84, 65, 67, 71, 84] [65, 67, 71, 84] ∧
      ∀ q, q ∈ occurrences [65, 67, 71, 84, 65, 67, 71, 84] [65, 67, 71, 84] →
        lexLe (([65, 67, 71, 84, 65, 67, 71, 84] : Str).drop
          (([4, 0, 5, 1, 6, 2, 7, 3] : List Nat).getD lo 0))
          (([65, 67, 71, 84, 65, 67, 71, 84] : Str).drop q) = true :=
  ⟨insertionSort_contract, by decide, by decide, by decide, by decide, by decide,
    mapRead_exact_multi insertionSort insertionSort_contract _ _ (by decide) _ 2 0
      (by decide) (by decide)⟩

/-! ## The read mapper: seeds -/

theorem seedStep_eq (read : Str) (seed_len : Int) (h2 : seed_len ≤ (read.length : Int)) :
    seedStep read seed_len = ((read.length : Int) - seed_len) / 2 := by
  unfold seedStep
  rw [if_pos h2]

theorem seedIters_eq (read : Str) (seed_len : Int) (h2 : seed_len ≤ (read.length : Int)) :
    seedIters read seed_len (seedStep read seed_len) = [0, 1, 2] := by
  rw [seedStep_eq read seed_len h2]
  unfold seedIters
  have e0 : ((0 : Nat) : Int) * (((read.length : Int) - seed_len) / 2) + seed_len ≤
      (read.length : Int) := by
    simp only [Nat.cast_zero, zero_mul]; omega
  have e1 : ((1 : Nat) : Int) * (((read.length : Int) - seed_len) / 2) + seed_len ≤
      (read.length : Int) := by
    simp only [Nat.cast_one, one_mul]; omega
  have e2 : ((2 : Nat) : Int) * (((read.length : Int) - seed_len) / 2) + seed_len ≤
      (read.length : Int) := by
    simp only [Nat.cast_ofNat]; omega
  simp only [List.takeWhile_cons, e0, e1, e2, decide_True, if_true, List.takeWhile_nil]

theorem substr_seed (read : Str) (seed_len pos : Int) (h1 : 0 ≤ seed_len) (hp : 0 ≤ pos)
    (h2 : pos + seed_len ≤ (read.length : Int)) :
    substr read pos seed_len = some ((read.drop pos.toNat).take seed_len.toNat) ∧
    (((read.drop pos.toNat).take seed_len.toNat).length : Int) = seed_len := by
  unfold substr
  rw [if_neg (by omega), if_neg (by omega)]
  refine ⟨rfl, ?_⟩
  rw [List.length_take, List.length_drop]
  omega

/-- C20: for `seed_len ≥ 1` and `|read| ≥ seed_len` the step is `⌊(|read| - seed_len) / 2⌋`,
the three offsets `0`, `step`, `2 * step` all satisfy `offset + seed_len ≤ |read|`, the seed
loop runs its body for exactly `i = 0, 1, 2`, every seed has exactly `seed_len` bytes, and
for `|read| - seed_len < 2` the step is 0 and all three seeds are the first `seed_len` bytes
of the read. -/
theorem seed_offsets (read : Str) (seed_len : Int) (h1 : 1 ≤ seed_len)
    (h2 : seed_len ≤ (read.length : Int)) :
    seedStep read seed_len = ((read.length : Int) - seed_len) / 2 ∧
    (∀ i : Nat, i < 3 → (i : Int) * seedStep read seed_len + seed_len ≤ (read.length : Int)) ∧
    seedIters read seed_len (seedStep read seed_len) = [0, 1, 2] ∧
    (∀ i : Nat, i < 3 → ∃ seed, substr read ((i : Int) * seedStep read seed_len) seed_len =
      some seed ∧ (seed.length : Int) = seed_len) ∧
    ((read.length : Int) - seed_len < 2 → seedStep read seed_len = 0 ∧
      ∀ i : Nat, i < 3 → substr read ((i : Int) * seedStep read seed_len) seed_len =
        some (read.take seed_len.toNat)) := by
  have hstep := seedStep_eq read seed_len h2
  have hle : ∀ i : Nat, i < 3 →
      (i : Int) * seedStep read seed_len + seed_len ≤ (read.length : Int) ∧
      0 ≤ (i : Int) * seedStep read seed_len := by
    intro i hi
    rw [hstep]
    have h3 : i = 0 ∨ i = 1 ∨ i = 2 := by omega
    rcases h3 with rfl | rfl | rfl
    · simp only [Nat.cast_zero, zero_mul]; omega
    · simp only [Nat.cast_one, one_mul]; omega
    · simp only [Nat.cast_ofNat]; omega
  refine ⟨hstep, fun i hi => (hle i hi).1, seedIters_eq read seed_len h2, ?_, ?_⟩
  · intro i hi
    obtain ⟨e, hl⟩ := substr_seed read seed_len _ (by omega) (hle i hi).2 (hle i hi).1
    exact ⟨_, e, hl⟩
  · intro hsmall
    have h0 : seedStep read seed_len = 0 := by rw [hstep]; omega
    refine ⟨h0, ?_⟩
    intro i _
    rw [h0, mul_zero]
    obtain ⟨e, -⟩ := substr_seed read seed_len 0 (by omega) (le_refl _) (by omega)
    rw [e]
    rfl

theorem seed_offsets_witness :
    (1 : Int) ≤ 3 ∧ (3 : Int) ≤ ((([65, 84, 71, 84, 65] : Str).length : Nat) : Int) ∧
    (seedStep [65, 84, 71, 84, 65] 3 = ((([65, 84, 71, 84, 65] : Str).length : Int) - 3) / 2 ∧
    (∀ i : Nat, i < 3 → (i : Int) * seedStep [65, 84, 71, 84, 65] 3 + 3 ≤
      (([65, 84, 71, 84, 65] : Str).length : Int)) ∧
    seedIters [65, 84, 71, 84, 65] 3 (seedStep [65, 84, 71, 84, 65] 3) = [0, 1, 2] ∧
    (∀ i : Nat, i < 3 → ∃ seed,
      substr [65, 84, 71, 84, 65] ((i : Int) * seedStep [65, 84, 71, 84, 65] 3) 3 = some seed ∧
      (seed.length : Int) = 3) ∧
    ((([65, 84, 71, 84, 65] : Str).length : Int) - 3 < 2 →
      seedStep [65, 84, 71, 84, 65] 3 = 0 ∧
      ∀ i : Nat, i < 3 →
        substr [65, 84, 71, 84, 65] ((i : Int) * seedStep [65, 84, 71, 84, 65] 3) 3 =
          some (([65, 84, 71, 84, 65] : Str).take (3 : Int).toNat))) :=
  ⟨by decide, by decide, seed_offsets [65, 84, 71, 84, 65] 3 (by decide) (by decide)⟩

/-! ## The read mapper: candidates -/

theorem sortInts_perm (l : List Int) : (sortInts l).Perm l :=
  List.perm_insertionSort _ l

theorem sortInts_sorted (l : List Int) : (sortInts l).Pairwise (fun a b => a ≤ b) :=
  List.sorted_insertionSort (fun a b : Int => a ≤ b) l

theorem uniqueAdj_mem (x : Int) : ∀ l : List Int, x ∈ uniqueAdj l ↔ x ∈ l
  | [] => by simp [uniqueAdj]
  | [a] => by simp [uniqueAdj]
  | a :: b :: l => by
    have ih := uniqueAdj_mem x (b :: l)
    unfold uniqueAdj
    by_cases h : a = b
    · rw [if_pos h, ih]
      subst h
      simp
    · rw [if_neg h, List.mem_cons, ih, List.mem_cons (a := x) (b := a)]

theorem uniqueAdj_strict : ∀ l : List Int, l.Pairwise (fun a b => a ≤ b) →
    (uniqueAdj l).Pairwise (fun a b => a < b)
  | [], _ => by simp [uniqueAdj]
  | [a], _ => by simp [uniqueAdj]
  | a :: b :: l, h => by
    rw [List.pairwise_cons] at h
    have ih := uniqueAdj_strict (b :: l) h.2
    unfold uniqueAdj
    by_cases hab : a = b
    · rw [if_pos hab]
      exact ih
    · rw [if_neg hab]
      refine List.Pairwise.cons ?_ ih
      intro x hx
      rw [uniqueAdj_mem] at hx
      have h1 := h.1 b (List.mem_cons_self _ _)
      rcases List.mem_cons.1 hx with rfl | hx'
      · omega
      · have h2 := (List.pairwise_cons.1 h.2).1 x hx'
        omega

theorem dedup_facts (raw : List Int) :
    (uniqueAdj (sortInts raw)).Pairwise (fun a b => a < b) ∧
    ∀ c, c ∈ uniqueAdj (sortInts raw) ↔ c ∈ raw :=
  ⟨uniqueAdj_strict _ (sortInts_sorted raw),
    fun c => by rw [uniqueAdj_mem, (sortInts_perm raw).mem_iff]⟩

theorem hitCandidates_valid (g : Str) (sa : List Nat) (read : Str) (off : Int) (slo shi : Nat)
    (x : Int) (hx : x ∈ hitCandidates g sa read off slo shi) : ValidCand g read x := by
  unfold hitCandidates at hx
  rw [List.mem_filter] at hx
  simpa [ValidCand] using hx.2

theorem seedBody_valid (g : Str) (sa : List Nat) (read : Str) (seed_len step : Int)
    (cands out : List Int) (i : Nat) (h : seedBody g sa read seed_len step cands i = some out)
    (hc : ∀ x, x ∈ cands → ValidCand g read x) : ∀ x, x ∈ out → ValidCand g read x := by
  unfold seedBody at h
  cases hs : substr read ((i : Int) * step) seed_len with
  | none => rw [hs] at h; cases h
  | some seed =>
    rw [hs] at h
    simp only at h
    by_cases hn : (78 : Nat) ∈ seed
    · rw [if_pos hn] at h
      cases h
      exact hc
    · rw [if_neg hn] at h
      cases hlo : suffixArrayLowerBound g sa seed with
      | none => rw [hlo] at h; cases h
      | some slo =>
        cases hhi : suffixArrayUpperBound g sa seed with
        | none => rw [hlo, hhi] at h; cases h
        | some shi =>
          rw [hlo, hhi] at h
          cases h
          intro x hx
          rcases List.mem_append.1 hx with hx | hx
          · exact hc x hx
          · exact hitCandidates_valid g sa read _ slo shi x hx

theorem seedLoop_valid (g : Str) (sa : List Nat) (read : Str) (seed_len step : Int) :
    ∀ (iters : List Nat) (cands out : List Int),
      seedLoop g sa read seed_len step iters cands = some out →
      (∀ x, x ∈ cands → ValidCand g read x) → ∀ x, x ∈ out → ValidCand g read x := by
  intro iters
  induction iters with
  | nil =>
    intro cands out h hc
    unfold seedLoop at h
    cases h
    exact hc
  | cons i rest ih =>
    intro cands out h hc
    unfold seedLoop at h
    cases hb : seedBody g sa read seed_len step cands i with
    | none => rw [hb] at h; cases h
    | some c =>
      rw [hb] at h
      exact ih c out h (seedBody_valid g sa read seed_len step cands c i hb hc)

/-- Every candidate that the seed loop produces passed the range test. -/
theorem seedCandidates_valid (g : Str) (sa : List Nat) (read : Str) (seed_len : Int)
    (raw : List Int) (h : seedCandidates g sa read seed_len = some raw) :
    ∀ x, x ∈ raw → ValidCand g read x :=
  seedLoop_valid g sa read seed_len _ _ [] raw h (fun x hx => by cases hx)

theorem seedBody_total (g : Str) (sa : List Nat) (hsa : IsSuffixArray g sa) (read : Str)
    (seed_len step : Int) (cands : List Int) (i : Nat) (h1 : 0 ≤ seed_len)
    (hp : 0 ≤ (i : Int) * step) (h2 : (i : Int) * step + seed_len ≤ (read.length : Int)) :
    ∃ out, seedBody g sa read seed_len step cands i = some out := by
  unfold seedBody
  rw [(substr_seed read seed_len _ h1 hp h2).1]
  simp only
  split
  · exact ⟨_, rfl⟩
  · obtain ⟨lo, hlo, -⟩ := suffixArrayLowerBound_spec g sa hsa
      ((read.drop ((i : Int) * step).toNat).take seed_len.toNat)
    obtain ⟨hi, hhi, -⟩ := suffixArrayUpperBound_spec g sa hsa
      ((read.drop ((i : Int) * step).toNat).take seed_len.toNat)
    rw [hlo, hhi]
    exact ⟨_, rfl⟩

theorem seedLoop_total (g : Str) (sa : List Nat) (hsa : IsSuffixArray g sa) (read : Str)
    (seed_len step : Int) (h1 : 0 ≤ seed_len) :
    ∀ (iters : List Nat) (cands : List Int),
      (∀ i, i ∈ iters → 0 ≤ (i : Int) * step ∧
        (i : Int) * step + seed_len ≤ (read.length : Int)) →
      ∃ out, seedLoop g sa read seed_len step iters cands = some out := by
  intro iters
  induction iters with
  | nil => intro cands _; exact ⟨cands, rfl⟩
  | cons i rest ih =>
    intro cands hi
    obtain ⟨c, hc⟩ := seedBody_total g sa hsa read seed_len step cands i h1
      (hi i (List.mem_cons_self _ _)).1 (hi i (List.mem_cons_self _ _)).2
    unfold seedLoop
    rw [hc]
    exact ih c (fun j hj => hi j (List.mem_cons_of_mem _ hj))

/-- Under the preconditions the seed loop returns its candidates. -/
theorem seedCandidates_total (g : Str) (sa : List Nat) (hsa : IsSuffixArray g sa) (read : Str)
    (seed_len : Int) (h1 : 1 ≤ seed_len) (h2 : seed_len ≤ (read.length : Int)) :
    ∃ raw, seedCandidates g sa read seed_len = some raw := by
  unfold seedCandidates
  rw [seedIters_eq read seed_len h2]
  apply seedLoop_total g sa hsa read seed_len _ (by omega)
  intro i hi
  have hstep := seedStep_eq read seed_len h2
  rw [hstep]
  simp only [List.mem_cons, List.mem_singleton, List.not_mem_nil, or_false] at hi
  rcases hi with rfl | rfl | rfl
  · simp only [Nat.cast_zero, zero_mul]; omega
  · simp only [Nat.cast_one, one_mul]; omega
  · simp only [Nat.cast_ofNat]; omega

/-! ## The read mapper: verification -/

theorem substr_valid (g read : Str) (c : Int) (h : ValidCand g read c) :
    substr g c (read.length : Int) = some (segment g c read.length) ∧
    (segment g c read.length).length = read.length := by
  obtain ⟨e, hl⟩ := substr_seed g (read.length : Int) c (by omega) h.1 h.2
  rw [Int.toNat_ofNat] at e hl
  exact ⟨e, by exact_mod_cast hl⟩

/-- For a candidate inside the reference the banded distance is defined: it is at least the
true distance capped at 11, and equal to the true distance when that is at most 10. -/
theorem segDist_valid (g read : Str) (c : Int) (h : ValidCand g read c) :
    ∃ d, segDist g read c = some d ∧ 0 ≤ d ∧
      min (lev (segment g c read.length) read : Int) 11 ≤ d ∧
      (lev (segment g c read.length) read ≤ 10 →
        d = (lev (segment g c read.length) read : Int)) := by
  have hl := (substr_valid g read c h).2
  obtain ⟨v, hv, hlb, hub⟩ := editDistance_core 10 (segment g c read.length) read
    (by omega) (by omega)
  refine ⟨v, hv, by omega, by simpa using hlb, ?_⟩
  intro h10
  have := hub h10
  simp only [Nat.cast_ofNat] at hlb
  omega

theorem verifyStep_valid (g read : Str) (b : Best) (c d : Int) (h : ValidCand g read c)
    (hd : segDist g read c = some d) :
    verifyStep g read b c =
      some (if d < b.dist then ⟨d, c, 1⟩
        else if d = b.dist ∧ c ≠ b.pos then ⟨b.dist, b.pos, b.count + 1⟩ else b) := by
  unfold verifyStep
  rw [(substr_valid g read c h).1]
  simp only
  unfold segDist at hd
  rw [hd]
  simp only
  split
  · rfl
  · split
    · rfl
    · rfl

theorem bestInv_step (g read : Str) (maxErrors : Int) (done : List Int) (b : Best) (c d : Int)
    (hd : segDist g read c = some d) (hlt : ∀ x, x ∈ done → x < c)
    (hinv : BestInv g read maxErrors done b) :
    BestInv g read maxErrors (done ++ [c])
      (if d < b.dist then ⟨d, c, 1⟩
        else if d = b.dist ∧ c ≠ b.pos then ⟨b.dist, b.pos, b.count + 1⟩ else b) := by
  obtain ⟨i1, i2, i3⟩ := hinv
  by_cases h1 : d < b.dist
  · rw [if_pos h1]
    refine ⟨by simp only; omega, ?_, ?_⟩
    · intro c' hc' d' hd'
      rcases List.mem_append.1 hc' with hc' | hc'
      · have := i2 c' hc' d' hd'
        simp only; omega
      · rw [List.mem_singleton] at hc'
        subst hc'
        rw [hd] at hd'
        cases hd'
        exact le_refl _
    · intro _
      simp only
      refine ⟨by simp, hd, ?_, ?_⟩
      · intro c' hc' hd'
        rcases List.mem_append.1 hc' with hc' | hc'
        · have := i2 c' hc' d hd'
          omega
        · rw [List.mem_singleton] at hc'
          rw [hc']
      · rw [List.filter_append]
        have e1 : done.filter (fun c => decide (segDist g read c = some d)) = [] := by
          rw [List.filter_eq_nil_iff]
          intro c' hc'
          simp only [decide_eq_true_eq]
          intro hd'
          have := i2 c' hc' d hd'
          omega
        rw [e1]
        simp [hd]
  · rw [if_neg h1]
    by_cases h2 : d = b.dist ∧ c ≠ b.pos
    · rw [if_pos h2]
      refine ⟨i1, ?_, ?_⟩
      · intro c' hc' d' hd'
        rcases List.mem_append.1 hc' with hc' | hc'
        · exact i2 c' hc' d' hd'
        · rw [List.mem_singleton] at hc'
          subst hc'
          rw [hd] at hd'
          cases hd'
          simp only; omega
      · intro hM
        obtain ⟨j1, j2, j3, j4⟩ := i3 hM
        simp only
        refine ⟨List.mem_append_left _ j1, j2, ?_, ?_⟩
        · intro c' hc' hd'
          rcases List.mem_append.1 hc' with hc' | hc'
          · exact j3 c' hc' hd'
          · rw [List.mem_singleton] at hc'
            subst hc'
            exact le_of_lt (hlt _ j1)
        · rw [List.filter_append, List.length_append, j4]
          have : [c].filter (fun c => decide (segDist g read c = some b.dist)) = [c] := by
            rw [List.filter_eq_self]
            intro a ha
            rw [List.mem_singleton] at ha
            subst ha
            simp [hd, h2.1]
          rw [this]
          simp
    · rw [if_neg h2]
      refine ⟨i1, ?_, ?_⟩
      · intro c' hc' d' hd'
        rcases List.mem_append.1 hc' with hc' | hc'
        · exact i2 c' hc' d' hd'
        · rw [List.mem_singleton] at hc'
          subst hc'
          rw [hd] at hd'
          cases hd'
          omega
      · intro hM
        obtain ⟨j1, j2, j3, j4⟩ := i3 hM
        have hne : d ≠ b.dist := by
          intro e
          have hc : c = b.pos := by
            by_contra hne
            exact h2 ⟨e, hne⟩
          have := hlt _ j1
          omega
        refine ⟨List.mem_append_left _ j1, j2, ?_, ?_⟩
        · intro c' hc' hd'
          rcases List.mem_append.1 hc' with hc' | hc'
          · exact j3 c' hc' hd'
          · rw [List.mem_singleton] at hc'
            subst hc'
            rw [hd] at hd'
            cases hd'
            exact absurd rfl hne
        · rw [List.filter_append, List.length_append, j4]
          have : [c].filter (fun c => decide (segDist g read c = some b.dist)) = [] := by
            rw [List.filter_eq_nil_iff]
            intro a ha
            rw [List.mem_singleton] at ha
            subst ha
            simp only [decide_eq_true_eq, hd, Option.some.injEq]
            exact hne
          rw [this]
          simp

/-- The verification loop returns and keeps `BestInv` over a strictly increasing list of
candidates inside the reference. -/
theorem verifyLoop_inv (g read : Str) (maxErrors : Int) :
    ∀ (rest done : List Int) (b : Best), (∀ c, c ∈ rest → ValidCand g read c) →
      (done ++ rest).Pairwise (fun a b => a < b) → BestInv g read maxErrors done b →
      ∃ out, verifyLoop g read rest b = some out ∧
        BestInv g read maxErrors (done ++ rest) out := by
  intro rest
  induction rest with
  | nil =>
    intro done b _ _ hinv
    exact ⟨b, rfl, by simpa using hinv⟩
  | cons c rest ih =>
    intro done b hv hp hinv
    obtain ⟨d, hd, -⟩ := segDist_valid g read c (hv c (List.mem_cons_self _ _))
    have hlt : ∀ x, x ∈ done → x < c := by
      intro x hx
      exact (List.pairwise_append.1 hp).2.2 x hx c (List.mem_cons_self _ _)
    have hstep := bestInv_step g read maxErrors done b c d hd hlt hinv
    unfold verifyLoop
    rw [verifyStep_valid g read b c d (hv c (List.mem_cons_self _ _)) hd]
    simp only
    have e : done ++ c :: rest = (done ++ [c]) ++ rest := by simp
    rw [e] at hp ⊢
    exact ih (done ++ [c]) _ (fun x hx => hv x (List.mem_cons_of_mem _ hx)) hp hstep

theorem filter_length_one_iff (l : List Int) (p : Int → Bool) (x : Int) (hnd : l.Nodup)
    (hx : x ∈ l) (hpx : p x = true) :
    (l.filter p).length = 1 ↔ ∀ c, c ∈ l → p c = true → c = x := by
  have hxf : x ∈ l.filter p := List.mem_filter.2 ⟨hx, hpx⟩
  constructor
  · intro h c hc hpc
    obtain ⟨y, hy⟩ := List.length_eq_one.1 h
    have hcf : c ∈ l.filter p := List.mem_filter.2 ⟨hc, hpc⟩
    rw [hy, List.mem_singleton] at hxf hcf
    rw [hxf, hcf]
  · intro h
    have hall : ∀ c, c ∈ l.filter p → c = x := fun c hc =>
      h c (List.mem_filter.1 hc).1 (List.mem_filter.1 hc).2
    have hndf : (l.filter p).Nodup := hnd.filter p
    cases hf : l.filter p with
    | nil => rw [hf] at hxf; cases hxf
    | cons a t =>
      cases t with
      | nil => rfl
      | cons b t =>
        rw [hf] at hall hndf
        have ha := hall a (List.mem_cons_self _ _)
        have hb := hall b (List.mem_cons_of_mem _ (List.mem_cons_self _ _))
        rw [ha, hb] at hndf
        simp at hndf

/-- A read that does not start with `'N'` and does not occur in the reference goes to the
seed-and-extend part. -/
theorem mapRead_seed_path (g : Str) (sa : List Nat) (h : IsSuffixArray g sa) (read : Str)
    (seed_len max_errors : Int) (hN : read.head? ≠ some 78) (hocc : occurrences g read = []) :
    mapRead g sa read seed_len max_errors = seedAndExtend g sa read seed_len max_errors := by
  obtain ⟨lo, hi, hlo, hhi, hle, hhi', hiff⟩ := suffixArray_range g sa h read
  have hperm := suffixArray_range_perm g sa h read lo hi hle hhi' hiff
  have hk : hi - lo = 0 := by
    have := hperm.length_eq
    rw [hocc] at this
    simpa using this
  unfold mapRead
  rw [if_neg hN, hlo, hhi]
  simp only
  rw [if_neg (by omega)]

/-- What the seed-and-extend part returns, in terms of the deduplicated candidates and their
banded distances. -/
theorem seedAndExtend_spec (g : Str) (sa : List Nat) (read : Str) (seed_len max_errors : Int)
    (raw : List Int) (hraw : seedCandidates g sa read seed_len = some raw) :
    ∃ r, seedAndExtend g sa read seed_len max_errors = some r ∧
      (r.status = MapStatus.Unmapped → r.position = -1 ∧ r.edit_dist = -1) ∧
      (r.status = MapStatus.Unmapped ↔
        (uniqueAdj (sortInts raw) = [] ∨ ∀ c, c ∈ uniqueAdj (sortInts raw) →
          ∀ d, segDist g read c = some d → max_errors < d)) ∧
      (r.status ≠ MapStatus.Unmapped →
        r.position ∈ uniqueAdj (sortInts raw) ∧
        segDist g read r.position = some r.edit_dist ∧ r.edit_dist ≤ max_errors ∧
        (∀ c, c ∈ uniqueAdj (sortInts raw) → ∀ d, segDist g read c = some d →
          r.edit_dist ≤ d) ∧
        (∀ c, c ∈ uniqueAdj (sortInts raw) → segDist g read c = some r.edit_dist →
          r.position ≤ c) ∧
        (r.status = MapStatus.Unique ↔
          ∀ c, c ∈ uniqueAdj (sortInts raw) → segDist g read c = some r.edit_dist →
            c = r.position)) := by
  obtain ⟨hstrict, hmem⟩ := dedup_facts raw
  have hvalid := seedCandidates_valid g sa read seed_len raw hraw
  unfold seedAndExtend
  rw [hraw]
  simp only
  by_cases he : raw = []
  · rw [if_pos he]
    refine ⟨_, rfl, fun _ => ⟨rfl, rfl⟩, ?_, fun h => absurd rfl h⟩
    subst he
    exact ⟨fun _ => Or.inl (by decide), fun _ => rfl⟩
  · rw [if_neg he]
    have hCne : uniqueAdj (sortInts raw) ≠ [] := by
      obtain ⟨x, hx⟩ := List.exists_mem_of_ne_nil raw he
      intro e
      have := (hmem x).2 hx
      rw [e] at this
      cases this
    have hinit : BestInv g read max_errors [] ⟨max_errors + 1, -1, 0⟩ := by
      refine ⟨le_refl _, ?_, ?_⟩
      · intro c hc
        cases hc
      · intro hh
        simp only at hh
        omega
    obtain ⟨out, hout, i1, i2, i3⟩ := verifyLoop_inv g read max_errors
      (uniqueAdj (sortInts raw)) [] ⟨max_errors + 1, -1, 0⟩
      (fun c hc => hvalid c ((hmem c).1 hc)) (by simpa using hstrict) hinit
    rw [hout]
    simp only [List.nil_append] at i2 i3 ⊢
    by_cases hM : out.dist ≤ max_errors
    · rw [if_pos hM]
      obtain ⟨j1, j2, j3, j4⟩ := i3 hM
      have hst : (if out.count = 1 then MapStatus.Unique else MapStatus.Multi) ≠
          MapStatus.Unmapped := by
        split <;> simp
      refine ⟨_, rfl, fun h => absurd h hst, ?_, ?_⟩
      · constructor
        · intro h; exact absurd h hst
        · rintro (h | h)
          · exact absurd h hCne
          · have := h out.pos j1 out.dist j2
            omega
      · intro _
        refine ⟨j1, j2, hM, i2, j3, ?_⟩
        simp only
        have hnd : (uniqueAdj (sortInts raw)).Nodup :=
          hstrict.imp (fun hab => ne_of_lt hab)
        have hcount := filter_length_one_iff (uniqueAdj (sortInts raw))
          (fun c => decide (segDist g read c = some out.dist)) out.pos hnd j1 (by simp [j2])
        simp only [decide_eq_true_eq] at hcount
        rw [← hcount, j4]
        constructor
        · intro h
          split at h
          · rename_i h1
            exact_mod_cast h1
          · cases h
        · intro h
          rw [if_pos (by exact_mod_cast h)]
    · rw [if_neg hM]
      refine ⟨_, rfl, fun _ => ⟨rfl, rfl⟩, ?_, fun h => absurd rfl h⟩
      constructor
      · intro _
        right
        intro c hc d hd
        have := i2 c hc d hd
        omega
      · intro _; rfl

/-! ## The read mapper: results -/

theorem lev_eq_zero : ∀ (s t : Str), lev s t = 0 → s = t
  | [], [], _ => rfl
  | [], _ :: _, h => by rw [lev_nil_left] at h; simp at h
  | _ :: _, [], h => by rw [lev_nil_right] at h; simp at h
  | a :: s, b :: t, h => by
    rw [lev_cons_cons] at h
    have h3 : lev s t + (if a = b then 0 else 1) = 0 := by omega
    by_cases hab : a = b
    · rw [if_pos hab] at h3
      rw [hab, lev_eq_zero s t (by omega)]
    · rw [if_neg hab] at h3
      omega

theorem eq_singleton_of_all_eq {α : Type} (l : List α) (x : α) (hnd : l.Nodup) (hx : x ∈ l)
    (hall : ∀ c, c ∈ l → c = x) : l = [x] := by
  cases l with
  | nil => cases hx
  | cons a t =>
    cases t with
    | nil => rw [hall a (List.mem_cons_self _ _)]
    | cons b t =>
      have ha := hall a (List.mem_cons_self _ _)
      have hb := hall b (List.mem_cons_of_mem _ (List.mem_cons_self _ _))
      rw [ha, hb] at hnd
      simp at hnd

theorem segment_natCast (g : Str) (q len : Nat) :
    segment g (q : Int) len = (g.drop q).take len := by
  unfold segment
  rw [Int.toNat_ofNat]

theorem occurrence_fits (g read : Str) (q : Nat) (hq : q ∈ occurrences g read) :
    q + read.length ≤ g.length ∧ (g.drop q).take read.length = read := by
  rw [mem_occurrences] at hq
  refine ⟨?_, hq.2⟩
  have := congrArg List.length hq.2
  rw [List.length_take, List.length_drop] at this
  omega

/-- Under the preconditions `mapRead` returns, and its result is either the `Unmapped` record
or a placement inside the reference with a distance between 0 and `max_errors`. -/
theorem mapRead_result_core (g : Str) (sa : List Nat) (h : IsSuffixArray g sa)
    (read : Str) (seed_len max_errors : Int) (h1 : 1 ≤ seed_len) (h0 : 0 ≤ max_errors)
    (h2 : seed_len ≤ (read.length : Int)) :
    ∃ r, mapRead g sa read seed_len max_errors = some r ∧
      (r.status = MapStatus.Unmapped → r.position = -1 ∧ r.edit_dist = -1) ∧
      (r.status ≠ MapStatus.Unmapped →
        0 ≤ r.position ∧ r.position ≤ (g.length : Int) - (read.length : Int) ∧
        0 ≤ r.edit_dist ∧ r.edit_dist ≤ max_errors) := by
  by_cases hN : read.head? = some 78
  · refine ⟨⟨MapStatus.Unmapped, -1, -1⟩, ?_, fun _ => ⟨rfl, rfl⟩, fun hh => absurd rfl hh⟩
    unfold mapRead
    rw [if_pos hN]
  · by_cases hocc : occurrences g read = []
    · rw [mapRead_seed_path g sa h read seed_len max_errors hN hocc]
      obtain ⟨raw, hraw⟩ := seedCandidates_total g sa h read seed_len h1 h2
      obtain ⟨r, hr, hu, -, hm⟩ := seedAndExtend_spec g sa read seed_len max_errors raw hraw
      refine ⟨r, hr, hu, ?_⟩
      intro hne
      obtain ⟨m1, m2, m3, -⟩ := hm hne
      have hv := seedCandidates_valid g sa read seed_len raw hraw r.position
        ((dedup_facts raw).2 r.position |>.1 m1)
      obtain ⟨d, hd, hd0, -⟩ := segDist_valid g read r.position hv
      rw [m2] at hd
      cases hd
      exact ⟨hv.1, by have := hv.2; omega, hd0, m3⟩
    · obtain ⟨lo, hi, -, -, hlt, -, -, hperm, hres⟩ :=
        mapRead_exact g sa h read seed_len max_errors hN hocc
      have hmem : sa.getD lo 0 ∈ occurrences g read := by
        rw [← hperm.mem_iff]
        exact List.mem_map.2 ⟨lo, by rw [List.mem_range'_1]; omega, rfl⟩
      have hfit := (occurrence_fits g read _ hmem).1
      refine ⟨_, hres, ?_, ?_⟩
      · intro hst
        simp only at hst
        split at hst <;> cases hst
      · intro _
        simp only
        refine ⟨by omega, by omega, le_refl _, h0⟩

/-- C14: under the preconditions `seed_len ≥ 1`, `max_errors ≥ 0`, `|read| ≥ seed_len`,
`mapRead` returns a result; an `Unmapped` result has position `-1` and edit distance `-1`, any
other result has `0 ≤ position ≤ n - |read|` and `0 ≤ edit_dist ≤ max_errors`. -/
theorem mapRead_result_invariant (sort : (Nat → Nat → Bool) → List Nat → List Nat)
    (hs : SortContract sort) (g : Str) (sa : List Nat) (hsa : buildSuffixArray sort g = some sa)
    (read : Str) (seed_len max_errors : Int) (h1 : 1 ≤ seed_len) (h0 : 0 ≤ max_errors)
    (h2 : seed_len ≤ (read.length : Int)) :
    ∃ r, mapRead g sa read seed_len max_errors = some r ∧
      (r.status = MapStatus.Unmapped → r.position = -1 ∧ r.edit_dist = -1) ∧
      (r.status ≠ MapStatus.Unmapped →
        0 ≤ r.position ∧ r.position ≤ (g.length : Int) - (read.length : Int) ∧
        0 ≤ r.edit_dist ∧ r.edit_dist ≤ max_errors) :=
  mapRead_result_core g sa (buildSuffixArray_isSuffixArray sort hs g sa hsa) read seed_len
    max_errors h1 h0 h2

theorem mapRead_result_invariant_witness :
    SortContract insertionSort ∧
    buildSuffixArray insertionSort [65, 67, 71, 84, 65, 67, 71, 84] =
      some [4, 0, 5, 1, 6, 2, 7, 3] ∧
    (1 : Int) ≤ 3 ∧ (0 : Int) ≤ 1 ∧ (3 : Int) ≤ (([65, 84, 71, 84, 65] : Str).length : Int) ∧
    ∃ r, mapRead [65, 67, 71, 84, 65, 67, 71, 84] [4, 0, 5, 1, 6, 2, 7, 3]
        [65, 84, 71, 84, 65] 3 1 = some r ∧
      (r.status = MapStatus.Unmapped → r.position = -1 ∧ r.edit_dist = -1) ∧
      (r.status ≠ MapStatus.Unmapped →
        0 ≤ r.position ∧
        r.position ≤ (([65, 67, 71, 84, 65, 67, 71, 84] : Str).length : Int) -
          (([65, 84, 71, 84, 65] : Str).length : Int) ∧
        0 ≤ r.edit_dist ∧ r.edit_dist ≤ 1) :=
  ⟨insertionSort_contract, by decide, by decide, by decide, by decide,
    mapRead_result_invariant insertionSort insertionSort_contract _ _ (by decide) _ 3 1
      (by decide) (by decide) (by decide)⟩

/-- C19: for a read that does not start with `'N'` and does not occur in the reference, under
the preconditions, with `C` the sorted, deduplicated candidates of the seeds and the banded
distance of every candidate: `mapRead` answers `Unmapped` exactly when `C` is empty or every
distance exceeds `max_errors`; otherwise `edit_dist` is the least distance over `C`,
`position` is the smallest candidate that attains it, and the status is `Unique` exactly when
no other candidate attains it (`Multi` otherwise). -/
theorem mapRead_verification (sort : (Nat → Nat → Bool) → List Nat → List Nat)
    (hs : SortContract sort) (g : Str) (sa : List Nat) (hsa : buildSuffixArray sort g = some sa)
    (read : Str) (seed_len max_errors : Int) (hN : read.head? ≠ some 78)
    (hocc : occurrences g read = []) (h1 : 1 ≤ seed_len)
    (h2 : seed_len ≤ (read.length : Int)) :
    ∃ raw r, seedCandidates g sa read seed_len = some raw ∧
      mapRead g sa read seed_len max_errors = some r ∧
      (uniqueAdj (sortInts raw)).Pairwise (fun a b => a < b) ∧
      (∀ c, c ∈ uniqueAdj (sortInts raw) ↔ c ∈ raw) ∧
      (∀ c, c ∈ uniqueAdj (sortInts raw) → ∃ d, segDist g read c = some d) ∧
      (r.status = MapStatus.Unmapped ↔
        (uniqueAdj (sortInts raw) = [] ∨ ∀ c, c ∈ uniqueAdj (sortInts raw) →
          ∀ d, segDist g read c = some d → max_errors < d)) ∧
      (r.status ≠ MapStatus.Unmapped →
        r.position ∈ uniqueAdj (sortInts raw) ∧
        segDist g read r.position = some r.edit_dist ∧
        (∀ c, c ∈ uniqueAdj (sortInts raw) → ∀ d, segDist g read c = some d →
          r.edit_dist ≤ d) ∧
        (∀ c, c ∈ uniqueAdj (sortInts raw) → segDist g read c = some r.edit_dist →
          r.position ≤ c) ∧
        (r.status = MapStatus.Unique ↔
          ∀ c, c ∈ uniqueAdj (sortInts raw) → segDist g read c = some r.edit_dist →
            c = r.position) ∧
        (r.status ≠ MapStatus.Unique → r.status = MapStatus.Multi)) := by
  have h := buildSuffixArray_isSuffixArray sort hs g sa hsa
  obtain ⟨raw, hraw⟩ := seedCandidates_total g sa h read seed_len h1 h2
  obtain ⟨r, hr, -, hu, hm⟩ := seedAndExtend_spec g sa read seed_len max_errors raw hraw
  refine ⟨raw, r, hraw, ?_, (dedup_facts raw).1, (dedup_facts raw).2, ?_, hu, ?_⟩
  · rw [mapRead_seed_path g sa h read seed_len max_errors hN hocc, hr]
  · intro c hc
    obtain ⟨d, hd, -⟩ := segDist_valid g read c
      (seedCandidates_valid g sa read seed_len raw hraw c ((dedup_facts raw).2 c |>.1 hc))
    exact ⟨d, hd⟩
  · intro hne
    obtain ⟨m1, m2, -, m4, m5, m6⟩ := hm hne
    refine ⟨m1, m2, m4, m5, m6, ?_⟩
    intro hnu
    cases hst : r.status with
    | Unmapped => exact absurd hst hne
    | Unique => exact absurd hst hnu
    | Multi => rfl

theorem mapRead_verification_witness :
    SortContract insertionSort ∧
    buildSuffixArray insertionSort [65, 67, 71, 84, 65, 67, 71, 84] =
      some [4, 0, 5, 1, 6, 2, 7, 3] ∧
    ([65, 84, 71, 84, 65] : Str).head? ≠ some 78 ∧
    occurrences [65, 67, 71, 84, 65, 67, 71, 84] [65, 84, 71, 84, 65] = [] ∧
    (1 : Int) ≤ 3 ∧ (3 : Int) ≤ (([65, 84, 71, 84, 65] : Str).length : Int) ∧
    seedCandidates [65, 67, 71, 84, 65, 67, 71, 84] [4, 0, 5, 1, 6, 2, 7, 3]
      [65, 84, 71, 84, 65] 3 = some [0] ∧
    mapRead [65, 67, 71, 84, 65, 67, 71, 84] [4, 0, 5, 1, 6, 2, 7, 3]
      [65, 84, 71, 84, 65] 3 1 = some ⟨MapStatus.Unique, 0, 1⟩ ∧
    ∃ raw r, seedCandidates [65, 67, 71, 84, 65, 67, 71, 84] [4, 0, 5, 1, 6, 2, 7, 3]
        [65, 84, 71, 84, 65] 3 = some raw ∧
      mapRead [65, 67, 71, 84, 65, 67, 71, 84] [4, 0, 5, 1, 6, 2, 7, 3]
        [65, 84, 71, 84, 65] 3 1 = some r ∧
      (uniqueAdj (sortInts raw)).Pairwise (fun a b => a < b) ∧
      (∀ c, c ∈ uniqueAdj (sortInts raw) ↔ c ∈ raw) ∧
      (∀ c, c ∈ uniqueAdj (sortInts raw) →
        ∃ d, segDist [65, 67, 71, 84, 65, 67, 71, 84] [65, 84, 71, 84, 65] c = some d) ∧
      (r.status = MapStatus.Unmapped ↔
        (uniqueAdj (sortInts raw) = [] ∨ ∀ c, c ∈ uniqueAdj (sortInts raw) →
          ∀ d, segDist [65, 67, 71, 84, 65, 67, 71, 84] [65, 84, 71, 84, 65] c = some d →
            1 < d)) ∧
      (r.status ≠ MapStatus.Unmapped →
        r.position ∈ uniqueAdj (sortInts raw) ∧
        segDist [65, 67, 71, 84, 65, 67, 71, 84] [65, 84, 71, 84, 65] r.position =
          some r.edit_dist ∧
        (∀ c, c ∈ uniqueAdj (sortInts raw) →
          ∀ d, segDist [65, 67, 71, 84, 65, 67, 71, 84] [65, 84, 71, 84, 65] c = some d →
            r.edit_dist ≤ d) ∧
        (∀ c, c ∈ uniqueAdj (sortInts raw) →
          segDist [65, 67, 71, 84, 65, 67, 71, 84] [65, 84, 71, 84, 65] c = some r.edit_dist →
            r.position ≤ c) ∧
        (r.status = MapStatus.Unique ↔
          ∀ c, c ∈ uniqueAdj (sortInts raw) →
            segDist [65, 67, 71, 84, 65, 67, 71, 84] [65, 84, 71, 84, 65] c =
              some r.edit_dist → c = r.position) ∧
        (r.status ≠ MapStatus.Unique → r.status = MapStatus.Multi)) :=
  ⟨insertionSort_contract, by decide, by decide, by decide, by decide, by decide, by decide,
    by decide,
    mapRead_verification insertionSort insertionSort_contract _ _ (by decide) _ 3 1
      (by decide) (by decide) (by decide) (by decide)⟩

/-- C15 as stated fails: in the reference `"ATC"` the segment at position 0 is at distance 1
from the read `"AGC"` and every other substring of the reference, of any length, is farther
away, yet with `seed_len = 3` and `max_errors = 1` no seed matches and `mapRead` answers
`Unmapped`, not `Unique` at position 0 with distance 1. -/
theorem mapRead_misses_unique_neighbour :
    buildSuffixArray insertionSort [65, 84, 67] = some [0, 2, 1] ∧
    (1 : Int) ≤ 3 ∧ (3 : Int) ≤ (([65, 71, 67] : Str).length : Int) ∧
    lev (segment [65, 84, 67] 0 3) [65, 71, 67] = 1 ∧
    (∀ start, start < 4 → ∀ len, len < 4 → start + len ≤ 3 → ¬ (start = 0 ∧ len = 3) →
      1 < lev ((([65, 84, 67] : Str).drop start).take len) [65, 71, 67]) ∧
    mapRead [65, 84, 67] [0, 2, 1] [65, 71, 67] 3 1 = some ⟨MapStatus.Unmapped, -1, -1⟩ ∧
    mapRead [65, 84, 67] [0, 2, 1] [65, 71, 67] 3 1 ≠ some ⟨MapStatus.Unique, 0, 1⟩ := by
  decide

theorem drop_ne_of_ne (s : Str) (a b : Nat) (ha : a < s.length) (hb : b < s.length)
    (hne : a ≠ b) : s.drop a ≠ s.drop b := by
  intro e
  have := congrArg List.length e
  rw [List.length_drop, List.length_drop] at this
  omega

/-- A string has only one suffix array. -/
theorem isSuffixArray_unique (s : Str) (a b : List Nat) (ha : IsSuffixArray s a)
    (hb : IsSuffixArray s b) : a = b := by
  have key : ∀ l : List Nat, IsSuffixArray s l →
      l.Pairwise (fun x y => lexLt (s.drop x) (s.drop y) = true ∨ x = y) := by
    intro l hl
    obtain ⟨hlen, hnd, hlt, -⟩ := perm_range_facts l s.length hl.1
    rw [List.pairwise_iff_getElem]
    intro i j hi hj hij
    left
    have h1 := hl.2 i j hij hj
    rw [List.getD_eq_getElem _ _ hi, List.getD_eq_getElem _ _ hj] at h1
    unfold lexLe at h1
    cases hx : lexLt (s.drop l[i]) (s.drop l[j])
    · exfalso
      have e := lexLt_total _ _ hx (by simpa using h1)
      refine drop_ne_of_ne s l[i] l[j] (hlt _ (List.getElem_mem hi))
        (hlt _ (List.getElem_mem hj)) ?_ e
      intro e'
      have := (hnd.getElem_inj_iff).1 e'
      omega
    · rfl
  have hanti : ∀ x y : Nat, (lexLt (s.drop x) (s.drop y) = true ∨ x = y) →
      (lexLt (s.drop y) (s.drop x) = true ∨ y = x) → x = y := by
    intro x y h1 h2
    rcases h1 with h1 | h1
    · rcases h2 with h2 | h2
      · rw [lexLt_asymm _ _ h1] at h2; cases h2
      · exact h2.symm
    · exact h1
  exact @List.eq_of_perm_of_sorted Nat
    (fun x y => lexLt (s.drop x) (s.drop y) = true ∨ x = y) ⟨hanti⟩ a b
    (ha.1.trans hb.1.symm) (key a ha) (key b hb)

/-- C16: for the reference `"ACGTACGT"` with its suffix array, the read `"ATGTA"` and
`seed_len = 3`, `mapRead` answers `Unique` with position 0 and edit distance 1 for every
`max_errors ≥ 1`, and `Unmapped` for `max_errors = 0`. -/
theorem mapRead_one_substitution (sort : (Nat → Nat → Bool) → List Nat → List Nat)
    (hs : SortContract sort) (sa : List Nat)
    (hsa : buildSuffixArray sort [65, 67, 71, 84, 65, 67, 71, 84] = some sa) :
    (∀ max_errors : Int, 1 ≤ max_errors →
      mapRead [65, 67, 71, 84, 65, 67, 71, 84] sa [65, 84, 71, 84, 65] 3 max_errors =
        some ⟨MapStatus.Unique, 0, 1⟩) ∧
    mapRead [65, 67, 71, 84, 65, 67, 71, 84] sa [65, 84, 71, 84, 65] 3 0 =
      some ⟨MapStatus.Unmapped, -1, -1⟩ := by
  have h := buildSuffixArray_isSuffixArray sort hs _ sa hsa
  have h' := buildSuffixArray_isSuffixArray insertionSort insertionSort_contract
    [65, 67, 71, 84, 65, 67, 71, 84] [4, 0, 5, 1, 6, 2, 7, 3] (by decide)
  have e := isSuffixArray_unique _ _ _ h h'
  subst e
  refine ⟨?_, by decide⟩
  intro max_errors hme
  rw [mapRead_seed_path _ _ h _ 3 max_errors (by decide) (by decide)]
  unfold seedAndExtend
  have hraw : seedCandidates [65, 67, 71, 84, 65, 67, 71, 84] [4, 0, 5, 1, 6, 2, 7, 3]
      [65, 84, 71, 84, 65] 3 = some [0] := by decide
  rw [hraw]
  simp only
  rw [if_neg (by decide)]
  have hC : uniqueAdj (sortInts [0]) = [0] := by decide
  rw [hC]
  unfold verifyLoop
  rw [verifyStep_valid _ _ _ 0 1 (by unfold ValidCand; decide) (by decide)]
  simp only
  rw [if_pos (by omega)]
  unfold verifyLoop
  simp only
  rw [if_pos hme]
  rfl

theorem mapRead_one_substitution_witness :
    SortContract insertionSort ∧
    buildSuffixArray insertionSort [65, 67, 71, 84, 65, 67, 71, 84] =
      some [4, 0, 5, 1, 6, 2, 7, 3] ∧
    ((∀ max_errors : Int, 1 ≤ max_errors →
      mapRead [65, 67, 71, 84, 65, 67, 71, 84] [4, 0, 5, 1, 6, 2, 7, 3] [65, 84, 71, 84, 65] 3
        max_errors = some ⟨MapStatus.Unique, 0, 1⟩) ∧
    mapRead [65, 67, 71, 84, 65, 67, 71, 84] [4, 0, 5, 1, 6, 2, 7, 3] [65, 84, 71, 84, 65] 3 0 =
      some ⟨MapStatus.Unmapped, -1, -1⟩) :=
  ⟨insertionSort_contract, by decide,
    mapRead_one_substitution insertionSort insertionSort_contract _ (by decide)⟩

/-! ## The read loop of `main` -/

theorem sum_set_succ : ∀ (l : List Int) (i : Nat), i < l.length →
    (l.set i (l.getD i 0 + 1)).sum = l.sum + 1
  | [], _, h => by simp at h
  | a :: l, 0, _ => by
    simp only [List.set_cons_zero, List.sum_cons, List.getD_cons_zero]
    omega
  | a :: l, i + 1, h => by
    have ih := sum_set_succ l i (by simpa using h)
    simp only [List.set_cons_succ, List.sum_cons, List.getD_cons_succ, ih]
    omega

theorem getD_of_length_le (l : List Int) (i : Nat) (h : l.length ≤ i) : l.getD i 0 = 0 := by
  rw [List.getD_eq_getElem?_getD, List.getElem?_eq_none h]
  rfl

/-- The increment loop over `[a, a + k)` inside the vector adds 1 to exactly these cells. -/
theorem coverage_fold (a : Nat) : ∀ (k : Nat) (c : List Int), a + k ≤ c.length →
    ((List.range' a k).foldl (fun c i => c.set i (c.getD i 0 + 1)) c).length = c.length ∧
    (∀ i, ((List.range' a k).foldl (fun c i => c.set i (c.getD i 0 + 1)) c).getD i 0 =
      c.getD i 0 + (if a ≤ i ∧ i < a + k then 1 else 0)) ∧
    ((List.range' a k).foldl (fun c i => c.set i (c.getD i 0 + 1)) c).sum = c.sum + (k : Int) := by
  intro k
  induction k with
  | zero =>
    intro c _
    refine ⟨rfl, ?_, by simp⟩
    intro i
    rw [if_neg (by omega)]
    simp
  | succ k ih =>
    intro c h
    obtain ⟨h1, h2, h3⟩ := ih c (by omega)
    rw [List.range'_concat, List.foldl_append]
    simp only [List.foldl_cons, List.foldl_nil, Nat.one_mul]
    generalize (List.range' a k).foldl (fun c i => c.set i (c.getD i 0 + 1)) c = c1
      at h1 h2 h3
    refine ⟨by rw [List.length_set, h1], ?_, ?_⟩
    · intro i
      by_cases hi : i = a + k
      · subst hi
        rw [getD_set_self _ _ _ _ (by omega), h2, if_neg (by omega), if_pos (by omega)]
        omega
      · rw [getD_set_ne _ _ _ _ _ (fun e => hi e.symm), h2]
        by_cases hin : a ≤ i ∧ i < a + k
        · rw [if_pos hin, if_pos (by omega)]
        · rw [if_neg hin, if_neg (by omega)]
    · rw [sum_set_succ c1 (a + k) (by omega), h3]
      push_cast
      omega

theorem coverageUpdate_spec (cov cov1 : List Int) (start stop : Int)
    (h : coverageUpdate cov start stop = some cov1) :
    cov1.length = cov.length ∧
    (∀ i : Nat, cov1.getD i 0 =
      cov.getD i 0 + (if start ≤ (i : Int) ∧ (i : Int) < stop then 1 else 0)) ∧
    cov1.sum = cov.sum + ((stop - start).toNat : Int) := by
  unfold coverageUpdate at h
  by_cases hbad : start < stop ∧ (start < 0 ∨ (cov.length : Int) < stop)
  · rw [if_pos hbad] at h
    cases h
  · rw [if_neg hbad] at h
    cases h
    by_cases hlt : start < stop
    · have hfit : start.toNat + (stop - start).toNat ≤ cov.length := by omega
      obtain ⟨h1, h2, h3⟩ := coverage_fold start.toNat (stop - start).toNat cov hfit
      refine ⟨h1, ?_, h3⟩
      intro i
      rw [h2 i]
      by_cases hin : start ≤ (i : Int) ∧ (i : Int) < stop
      · rw [if_pos hin, if_pos (by omega)]
      · rw [if_neg hin, if_neg (by omega)]
    · have e : (stop - start).toNat = 0 := by omega
      rw [e]
      refine ⟨rfl, ?_, by simp⟩
      intro i
      rw [if_neg (by omega)]
      simp

theorem coverageUpdate_total (cov : List Int) (start stop : Int) (h0 : 0 ≤ start)
    (h1 : stop ≤ (cov.length : Int)) : ∃ cov1, coverageUpdate cov start stop = some cov1 := by
  unfold coverageUpdate
  rw [if_neg (by omega)]
  exact ⟨_, rfl⟩

theorem countStatus_append (res : List (Str × MappingResult)) (p : Str × MappingResult)
    (s : MapStatus) :
    countStatus (res ++ [p]) s = countStatus res s + (if p.2.status = s then 1 else 0) := by
  unfold countStatus
  rw [List.filter_append, List.length_append]
  by_cases h : p.2.status = s
  · simp [h]
  · simp [h]

theorem editSum_append (res : List (Str × MappingResult)) (p : Str × MappingResult) :
    editSum (res ++ [p]) =
      editSum res + (if p.2.status ≠ MapStatus.Unmapped then p.2.edit_dist else 0) := by
  unfold editSum
  rw [List.filter_append, List.map_append, List.sum_append]
  by_cases h : p.2.status = MapStatus.Unmapped
  · simp [h]
  · simp [h]

theorem coverCount_append (res : List (Str × MappingResult)) (p : Str × MappingResult)
    (i : Nat) :
    coverCount (res ++ [p]) i = coverCount res i +
      (if p.2.status = MapStatus.Unique ∧ p.2.position ≤ (i : Int) ∧
        (i : Int) < p.2.position + (p.1.length : Int) then 1 else 0) := by
  unfold coverCount
  rw [List.filter_append, List.length_append]
  by_cases h : p.2.status = MapStatus.Unique ∧ p.2.position ≤ (i : Int) ∧
      (i : Int) < p.2.position + (p.1.length : Int)
  · rw [if_pos h]
    simp [h]
  · rw [if_neg h]
    simp [h]

theorem uniqueLenSum_append (res : List (Str × MappingResult)) (p : Str × MappingResult) :
    uniqueLenSum (res ++ [p]) =
      uniqueLenSum res + (if p.2.status = MapStatus.Unique then (p.1.length : Int) else 0) := by
  unfold uniqueLenSum
  rw [List.filter_append, List.map_append, List.sum_append]
  by_cases h : p.2.status = MapStatus.Unique
  · simp [h]
  · simp [h]

/-- One pass of the loop body keeps `RunInv`, with the read and its result appended; a result
that is not `Unique` leaves the coverage vector as it is. -/
theorem aggStep_inv (g : Str) (sa : List Nat) (seed_len max_errors : Int) (st st1 : RunState)
    (read : Str) (res : List (Str × MappingResult))
    (h : aggStep g sa seed_len max_errors st read = some st1) (hinv : RunInv g.length res st) :
    ∃ r, mapRead g sa read seed_len max_errors = some r ∧
      RunInv g.length (res ++ [(read, r)]) st1 ∧
      (r.status ≠ MapStatus.Unique → st1.coverage = st.coverage) := by
  obtain ⟨i1, i2, i3, i4, i5, i6, i7, i8, i9⟩ := hinv
  unfold aggStep at h
  cases hr : mapRead g sa read seed_len max_errors with
  | none => rw [hr] at h; cases h
  | some r =>
    rw [hr] at h
    simp only at h
    refine ⟨r, rfl, ?_⟩
    by_cases hU : r.status = MapStatus.Unmapped
    · rw [if_neg (by simpa using hU)] at h
      cases h
      refine ⟨⟨?_, ?_, ?_, ?_, ?_, ?_, i7, ?_, ?_⟩, fun _ => rfl⟩
      · simp only [List.length_append, List.length_singleton]; push_cast; omega
      · rw [countStatus_append]; simp [hU, i2]
      · rw [countStatus_append]; simp [hU, i3]
      · exact i4
      · simp only; omega
      · rw [editSum_append]; simp [hU, i6]
      · intro i hi
        rw [coverCount_append, if_neg (by simp [hU])]
        simpa using i8 i hi
      · rw [uniqueLenSum_append]; simp [hU, i9]
    · rw [if_pos hU] at h
      by_cases hq : r.status = MapStatus.Unique
      · rw [if_pos hq] at h
        cases hc : coverageUpdate st.coverage r.position
            (min (r.position + (read.length : Int)) (g.length : Int)) with
        | none => rw [hc] at h; cases h
        | some cov =>
          rw [hc] at h
          cases h
          obtain ⟨c1, c2, c3⟩ := coverageUpdate_spec _ _ _ _ hc
          refine ⟨⟨?_, ?_, ?_, ?_, ?_, ?_, ?_, ?_, ?_⟩, fun hne => absurd hq hne⟩
          · simp only [List.length_append, List.length_singleton]; push_cast; omega
          · rw [countStatus_append]; simp [hq, i2]
          · rw [countStatus_append]; simp [hq, i3]
          · simp only; omega
          · simp only; omega
          · rw [editSum_append]; simp [hq, i6]
          · simp only; rw [c1, i7]
          · intro i hi
            rw [coverCount_append]
            simp only
            rw [c2 i, i8 i hi]
            by_cases hin : r.position ≤ (i : Int) ∧ (i : Int) < r.position + (read.length : Int)
            · rw [if_pos (by omega), if_pos ⟨hq, hin⟩]
              push_cast
              rfl
            · rw [if_neg (by omega), if_neg (fun hh => hin hh.2)]
              push_cast
              omega
          · rw [uniqueLenSum_append]
            simp only [hq, if_true]
            rw [c3]
            omega
      · rw [if_neg hq] at h
        cases h
        have hM : r.status = MapStatus.Multi := by
          cases hs : r.status with
          | Unmapped => exact absurd hs hU
          | Unique => exact absurd hs hq
          | Multi => rfl
        refine ⟨⟨?_, ?_, ?_, ?_, ?_, ?_, i7, ?_, ?_⟩, fun _ => rfl⟩
        · simp only [List.length_append, List.length_singleton]; push_cast; omega
        · rw [countStatus_append]; simp [hM, i2]
        · rw [countStatus_append]; simp [hM, i3]
        · simp only; omega
        · simp only; omega
        · rw [editSum_append]; simp [hM, i6]
        · intro i hi
          rw [coverCount_append, if_neg (by simp [hM])]
          simpa using i8 i hi
        · rw [uniqueLenSum_append]; simp [hM, i9]

/-- Under the preconditions on every read the read loop of `main` finishes: every call of
`mapRead` returns and every write to `coverage` is inside the vector. -/
theorem mapLoop_total (g : Str) (sa : List Nat) (hsa : IsSuffixArray g sa)
    (seed_len max_errors max_reads : Int) (h1 : 1 ≤ seed_len) (h0 : 0 ≤ max_errors) :
    ∀ (reads : List Str) (st : RunState),
      (∀ read, read ∈ reads → seed_len ≤ (read.length : Int)) →
      st.coverage.length = g.length →
      ∃ st1, mapLoop g sa seed_len max_errors max_reads reads st = some st1 := by
  intro reads
  induction reads with
  | nil => intro st _ _; exact ⟨st, rfl⟩
  | cons read rest ih =>
    intro st hr hc
    unfold mapLoop
    by_cases hb : 0 ≤ max_reads ∧ max_reads ≤ st.total_reads
    · rw [if_pos hb]
      exact ⟨st, rfl⟩
    · rw [if_neg hb]
      obtain ⟨r, hres, -, hm⟩ := mapRead_result_core g sa hsa read seed_len max_errors h1 h0
        (hr read (List.mem_cons_self _ _))
      have hrest : ∀ x, x ∈ rest → seed_len ≤ (x.length : Int) :=
        fun x hx => hr x (List.mem_cons_of_mem _ hx)
      have hstep : ∃ st2, aggStep g sa seed_len max_errors st read = some st2 ∧
          st2.coverage.length = g.length := by
        unfold aggStep
        rw [hres]
        simp only
        by_cases hU : r.status = MapStatus.Unmapped
        · rw [if_neg (by simpa using hU)]
          exact ⟨_, rfl, hc⟩
        · rw [if_pos hU]
          by_cases hq : r.status = MapStatus.Unique
          · rw [if_pos hq]
            obtain ⟨p0, p1, -, -⟩ := hm hU
            obtain ⟨cov, hcov⟩ := coverageUpdate_total st.coverage r.position
              (min (r.position + (read.length : Int)) (g.length : Int)) p0
              (by rw [hc]; exact min_le_right _ _)
            rw [hcov]
            refine ⟨_, rfl, ?_⟩
            simp only
            rw [(coverageUpdate_spec _ _ _ _ hcov).1, hc]
          · rw [if_neg hq]
            exact ⟨_, rfl, hc⟩
      obtain ⟨st2, hst2, hc2⟩ := hstep
      rw [hst2]
      exact ih st2 hrest hc2

theorem runInv_init (g : Str) : RunInv g.length [] (initState g) := by
  unfold RunInv initState countStatus editSum uniqueLenSum
  refine ⟨rfl, rfl, rfl, rfl, le_refl _, rfl, by simp, ?_, by simp⟩
  intro i hi
  rw [List.getD_eq_getElem _ _ (by simpa using hi)]
  simp [coverCount]

/-- The read loop keeps `RunInv`: its final state describes the reads it processed, which are
an initial part of the input. -/
theorem mapLoop_inv (g : Str) (sa : List Nat) (seed_len max_errors max_reads : Int) :
    ∀ (reads : List Str) (st st1 : RunState) (res : List (Str × MappingResult)),
      mapLoop g sa seed_len max_errors max_reads reads st = some st1 →
      RunInv g.length res st →
      ∃ more, RunInv g.length (res ++ more) st1 ∧ (more.map Prod.fst) <+: reads ∧
        ∀ p, p ∈ more → mapRead g sa p.1 seed_len max_errors = some p.2 := by
  intro reads
  induction reads with
  | nil =>
    intro st st1 res h hinv
    unfold mapLoop at h
    cases h
    exact ⟨[], by simpa using hinv, by simp, fun p hp => by cases hp⟩
  | cons read rest ih =>
    intro st st1 res h hinv
    unfold mapLoop at h
    by_cases hb : 0 ≤ max_reads ∧ max_reads ≤ st.total_reads
    · rw [if_pos hb] at h
      cases h
      exact ⟨[], by simpa using hinv, by simp, fun p hp => by cases hp⟩
    · rw [if_neg hb] at h
      cases hs : aggStep g sa seed_len max_errors st read with
      | none => rw [hs] at h; cases h
      | some st2 =>
        rw [hs] at h
        obtain ⟨r, hr, hinv2, -⟩ := aggStep_inv g sa seed_len max_errors st st2 read res hs hinv
        obtain ⟨more, hm1, hm2, hm3⟩ := ih st2 st1 (res ++ [(read, r)]) h hinv2
        refine ⟨(read, r) :: more, by simpa using hm1, ?_, ?_⟩
        · simp only [List.map_cons]
          exact (List.prefix_cons_inj read).2 hm2
        · intro p hp
          rcases List.mem_cons.1 hp with rfl | hp
          · exact hr
          · exact hm3 p hp

theorem uniqueLenSum_le (L : Int) : ∀ (res : List (Str × MappingResult)),
    (∀ p, p ∈ res → (p.1.length : Int) ≤ L) →
    uniqueLenSum res ≤ (countStatus res MapStatus.Unique : Int) * L
  | [], _ => by simp [uniqueLenSum, countStatus]
  | p :: res, h => by
    have ih := uniqueLenSum_le L res (fun q hq => h q (List.mem_cons_of_mem _ hq))
    have hp := h p (List.mem_cons_self _ _)
    unfold uniqueLenSum countStatus at ih ⊢
    by_cases hs : p.2.status = MapStatus.Unique
    · simp only [List.filter_cons, hs, decide_True, if_true, List.map_cons, List.sum_cons,
        List.length_cons]
      push_cast
      rw [add_mul]
      omega
    · simp only [List.filter_cons, hs, decide_False]
      exact ih

/-- C17: after any run of the read loop from the zero-initialised state, with `results` the
reads processed so far and their mapping results: `mapped_reads = unique_mapped +
multi_mapped ≤ total_reads`, the three counters count the processed reads by status, and
`total_edit_dist` is the sum of `edit_dist` over the reads whose result is not `Unmapped`.
Every state of the loop is the final state of the run on an initial part of the input.  Under
the preconditions of `mapRead` on every read the loop does return a state. -/
theorem mapLoop_counters (g : Str) (sa : List Nat) (seed_len max_errors max_reads : Int)
    (reads : List Str) :
    (∀ st : RunState,
      mapLoop g sa seed_len max_errors max_reads reads (initState g) = some st →
      ∃ results : List (Str × MappingResult),
        (results.map Prod.fst) <+: reads ∧
        (∀ p, p ∈ results → mapRead g sa p.1 seed_len max_errors = some p.2) ∧
        st.total_reads = (results.length : Int) ∧
        st.unique_mapped = (countStatus results MapStatus.Unique : Int) ∧
        st.multi_mapped = (countStatus results MapStatus.Multi : Int) ∧
        st.mapped_reads = st.unique_mapped + st.multi_mapped ∧
        st.mapped_reads ≤ st.total_reads ∧
        st.total_edit_dist = editSum results) ∧
    (∀ sort : (Nat → Nat → Bool) → List Nat → List Nat, SortContract sort →
      buildSuffixArray sort g = some sa → 1 ≤ seed_len → 0 ≤ max_errors →
      (∀ read, read ∈ reads → seed_len ≤ (read.length : Int)) →
      ∃ st, mapLoop g sa seed_len max_errors max_reads reads (initState g) = some st) := by
  constructor
  · intro st h
    obtain ⟨more, hinv, hpre, hmap⟩ :=
      mapLoop_inv g sa seed_len max_errors max_reads reads _ st [] h (runInv_init g)
    rw [List.nil_append] at hinv
    obtain ⟨i1, i2, i3, i4, i5, i6, -⟩ := hinv
    exact ⟨more, hpre, hmap, i1, i2, i3, i4, i5, i6⟩
  · intro sort hs hsa h1 h0 hr
    exact mapLoop_total g sa (buildSuffixArray_isSuffixArray sort hs g sa hsa) seed_len
      max_errors max_reads h1 h0 reads (initState g) hr (by simp [initState])

theorem mapLoop_counters_witness :
    mapLoop [65, 67, 71, 84, 65, 67, 71, 84] [4, 0, 5, 1, 6, 2, 7, 3] 3 1 (-1)
      [[65, 67, 71, 84, 65], [65, 67, 71, 84], [65, 84, 71, 84, 65], [78, 65], [71, 71, 71]]
      (initState [65, 67, 71, 84, 65, 67, 71, 84]) =
      some ⟨5, 3, 2, 1, 1, [2, 2, 2, 2, 2, 0, 0, 0]⟩ ∧
    ∃ results : List (Str × MappingResult),
      (results.map Prod.fst) <+:
        [[65, 67, 71, 84, 65], [65, 67, 71, 84], [65, 84, 71, 84, 65], [78, 65], [71, 71, 71]] ∧
      (∀ p, p ∈ results →
        mapRead [65, 67, 71, 84, 65, 67, 71, 84] [4, 0, 5, 1, 6, 2, 7, 3] p.1 3 1 = some p.2) ∧
      (5 : Int) = (results.length : Int) ∧
      (2 : Int) = (countStatus results MapStatus.Unique : Int) ∧
      (1 : Int) = (countStatus results MapStatus.Multi : Int) ∧
      (3 : Int) = 2 + 1 ∧ (3 : Int) ≤ 5 ∧ (1 : Int) = editSum results :=
  ⟨by decide, (mapLoop_counters _ _ 3 1 (-1) _).1 ⟨5, 3, 2, 1, 1, [2, 2, 2, 2, 2, 0, 0, 0]⟩
    (by decide)⟩

/-- C18: after any run of the read loop over a reference of length `n` from the
zero-initialised state, `coverage` has length `n` and `coverage[i]`, for every `i < n`, is the
number of processed reads whose result is `Unique` and whose interval
`[position, position + |read|)` contains `i`; a pass of the loop body whose result is `Multi`
or `Unmapped` leaves `coverage` unchanged; and the sum of `coverage` is at most
`unique_mapped` times any bound on the lengths of the processed reads.  Under the
preconditions of `mapRead` on every read the loop does return a state: no write to `coverage`
is out of bounds. -/
theorem mapLoop_coverage (g : Str) (sa : List Nat) (seed_len max_errors max_reads : Int)
    (reads : List Str) :
    (∀ st : RunState,
      mapLoop g sa seed_len max_errors max_reads reads (initState g) = some st →
      ∃ results : List (Str × MappingResult),
        (results.map Prod.fst) <+: reads ∧
        (∀ p, p ∈ results → mapRead g sa p.1 seed_len max_errors = some p.2) ∧
        st.unique_mapped = (countStatus results MapStatus.Unique : Int) ∧
        st.coverage.length = g.length ∧
        (∀ i, i < g.length → st.coverage.getD i 0 = (coverCount results i : Int)) ∧
        (∀ L : Int, (∀ p, p ∈ results → (p.1.length : Int) ≤ L) →
          st.coverage.sum ≤ st.unique_mapped * L)) ∧
    (∀ (st0 st1 : RunState) (read : Str) (r : MappingResult),
      aggStep g sa seed_len max_errors st0 read = some st1 →
      mapRead g sa read seed_len max_errors = some r → r.status ≠ MapStatus.Unique →
      st1.coverage = st0.coverage) ∧
    (∀ sort : (Nat → Nat → Bool) → List Nat → List Nat, SortContract sort →
      buildSuffixArray sort g = some sa → 1 ≤ seed_len → 0 ≤ max_errors →
      (∀ read, read ∈ reads → seed_len ≤ (read.length : Int)) →
      ∃ st, mapLoop g sa seed_len max_errors max_reads reads (initState g) = some st) := by
  refine ⟨?_, ?_, ?_⟩
  · intro st h
    obtain ⟨more, hinv, hpre, hmap⟩ :=
      mapLoop_inv g sa seed_len max_errors max_reads reads _ st [] h (runInv_init g)
    rw [List.nil_append] at hinv
    obtain ⟨-, i2, -, -, -, -, i7, i8, i9⟩ := hinv
    refine ⟨more, hpre, hmap, i2, i7, i8, ?_⟩
    intro L hL
    rw [i2]
    exact le_trans i9 (uniqueLenSum_le L more hL)
  · intro st0 st1 read r hs hr hne
    unfold aggStep at hs
    rw [hr] at hs
    simp only at hs
    by_cases hU : r.status = MapStatus.Unmapped
    · rw [if_neg (by simpa using hU)] at hs
      cases hs
      rfl
    · rw [if_pos hU, if_neg hne] at hs
      cases hs
      rfl
  · intro sort hs hsa h1 h0 hr
    exact mapLoop_total g sa (buildSuffixArray_isSuffixArray sort hs g sa hsa) seed_len
      max_errors max_reads h1 h0 reads (initState g) hr (by simp [initState])

theorem mapLoop_coverage_witness :
    mapLoop [65, 67, 71, 84, 65, 67, 71, 84] [4, 0, 5, 1, 6, 2, 7, 3] 3 1 (-1)
      [[65, 67, 71, 84, 65], [65, 67, 71, 84], [65, 84, 71, 84, 65], [78, 65], [71, 71, 71]]
      (initState [65, 67, 71, 84, 65, 67, 71, 84]) =
      some ⟨5, 3, 2, 1, 1, [2, 2, 2, 2, 2, 0, 0, 0]⟩ ∧
    ∃ results : List (Str × MappingResult),
      (results.map Prod.fst) <+:
        [[65, 67, 71, 84, 65], [65, 67, 71, 84], [65, 84, 71, 84, 65], [78, 65], [71, 71, 71]] ∧
      (∀ p, p ∈ results →
        mapRead [65, 67, 71, 84, 65, 67, 71, 84] [4, 0, 5, 1, 6, 2, 7, 3] p.1 3 1 = some p.2) ∧
      (2 : Int) = (countStatus results MapStatus.Unique : Int) ∧
      ([2, 2, 2, 2, 2, 0, 0, 0] : List Int).length =
        ([65, 67, 71, 84, 65, 67, 71, 84] : Str).length ∧
      (∀ i, i < ([65, 67, 71, 84, 65, 67, 71, 84] : Str).length →
        ([2, 2, 2, 2, 2, 0, 0, 0] : List Int).getD i 0 = (coverCount results i : Int)) ∧
      (∀ L : Int, (∀ p, p ∈ results → (p.1.length : Int) ≤ L) →
        ([2, 2, 2, 2, 2, 0, 0, 0] : List Int).sum ≤ 2 * L) :=
  ⟨by decide, (mapLoop_coverage _ _ 3 1 (-1) _).1 ⟨5, 3, 2, 1, 1, [2, 2, 2, 2, 2, 0, 0, 0]⟩
    (by decide)⟩

/-! ## The read mapper: safety of the candidates and the reported distance -/

theorem hitCandidates_length (g : Str) (sa : List Nat) (read : Str) (off : Int) (slo shi : Nat) :
    (hitCandidates g sa read off slo shi).length ≤ 100 := by
  unfold hitCandidates
  refine le_trans (List.length_filter_le _ _) ?_
  rw [List.length_map, List.length_range']
  exact Nat.min_le_right _ _

theorem seedBody_length (g : Str) (sa : List Nat) (read : Str) (seed_len step : Int)
    (cands out : List Int) (i : Nat) (h : seedBody g sa read seed_len step cands i = some out) :
    cands <+: out ∧ out.length ≤ cands.length + 100 := by
  unfold seedBody at h
  cases hs : substr read ((i : Int) * step) seed_len with
  | none => rw [hs] at h; cases h
  | some seed =>
    rw [hs] at h
    simp only at h
    by_cases hn : (78 : Nat) ∈ seed
    · rw [if_pos hn] at h
      cases h
      exact ⟨List.prefix_refl _, by omega⟩
    · rw [if_neg hn] at h
      cases hlo : suffixArrayLowerBound g sa seed with
      | none => rw [hlo] at h; cases h
      | some slo =>
        cases hhi : suffixArrayUpperBound g sa seed with
        | none => rw [hlo, hhi] at h; cases h
        | some shi =>
          rw [hlo, hhi] at h
          cases h
          refine ⟨List.prefix_append _ _, ?_⟩
          rw [List.length_append]
          have := hitCandidates_length g sa read ((i : Int) * step) slo shi
          omega

theorem seedLoop_length (g : Str) (sa : List Nat) (read : Str) (seed_len step : Int) :
    ∀ (iters : List Nat) (cands out : List Int),
      seedLoop g sa read seed_len step iters cands = some out →
      out.length ≤ cands.length + 100 * iters.length := by
  intro iters
  induction iters with
  | nil =>
    intro cands out h
    unfold seedLoop at h
    cases h
    omega
  | cons i rest ih =>
    intro cands out h
    unfold seedLoop at h
    cases hb : seedBody g sa read seed_len step cands i with
    | none => rw [hb] at h; cases h
    | some c =>
      rw [hb] at h
      have h1 := ih c out h
      have h2 := (seedBody_length g sa read seed_len step cands c i hb).2
      rw [List.length_cons]
      omega

theorem seedIters_length (read : Str) (seed_len step : Int) :
    (seedIters read seed_len step).length ≤ 3 := by
  unfold seedIters
  exact le_trans (List.takeWhile_sublist _).length_le (by simp)

theorem seedCandidates_length (g : Str) (sa : List Nat) (read : Str) (seed_len : Int)
    (raw : List Int) (h : seedCandidates g sa read seed_len = some raw) : raw.length ≤ 300 := by
  have h1 := seedLoop_length g sa read seed_len _ _ [] raw h
  have h2 := seedIters_length read seed_len (seedStep read seed_len)
  simp only [List.length_nil] at h1
  omega

theorem uniqueAdj_length : ∀ l : List Int, (uniqueAdj l).length ≤ l.length
  | [] => by simp [uniqueAdj]
  | [a] => by simp [uniqueAdj]
  | a :: b :: l => by
    have ih := uniqueAdj_length (b :: l)
    unfold uniqueAdj
    split
    · simp only [List.length_cons] at ih ⊢
      omega
    · simp only [List.length_cons] at ih ⊢
      omega

/-- Under the preconditions the verification loop of `mapRead` returns: no call of `substr`
throws and no call of `editDistance<10>` reads outside its row. -/
theorem verifyLoop_total (g : Str) (sa : List Nat) (read : Str) (seed_len max_errors : Int)
    (raw : List Int) (hraw : seedCandidates g sa read seed_len = some raw) :
    ∃ b, verifyLoop g read (uniqueAdj (sortInts raw)) ⟨max_errors + 1, -1, 0⟩ = some b := by
  obtain ⟨hstrict, hmem⟩ := dedup_facts raw
  have hvalid := seedCandidates_valid g sa read seed_len raw hraw
  have hinit : BestInv g read max_errors [] ⟨max_errors + 1, -1, 0⟩ := by
    refine ⟨le_refl _, ?_, ?_⟩
    · intro c hc
      cases hc
    · intro hle
      simp only at hle
      omega
  obtain ⟨out, hout, -⟩ := verifyLoop_inv g read max_errors (uniqueAdj (sortInts raw)) []
    ⟨max_errors + 1, -1, 0⟩ (fun c hc => hvalid c ((hmem c).1 hc)) (by simpa using hstrict) hinit
  exact ⟨out, hout⟩

/-- C21: under the preconditions the seed loop of `mapRead` returns its candidates `raw`;
one pass of its body appends at most 100 candidates to the ones it was given, so `raw` has at
most 300 entries, and so has the deduplicated list that goes to verification.  Every
candidate `c` of that list has `0 ≤ c` and `c + |read| ≤ n`; `substr` returns the segment
`g[c .. c + |read|)`, which has exactly the length of the read; the final cell that
`editDistance<10>` reads then has index `|read| - |segment| + 10 = 10` and the call returns a
value; and the whole verification loop returns. -/
theorem mapRead_candidates_safe (sort : (Nat → Nat → Bool) → List Nat → List Nat)
    (hs : SortContract sort) (g : Str) (sa : List Nat) (hsa : buildSuffixArray sort g = some sa)
    (read : Str) (seed_len max_errors : Int) (h1 : 1 ≤ seed_len)
    (h2 : seed_len ≤ (read.length : Int)) :
    (∀ (step : Int) (cands out : List Int) (i : Nat),
      seedBody g sa read seed_len step cands i = some out →
      cands <+: out ∧ out.length ≤ cands.length + 100) ∧
    ∃ raw, seedCandidates g sa read seed_len = some raw ∧ raw.length ≤ 300 ∧
      (uniqueAdj (sortInts raw)).length ≤ 300 ∧
      (∀ c, c ∈ uniqueAdj (sortInts raw) →
        0 ≤ c ∧ c + (read.length : Int) ≤ (g.length : Int) ∧
        substr g c (read.length : Int) = some (segment g c read.length) ∧
        (segment g c read.length).length = read.length ∧
        (read.length : Int) - ((segment g c read.length).length : Int) + 10 = 10 ∧
        ∃ d, editDistance 10 (segment g c read.length) read = some d) ∧
      ∃ b, verifyLoop g read (uniqueAdj (sortInts raw)) ⟨max_errors + 1, -1, 0⟩ = some b := by
  have hI := buildSuffixArray_isSuffixArray sort hs g sa hsa
  refine ⟨fun step cands out i h => seedBody_length g sa read seed_len step cands out i h, ?_⟩
  obtain ⟨raw, hraw⟩ := seedCandidates_total g sa hI read seed_len h1 h2
  have hlen := seedCandidates_length g sa read seed_len raw hraw
  have hdl : (uniqueAdj (sortInts raw)).length ≤ 300 := by
    have e1 := uniqueAdj_length (sortInts raw)
    have e2 := (sortInts_perm raw).length_eq
    omega
  refine ⟨raw, hraw, hlen, hdl, ?_, verifyLoop_total g sa read seed_len max_errors raw hraw⟩
  intro c hc
  have hv := seedCandidates_valid g sa read seed_len raw hraw c ((dedup_facts raw).2 c |>.1 hc)
  obtain ⟨e, hl⟩ := substr_valid g read c hv
  obtain ⟨d, hd, -⟩ := segDist_valid g read c hv
  refine ⟨hv.1, hv.2, e, hl, ?_, d, hd⟩
  rw [hl]
  omega

theorem mapRead_candidates_safe_witness :
    SortContract insertionSort ∧
    buildSuffixArray insertionSort [65, 67, 71, 84, 65, 67, 71, 84] = some [4, 0, 5, 1, 6, 2, 7, 3] ∧
    (1 : Int) ≤ 3 ∧ (3 : Int) ≤ (([65, 84, 71, 84, 65] : Str).length : Int) ∧
    (∀ (step : Int) (cands out : List Int) (i : Nat),
      seedBody [65, 67, 71, 84, 65, 67, 71, 84] [4, 0, 5, 1, 6, 2, 7, 3] [65, 84, 71, 84, 65] 3 step cands i = some out →
      cands <+: out ∧ out.length ≤ cands.length + 100) ∧
    ∃ raw, seedCandidates [65, 67, 71, 84, 65, 67, 71, 84] [4, 0, 5, 1, 6, 2, 7, 3] [65, 84, 71, 84, 65] 3 = some raw ∧ raw.length ≤ 300 ∧
      (uniqueAdj (sortInts raw)).length ≤ 300 ∧
      (∀ c, c ∈ uniqueAdj (sortInts raw) →
        0 ≤ c ∧ c + (([65, 84, 71, 84, 65] : Str).length : Int) ≤ (([65, 67, 71, 84, 65, 67, 71, 84] : Str).length : Int) ∧
        substr [65, 67, 71, 84, 65, 67, 71, 84] c (([65, 84, 71, 84, 65] : Str).length : Int) =
          some (segment [65, 67, 71, 84, 65, 67, 71, 84] c ([65, 84, 71, 84, 65] : Str).length) ∧
        (segment [65, 67, 71, 84, 65, 67, 71, 84] c ([65, 84, 71, 84, 65] : Str).length).length = ([65, 84, 71, 84, 65] : Str).length ∧
        (([65, 84, 71, 84, 65] : Str).length : Int) -
          ((segment [65, 67, 71, 84, 65, 67, 71, 84] c ([65, 84, 71, 84, 65] : Str).length).length : Int) + 10 = 10 ∧
        ∃ d, editDistance 10 (segment [65, 67, 71, 84, 65, 67, 71, 84] c ([65, 84, 71, 84, 65] : Str).length) [65, 84, 71, 84, 65] = some d) ∧
      ∃ b, verifyLoop [65, 67, 71, 84, 65, 67, 71, 84] [65, 84, 71, 84, 65] (uniqueAdj (sortInts raw)) ⟨1 + 1, -1, 0⟩ = some b :=
  ⟨insertionSort_contract, by decide, by decide, by decide,
    mapRead_candidates_safe insertionSort insertionSort_contract _ _ (by decide) _ 3 1
      (by decide) (by decide)⟩

/-- C22: under the preconditions with `max_errors ≤ 10`, `mapRead` returns a result, and when
its status is `Unique` or `Multi` the reported position `p` lies inside the reference
(`0 ≤ p`, `p + |read| ≤ n`) and the reported `edit_dist` is the Levenshtein distance between
the segment `g[p .. p + |read|)` and the read. -/
theorem mapRead_reported_distance (sort : (Nat → Nat → Bool) → List Nat → List Nat)
    (hs : SortContract sort) (g : Str) (sa : List Nat) (hsa : buildSuffixArray sort g = some sa)
    (read : Str) (seed_len max_errors : Int) (h1 : 1 ≤ seed_len) (h0 : 0 ≤ max_errors)
    (h10 : max_errors ≤ 10) (h2 : seed_len ≤ (read.length : Int)) :
    ∃ r, mapRead g sa read seed_len max_errors = some r ∧
      (r.status = MapStatus.Unique ∨ r.status = MapStatus.Multi →
        0 ≤ r.position ∧ r.position + (read.length : Int) ≤ (g.length : Int) ∧
        r.edit_dist = (lev (segment g r.position read.length) read : Int)) := by
  have hI := buildSuffixArray_isSuffixArray sort hs g sa hsa
  by_cases hN : read.head? = some 78
  · refine ⟨⟨MapStatus.Unmapped, -1, -1⟩, ?_, ?_⟩
    · unfold mapRead
      rw [if_pos hN]
    · intro hh
      rcases hh with hh | hh <;> cases hh
  · by_cases hocc : occurrences g read = []
    · rw [mapRead_seed_path g sa hI read seed_len max_errors hN hocc]
      obtain ⟨raw, hraw⟩ := seedCandidates_total g sa hI read seed_len h1 h2
      obtain ⟨r, hr, -, -, hm⟩ := seedAndExtend_spec g sa read seed_len max_errors raw hraw
      refine ⟨r, hr, ?_⟩
      intro hst
      have hne : r.status ≠ MapStatus.Unmapped := by
        rcases hst with hh | hh <;> rw [hh] <;> decide
      obtain ⟨m1, m2, m3, -⟩ := hm hne
      have hv := seedCandidates_valid g sa read seed_len raw hraw r.position
        ((dedup_facts raw).2 r.position |>.1 m1)
      obtain ⟨d, hd, -, hlb, heq⟩ := segDist_valid g read r.position hv
      rw [m2] at hd
      have hde : r.edit_dist = d := Option.some.inj hd
      refine ⟨hv.1, hv.2, ?_⟩
      rw [hde]
      apply heq
      have : min (lev (segment g r.position read.length) read : Int) 11 ≤ 10 := by omega
      rcases min_le_iff.1 this with h | h
      · exact_mod_cast h
      · omega
    · obtain ⟨lo, hi, -, -, hlt, -, -, hperm, hres⟩ :=
        mapRead_exact g sa hI read seed_len max_errors hN hocc
      refine ⟨_, hres, ?_⟩
      intro _
      simp only
      have hmem : sa.getD lo 0 ∈ occurrences g read := by
        apply hperm.subset
        rw [List.mem_map]
        exact ⟨lo, by rw [List.mem_range']; exact ⟨0, by omega, by simp⟩, rfl⟩
      have hfit := occurrence_fits g read (sa.getD lo 0) hmem
      refine ⟨by omega, by omega, ?_⟩
      rw [segment_natCast, hfit.2, lev_self]
      rfl

theorem mapRead_reported_distance_witness :
    SortContract insertionSort ∧
    buildSuffixArray insertionSort [65, 67, 71, 84, 65, 67, 71, 84] = some [4, 0, 5, 1, 6, 2, 7, 3] ∧
    (1 : Int) ≤ 3 ∧ (0 : Int) ≤ 1 ∧ (1 : Int) ≤ 10 ∧
    (3 : Int) ≤ (([65, 84, 71, 84, 65] : Str).length : Int) ∧
    mapRead [65, 67, 71, 84, 65, 67, 71, 84] [4, 0, 5, 1, 6, 2, 7, 3] [65, 84, 71, 84, 65] 3 1 = some ⟨MapStatus.Unique, 0, 1⟩ ∧
    lev (segment [65, 67, 71, 84, 65, 67, 71, 84] 0 5) [65, 84, 71, 84, 65] = 1 ∧
    ∃ r, mapRead [65, 67, 71, 84, 65, 67, 71, 84] [4, 0, 5, 1, 6, 2, 7, 3] [65, 84, 71, 84, 65] 3 1 = some r ∧
      (r.status = MapStatus.Unique ∨ r.status = MapStatus.Multi →
        0 ≤ r.position ∧
        r.position + (([65, 84, 71, 84, 65] : Str).length : Int) ≤ (([65, 67, 71, 84, 65, 67, 71, 84] : Str).length : Int) ∧
        r.edit_dist = (lev (segment [65, 67, 71, 84, 65, 67, 71, 84] r.position ([65, 84, 71, 84, 65] : Str).length) [65, 84, 71, 84, 65] : Int)) :=
  ⟨insertionSort_contract, by decide, by decide, by decide, by decide, by decide, by decide,
    by decide,
    mapRead_reported_distance insertionSort insertionSort_contract _ _ (by decide) _ 3 1
      (by decide) (by decide) (by decide) (by decide)⟩

/-! ## Counting passes: the stable place of an item -/

theorem loopOpt_append {σ : Type} (f : σ → Nat → Option σ) :
    ∀ (l1 l2 : List Nat) (st : σ),
      loopOpt f (l1 ++ l2) st =
        match loopOpt f l1 st with
        | none => none
        | some st1 => loopOpt f l2 st1
  | [], l2, st => rfl
  | i :: l1, l2, st => by
    simp only [List.cons_append, loopOpt]
    cases f st i with
    | none => rfl
    | some st1 => exact loopOpt_append f l1 l2 st1

theorem cntEq_mono (κ : Nat → Nat) (v : Nat) (j n : Nat) (h : j ≤ n) :
    cntEq κ j v ≤ cntEq κ n v := by
  induction n, h using Nat.le_induction with
  | base => exact le_refl _
  | succ n _ ih =>
    simp only [cntEq]
    omega

theorem cntEq_lt (κ : Nat → Nat) (j n : Nat) (h : j < n) :
    cntEq κ j (κ j) < cntEq κ n (κ j) := by
  have h1 := cntEq_mono κ (κ j) (j + 1) n h
  simp only [cntEq, if_true] at h1
  omega

theorem cntEq_lt_of_eq (κ : Nat → Nat) (i j : Nat) (h : i < j) (e : κ i = κ j) :
    cntEq κ i (κ i) < cntEq κ j (κ j) := by
  rw [← e]
  exact cntEq_lt κ i j h

theorem cntLt_add_cntEq_le (κ : Nat → Nat) (v w : Nat) (h : v < w) (n : Nat) :
    cntLt κ n v + cntEq κ n v ≤ cntLt κ n w := by
  induction n with
  | zero => simp [cntLt, cntEq]
  | succ n ih =>
    simp only [cntLt, cntEq]
    split <;> split <;> split <;> omega

theorem cntLt_add_cntEq_le_self (κ : Nat → Nat) (v : Nat) (n : Nat) :
    cntLt κ n v + cntEq κ n v ≤ n := by
  induction n with
  | zero => simp [cntLt, cntEq]
  | succ n ih =>
    simp only [cntLt, cntEq]
    split <;> split <;> omega

theorem slot_lt (κ : Nat → Nat) (n j : Nat) (h : j < n) : slot κ n j < n := by
  unfold slot
  have h1 := cntEq_lt κ j n h
  have h2 := cntLt_add_cntEq_le_self κ (κ j) n
  omega

/-- The place is strictly monotone in the pair (key, index). -/
theorem slot_lt_slot (κ : Nat → Nat) (n i j : Nat) (hi : i < n)
    (h : κ i < κ j ∨ (κ i = κ j ∧ i < j)) : slot κ n i < slot κ n j := by
  unfold slot
  rcases h with h | ⟨e, h⟩
  · have h1 := cntEq_lt κ i n hi
    have h2 := cntLt_add_cntEq_le κ (κ i) (κ j) h n
    omega
  · have := cntEq_lt_of_eq κ i j h e
    rw [e] at this ⊢
    omega

theorem slot_lt_iff (κ : Nat → Nat) (n i j : Nat) (hi : i < n) (hj : j < n) :
    slot κ n i < slot κ n j ↔ (κ i < κ j ∨ (κ i = κ j ∧ i < j)) := by
  constructor
  · intro h
    by_contra hc
    have : i = j ∨ (κ j < κ i ∨ (κ j = κ i ∧ j < i)) := by omega
    rcases this with e | h2
    · subst e; omega
    · have := slot_lt_slot κ n j i hj h2
      omega
  · exact slot_lt_slot κ n i j hi

theorem slot_inj (κ : Nat → Nat) (n i j : Nat) (hi : i < n) (hj : j < n)
    (h : slot κ n i = slot κ n j) : i = j := by
  by_contra hc
  have : (κ i < κ j ∨ (κ i = κ j ∧ i < j)) ∨ (κ j < κ i ∨ (κ j = κ i ∧ j < i)) := by omega
  rcases this with h2 | h2
  · have := slot_lt_slot κ n i j hi h2; omega
  · have := slot_lt_slot κ n j i hj h2; omega

/-- An injective map of `{0, ..., n - 1}` into itself hits every value. -/
theorem surj_of_inj (f : Nat → Nat) (n : Nat) (hlt : ∀ i, i < n → f i < n)
    (hinj : ∀ i j, i < n → j < n → f i = f j → i = j) (p : Nat) (hp : p < n) :
    ∃ i, i < n ∧ f i = p := by
  have hsub : (Finset.range n).image f ⊆ Finset.range n := by
    intro x hx
    obtain ⟨i, hi, e⟩ := Finset.mem_image.1 hx
    rw [← e]
    exact Finset.mem_range.2 (hlt i (Finset.mem_range.1 hi))
  have hcard : ((Finset.range n).image f).card = n := by
    rw [Finset.card_image_of_injOn, Finset.card_range]
    intro i hi j hj e
    exact hinj i j (Finset.mem_range.1 hi) (Finset.mem_range.1 hj) e
  have heq := Finset.eq_of_subset_of_card_le hsub (by rw [hcard, Finset.card_range])
  have : p ∈ (Finset.range n).image f := by rw [heq]; exact Finset.mem_range.2 hp
  obtain ⟨i, hi, e⟩ := Finset.mem_image.1 this
  exact ⟨i, Finset.mem_range.1 hi, e⟩

theorem slot_surj (κ : Nat → Nat) (n p : Nat) (hp : p < n) : ∃ i, i < n ∧ slot κ n i = p :=
  surj_of_inj (slot κ n) n (fun i hi => slot_lt κ n i hi)
    (fun i j hi hj e => slot_inj κ n i j hi hj e) p hp

/-- Two maps of `{0, ..., n - 1}` into itself that are strictly monotone for the same total
order agree. -/
theorem mono_unique (R : Nat → Nat → Prop) (f g : Nat → Nat) (n : Nat)
    (htot : ∀ i j, i < n → j < n → i ≠ j → R i j ∨ R j i)
    (hf : ∀ i, i < n → f i < n) (hg : ∀ i, i < n → g i < n)
    (hfm : ∀ i j, i < n → j < n → R i j → f i < f j)
    (hgm : ∀ i j, i < n → j < n → R i j → g i < g j) :
    ∀ i, i < n → f i = g i := by
  have key : ∀ (h : Nat → Nat), (∀ i, i < n → h i < n) →
      (∀ i j, i < n → j < n → R i j → h i < h j) → ∀ i, i < n →
      h i = ((Finset.range n).filter (fun j => h j < h i)).card := by
    intro h hh hm i hi
    have hinj : ∀ a b, a < n → b < n → h a = h b → a = b := by
      intro a b ha hb e
      by_contra hne
      rcases htot a b ha hb hne with r | r
      · have := hm a b ha hb r; omega
      · have := hm b a hb ha r; omega
    have himg : ((Finset.range n).filter (fun j => h j < h i)).image h = Finset.range (h i) := by
      ext x
      simp only [Finset.mem_image, Finset.mem_filter, Finset.mem_range]
      constructor
      · rintro ⟨j, ⟨_, hj⟩, e⟩
        omega
      · intro hx
        obtain ⟨j, hj, e⟩ := surj_of_inj h n hh hinj x (by have := hh i hi; omega)
        exact ⟨j, ⟨hj, by omega⟩, e⟩
    have hc := congrArg Finset.card himg
    rw [Finset.card_image_of_injOn, Finset.card_range] at hc
    · exact hc.symm
    · intro a ha b hb e
      simp only [Finset.coe_filter, Finset.mem_range, Set.mem_setOf_eq] at ha hb
      exact hinj a b ha.1 hb.1 e
  have hset : ∀ (h : Nat → Nat), (∀ i, i < n → h i < n) →
      (∀ i j, i < n → j < n → R i j → h i < h j) → ∀ i, i < n →
      (Finset.range n).filter (fun j => h j < h i) =
        (Finset.range n).filter (fun j => j ≠ i ∧ ¬ h i < h j) := by
    intro h hh hm i hi
    ext j
    simp only [Finset.mem_filter, Finset.mem_range]
    constructor
    · rintro ⟨hj, hlt⟩
      refine ⟨hj, ?_, by omega⟩
      rintro rfl
      omega
    · rintro ⟨hj, hne, hnl⟩
      refine ⟨hj, ?_⟩
      rcases htot j i hj hi hne with r | r
      · exact hm j i hj hi r
      · exact absurd (hm i j hi hj r) hnl
  intro i hi
  rw [key f hf hfm i hi, key g hg hgm i hi, hset f hf hfm i hi, hset g hg hgm i hi]
  congr 1
  ext j
  simp only [Finset.mem_filter, Finset.mem_range]
  constructor
  · rintro ⟨hj, hne, hnl⟩
    refine ⟨hj, hne, ?_⟩
    intro hlt
    rcases htot j i hj hi hne with r | r
    · have := hgm j i hj hi r; omega
    · exact hnl (hfm i j hi hj r)
  · rintro ⟨hj, hne, hnl⟩
    refine ⟨hj, hne, ?_⟩
    intro hlt
    rcases htot j i hj hi hne with r | r
    · have := hfm j i hj hi r; omega
    · exact hnl (hgm i j hi hj r)

/-! ## Counting passes: the vectors -/

theorem getD_set_eq_ite {α : Type} (l : List α) (i j : Nat) (v d : α) (h : i < l.length) :
    (l.set i v).getD j d = if j = i then v else l.getD j d := by
  by_cases e : j = i
  · subst e
    rw [if_pos rfl, getD_set_self _ _ _ _ h]
  · rw [if_neg e, getD_set_ne _ _ _ _ _ (fun h' => e h'.symm)]

theorem bump_spec (cnt : List Int) (idx : Int) (h0 : 0 ≤ idx) (h1 : idx < (cnt.length : Int)) :
    ∃ c, bump cnt idx = some c ∧ c.length = cnt.length ∧
      ∀ v, c.getD v 0 = cnt.getD v 0 + (if idx.toNat = v then 1 else 0) := by
  unfold bump
  rw [if_pos ⟨h0, h1⟩]
  refine ⟨_, rfl, by simp, ?_⟩
  intro v
  rw [getD_set_eq_ite _ _ _ _ _ (by omega)]
  by_cases e : v = idx.toNat
  · subst e
    simp
  · rw [if_neg e, if_neg (fun h => e h.symm)]
    simp

/-- The counting loop adds to `cnt[v]` the number of items whose index is `v`. -/
theorem countLoop_spec (key : Nat → Int) (cnt0 : List Int) :
    ∀ (n : Nat), (∀ i, i < n → 0 ≤ key i ∧ key i < (cnt0.length : Int)) →
      ∃ c, countLoop key n cnt0 = some c ∧ c.length = cnt0.length ∧
        ∀ v, c.getD v 0 = cnt0.getD v 0 + (cntEq (fun i => (key i).toNat) n v : Int) := by
  intro n
  induction n with
  | zero =>
    intro _
    exact ⟨cnt0, rfl, rfl, fun v => by simp [cntEq]⟩
  | succ n ih =>
    intro h
    obtain ⟨c, hc, hlen, hv⟩ := ih (fun i hi => h i (by omega))
    unfold countLoop at hc ⊢
    rw [List.range_succ, loopOpt_append, hc]
    simp only [loopOpt]
    obtain ⟨c1, hc1, hlen1, hv1⟩ := bump_spec c (key n) (h n (by omega)).1
      (by rw [hlen]; exact (h n (by omega)).2)
    rw [hc1]
    refine ⟨c1, rfl, by rw [hlen1, hlen], ?_⟩
    intro v
    rw [hv1 v, hv v]
    simp only [cntEq]
    split
    · push_cast
      ring
    · simp

theorem prefixSums_fold (c : List Int) :
    ∀ m, m + 1 ≤ c.length →
      ((List.range' 1 m).foldl (fun c i => c.set i (c.getD i 0 + c.getD (i - 1) 0)) c).length =
        c.length ∧
      (∀ v, v ≤ m →
        ((List.range' 1 m).foldl (fun c i => c.set i (c.getD i 0 + c.getD (i - 1) 0)) c).getD v 0 =
          psum (fun u => c.getD u 0) v) ∧
      (∀ v, m < v →
        ((List.range' 1 m).foldl (fun c i => c.set i (c.getD i 0 + c.getD (i - 1) 0)) c).getD v 0 =
          c.getD v 0) := by
  intro m
  induction m with
  | zero =>
    intro _
    refine ⟨rfl, ?_, fun v _ => rfl⟩
    intro v hv
    have : v = 0 := by omega
    subst this
    rfl
  | succ m ih =>
    intro hm
    obtain ⟨h1, h2, h3⟩ := ih (by omega)
    rw [List.range'_concat, List.foldl_append]
    simp only [List.foldl_cons, List.foldl_nil, Nat.one_mul]
    generalize (List.range' 1 m).foldl (fun c i => c.set i (c.getD i 0 + c.getD (i - 1) 0)) c = T
      at h1 h2 h3
    have e1 : 1 + m - 1 = m := by omega
    have e2 : 1 + m = m + 1 := by omega
    rw [e1, e2]
    refine ⟨by simp [h1], ?_, ?_⟩
    · intro v hv
      rw [getD_set_eq_ite _ _ _ _ _ (by omega)]
      by_cases e : v = m + 1
      · subst e
        rw [if_pos rfl, h3 (m + 1) (by omega), h2 m (le_refl _)]
        simp only [psum]
        ring
      · rw [if_neg e]
        exact h2 v (by omega)
    · intro v hv
      rw [getD_set_eq_ite _ _ _ _ _ (by omega), if_neg (by omega)]
      exact h3 v (by omega)

theorem prefixSums_spec (c : List Int) :
    (prefixSums c).length = c.length ∧
    ∀ v, v < c.length → (prefixSums c).getD v 0 = psum (fun u => c.getD u 0) v := by
  unfold prefixSums
  by_cases h : c.length = 0
  · have e : c = [] := List.length_eq_zero.1 h
    subst e
    exact ⟨rfl, fun v hv => by simp at hv⟩
  · obtain ⟨h1, h2, -⟩ := prefixSums_fold c (c.length - 1) (by omega)
    exact ⟨h1, fun v hv => h2 v (by omega)⟩

theorem cntLt_zero (κ : Nat → Nat) (n : Nat) : cntLt κ n 0 = 0 := by
  induction n with
  | zero => rfl
  | succ n ih => simp [cntLt, ih]

theorem cntLt_succ (κ : Nat → Nat) (n v : Nat) :
    cntLt κ n (v + 1) = cntLt κ n v + cntEq κ n v := by
  induction n with
  | zero => rfl
  | succ n ih =>
    simp only [cntLt, cntEq, ih]
    split <;> split <;> split <;> omega

theorem psum_cntEq (κ : Nat → Nat) (n v : Nat) :
    psum (fun u => (cntEq κ n u : Int)) v = (cntLt κ n (v + 1) : Int) := by
  induction v with
  | zero =>
    simp only [psum]
    rw [cntLt_succ, cntLt_zero]
    simp
  | succ v ih =>
    simp only [psum]
    rw [ih, cntLt_succ κ n (v + 1)]
    push_cast
    ring

theorem cntLt_shift (ρ : Nat → Nat) (n v : Nat) :
    cntLt (fun i => ρ i + 1) n (v + 1) = cntLt ρ n v := by
  induction n with
  | zero => rfl
  | succ n ih =>
    simp only [cntLt, ih]
    split <;> split <;> omega

theorem cntLt_eq_countP (κ : Nat → Nat) (n v : Nat) :
    cntLt κ n v = ((List.range n).map κ).countP (fun x => decide (x < v)) := by
  induction n with
  | zero => rfl
  | succ n ih =>
    rw [List.range_succ, List.map_append, List.countP_append]
    simp only [cntLt, ih, List.map_cons, List.map_nil, List.countP_cons, List.countP_nil]
    split <;> simp_all

/-- Counting the keys along a rearrangement `τ` of the indices gives the same numbers. -/
theorem cntLt_perm (ρ τ : Nat → Nat) (n v : Nat)
    (h : ((List.range n).map τ).Perm (List.range n)) :
    cntLt (fun j => ρ (τ j)) n v = cntLt ρ n v := by
  rw [cntLt_eq_countP, cntLt_eq_countP]
  have e : (List.range n).map (fun j => ρ (τ j)) = ((List.range n).map τ).map ρ := by
    rw [List.map_map]
    rfl
  rw [e]
  exact (h.map ρ).countP_eq _

/-- After the counting loop from zeros and the prefix sums, `cnt[v]` is the number of items
whose index is at most `v`. -/
theorem count_prefix_spec (key : Nat → Int) (n S : Nat)
    (h : ∀ i, i < n → 0 ≤ key i ∧ key i < (S : Int)) :
    ∃ c, countLoop key n (List.replicate S 0) = some c ∧ (prefixSums c).length = S ∧
      ∀ v, v < S → (prefixSums c).getD v 0 = (cntLt (fun i => (key i).toNat) n (v + 1) : Int) := by
  obtain ⟨c, hc, hlen, hv⟩ := countLoop_spec key (List.replicate S 0) n
    (by simpa using h)
  rw [List.length_replicate] at hlen
  obtain ⟨p1, p2⟩ := prefixSums_spec c
  refine ⟨c, hc, by rw [p1, hlen], ?_⟩
  intro v hvS
  rw [p2 v (by omega), ← psum_cntEq]
  congr 1
  funext u
  rw [hv u]
  have : (List.replicate S (0 : Int)).getD u 0 = 0 := by
    simp only [List.getD_eq_getElem?_getD, List.getElem?_replicate]
    split <;> rfl
  rw [this, zero_add]

/-! ## Counting passes: the placement loops -/

theorem placeBackStep_spec (key : Nat → Int) (n S m : Nat) (hm : m < n)
    (hkey : 0 ≤ key m ∧ key m < (S : Int)) (st : List Int × List Int)
    (h1 : st.1.length = S) (h2 : st.2.length = n)
    (h3 : ∀ v, v < S → st.1.getD v 0 =
      (cntLt (fun i => (key i).toNat) n v : Int) + (cntEq (fun i => (key i).toNat) (m + 1) v : Int)) :
    placeBackStep key st m =
      some (st.1.set (key m).toNat (slot (fun i => (key i).toNat) n m : Int),
        st.2.set (slot (fun i => (key i).toNat) n m) (m : Int)) := by
  have hc : st.1.getD (key m).toNat 0 - 1 = (slot (fun i => (key i).toNat) n m : Int) := by
    rw [h3 _ (by omega)]
    unfold slot
    simp only [cntEq, if_true]
    push_cast
    ring
  have hlt := slot_lt (fun i => (key i).toNat) n m hm
  unfold placeBackStep
  rw [if_pos ⟨hkey.1, by rw [h1]; exact hkey.2⟩, hc, if_pos ⟨by omega, by rw [h2]; omega⟩,
    Int.toNat_ofNat]

/-- The backward placement loop puts every item at its stable place. -/
theorem placeBack_loop (key : Nat → Int) (n S : Nat)
    (hkey : ∀ i, i < n → 0 ≤ key i ∧ key i < (S : Int)) :
    ∀ (m : Nat), m ≤ n → ∀ (st : List Int × List Int),
      st.1.length = S → st.2.length = n →
      (∀ v, v < S → st.1.getD v 0 =
        (cntLt (fun i => (key i).toNat) n v : Int) + (cntEq (fun i => (key i).toNat) m v : Int)) →
      (∀ i, m ≤ i → i < n → st.2.getD (slot (fun i => (key i).toNat) n i) 0 = (i : Int)) →
      ∃ st1, loopOpt (placeBackStep key) (List.range m).reverse st = some st1 ∧
        st1.2.length = n ∧
        ∀ i, i < n → st1.2.getD (slot (fun i => (key i).toNat) n i) 0 = (i : Int) := by
  intro m
  induction m with
  | zero =>
    intro _ st _ h2 _ h4
    exact ⟨st, rfl, h2, fun i hi => h4 i (Nat.zero_le _) hi⟩
  | succ m ih =>
    intro hm st h1 h2 h3 h4
    rw [List.range_succ, List.reverse_append]
    simp only [List.reverse_cons, List.reverse_nil, List.nil_append, List.singleton_append,
      loopOpt]
    rw [placeBackStep_spec key n S m (by omega) (hkey m (by omega)) st h1 h2 h3]
    simp only
    have hlt := slot_lt (fun i => (key i).toNat) n m (by omega)
    have hk := hkey m (by omega)
    apply ih (by omega)
    · simp [h1]
    · simp [h2]
    · intro v hv
      simp only
      rw [getD_set_eq_ite _ _ _ _ _ (by omega)]
      by_cases e : v = (key m).toNat
      · rw [if_pos e, e]
        rfl
      · rw [if_neg e, h3 v hv]
        simp only [cntEq]
        rw [if_neg (fun h => e h.symm)]
        simp
    · intro i hmi hi
      simp only
      rw [getD_set_eq_ite _ _ _ _ _ (by omega)]
      by_cases e : i = m
      · subst e
        rw [if_pos rfl]
      · rw [if_neg]
        · exact h4 i (by omega) hi
        · intro e2
          exact e (slot_inj _ n i m hi (by omega) e2)

theorem placeStep_spec (rk tmp : List Int) (n S j : Nat) (hj : j < n)
    (ht : 0 ≤ tmp.getD j 0 ∧ tmp.getD j 0 < (rk.length : Int))
    (hr : 0 ≤ rk.getD (tmp.getD j 0).toNat 0 ∧ rk.getD (tmp.getD j 0).toNat 0 < (S : Int))
    (st : List Int × List Nat) (h1 : st.1.length = S) (h2 : st.2.length = n)
    (h3 : ∀ v, v < S → st.1.getD v 0 =
      (cntLt (fun i => (rk.getD (tmp.getD i 0).toNat 0).toNat) n v : Int) +
        (cntEq (fun i => (rk.getD (tmp.getD i 0).toNat 0).toNat) j v : Int)) :
    placeStep rk tmp st j =
      some (st.1.set (rk.getD (tmp.getD j 0).toNat 0).toNat
          ((slot (fun i => (rk.getD (tmp.getD i 0).toNat 0).toNat) n j : Int) + 1),
        st.2.set (slot (fun i => (rk.getD (tmp.getD i 0).toNat 0).toNat) n j)
          (tmp.getD j 0).toNat) := by
  have hc : st.1.getD (rk.getD (tmp.getD j 0).toNat 0).toNat 0 =
      (slot (fun i => (rk.getD (tmp.getD i 0).toNat 0).toNat) n j : Int) := by
    rw [h3 _ (by omega)]
    unfold slot
    push_cast
    rfl
  have hlt := slot_lt (fun i => (rk.getD (tmp.getD i 0).toNat 0).toNat) n j hj
  unfold placeStep
  rw [if_pos ht, if_pos ⟨hr.1, by rw [h1]; exact hr.2⟩, hc,
    if_pos ⟨by omega, by rw [h2]; omega⟩, Int.toNat_ofNat]

/-- The forward placement loop puts every item at its stable place. -/
theorem place_loop (rk tmp : List Int) (n S : Nat)
    (ht : ∀ i, i < n → 0 ≤ tmp.getD i 0 ∧ tmp.getD i 0 < (rk.length : Int))
    (hr : ∀ i, i < n → 0 ≤ rk.getD (tmp.getD i 0).toNat 0 ∧
      rk.getD (tmp.getD i 0).toNat 0 < (S : Int))
    (st : List Int × List Nat) (h1 : st.1.length = S) (h2 : st.2.length = n)
    (h3 : ∀ v, v < S → st.1.getD v 0 =
      (cntLt (fun i => (rk.getD (tmp.getD i 0).toNat 0).toNat) n v : Int)) :
    ∀ (j : Nat), j ≤ n →
      ∃ st1, loopOpt (placeStep rk tmp) (List.range j) st = some st1 ∧
        st1.1.length = S ∧ st1.2.length = n ∧
        (∀ v, v < S → st1.1.getD v 0 =
          (cntLt (fun i => (rk.getD (tmp.getD i 0).toNat 0).toNat) n v : Int) +
            (cntEq (fun i => (rk.getD (tmp.getD i 0).toNat 0).toNat) j v : Int)) ∧
        ∀ i, i < j →
          st1.2.getD (slot (fun i => (rk.getD (tmp.getD i 0).toNat 0).toNat) n i) 0 =
            (tmp.getD i 0).toNat := by
  intro j
  induction j with
  | zero =>
    intro _
    refine ⟨st, rfl, h1, h2, ?_, fun i hi => by omega⟩
    intro v hv
    rw [h3 v hv]
    simp [cntEq]
  | succ j ih =>
    intro hj
    obtain ⟨st1, hs, g1, g2, g3, g4⟩ := ih (by omega)
    rw [List.range_succ, loopOpt_append, hs]
    simp only [loopOpt]
    rw [placeStep_spec rk tmp n S j (by omega) (ht j (by omega)) (hr j (by omega)) st1 g1 g2 g3]
    simp only
    have hlt := slot_lt (fun i => (rk.getD (tmp.getD i 0).toNat 0).toNat) n j (by omega)
    have hk := hr j (by omega)
    refine ⟨_, rfl, by simp [g1], by simp [g2], ?_, ?_⟩
    · intro v hv
      simp only
      rw [getD_set_eq_ite _ _ _ _ _ (by omega)]
      by_cases e : v = (rk.getD (tmp.getD j 0).toNat 0).toNat
      · rw [if_pos e, e]
        unfold slot
        simp only [cntEq, if_true]
        push_cast
        ring
      · rw [if_neg e, g3 v hv]
        simp only [cntEq]
        rw [if_neg (fun h => e h.symm)]
        simp
    · intro i hi
      simp only
      rw [getD_set_eq_ite _ _ _ _ _ (by omega)]
      by_cases e : i = j
      · subst e
        rw [if_pos rfl]
      · rw [if_neg]
        · exact g4 i (by omega)
        · intro e2
          exact e (slot_inj _ n i j (by omega) (by omega) e2)

/-! ## The two counting passes sort the indices -/

theorem perm_range_of_nodup (l : List Nat) (n : Nat) (hlen : l.length = n)
    (hlt : ∀ x, x ∈ l → x < n) (hnd : l.Nodup) : l.Perm (List.range n) := by
  apply List.perm_of_nodup_nodup_toFinset_eq hnd (List.nodup_range n)
  apply Finset.eq_of_subset_of_card_le
  · intro x hx
    rw [List.mem_toFinset] at hx ⊢
    exact List.mem_range.2 (hlt x hx)
  · rw [List.toFinset_card_of_nodup hnd, List.toFinset_card_of_nodup (List.nodup_range n),
      hlen, List.length_range]

/-- A vector that holds `τ i` at the place `f i`, for a rearrangement `f` of the places and
an injective `τ` into the indices, is a rearrangement of the indices. -/
theorem perm_range_of_slots (l : List Nat) (n : Nat) (f τ : Nat → Nat) (hlen : l.length = n)
    (hf : ∀ p, p < n → ∃ i, i < n ∧ f i = p) (hval : ∀ i, i < n → l.getD (f i) 0 = τ i)
    (hτ : ∀ i, i < n → τ i < n) (hinj : ∀ i j, i < n → j < n → τ i = τ j → i = j) :
    l.Perm (List.range n) := by
  apply perm_range_of_nodup l n hlen
  · intro x hx
    obtain ⟨p, hp, e⟩ := exists_getD_of_mem l x hx
    obtain ⟨i, hi, e2⟩ := hf p (by omega)
    rw [← e, ← e2, hval i hi]
    exact hτ i hi
  · rw [List.Nodup, List.pairwise_iff_getElem]
    intro p q hp hq hpq e
    obtain ⟨i, hi, e1⟩ := hf p (by omega)
    obtain ⟨j, hj, e2⟩ := hf q (by omega)
    have h1 := hval i hi
    have h2 := hval j hj
    rw [e1, List.getD_eq_getElem _ _ hp] at h1
    rw [e2, List.getD_eq_getElem _ _ hq] at h2
    have := hinj i j hi hj (by rw [← h1, ← h2, e])
    subst this
    omega

/-- One round of the two counting passes returns, and `sa` then lists every index once, in
an order in which no later index compares less than an earlier one. -/
theorem radixSort_spec (n k : Nat) (rk : List Int) (sa : List Nat) (tmp : List Int)
    (hrk : rk.length = n) (hsa : sa.length = n) (htmp : tmp.length = n)
    (hb : ∀ a, a < n → 0 ≤ rk.getD a 0 ∧ rk.getD a 0 + 1 < ((max 256 n : Nat) : Int)) :
    ∃ st, radixSort n k rk sa tmp = some st ∧ st.1.Perm (List.range n) ∧ st.2.length = n ∧
      st.1.Pairwise (fun a b => cmp n k rk b a = false) := by
  have hS : (0 : Int) < ((max 256 n : Nat) : Int) := by
    have : 256 ≤ max 256 n := le_max_left _ _
    omega
  -- first pass
  have hk1 : ∀ i, i < n → 0 ≤ secondKey n k rk i ∧
      secondKey n k rk i < ((max 256 n : Nat) : Int) := by
    intro i _
    unfold secondKey
    split
    · have := hb (i + k) (by omega)
      omega
    · omega
  obtain ⟨c1, hc1, hl1, hv1⟩ := count_prefix_spec (secondKey n k rk) n (max 256 n) hk1
  obtain ⟨st1, hst1, hlen1, hval1⟩ := placeBack_loop (secondKey n k rk) n (max 256 n) hk1 n
    (le_refl _) (prefixSums c1, tmp) hl1 htmp
    (fun v hv => by
      simp only
      rw [hv1 v hv, cntLt_succ]
      push_cast
      rfl)
    (fun i h1 h2 => by omega)
  -- the vector `tmp` after the first pass
  have hτ : ∀ j, j < n → ∃ a, a < n ∧ slot (fun i => (secondKey n k rk i).toNat) n a = j ∧
      st1.2.getD j 0 = (a : Int) := by
    intro j hj
    obtain ⟨a, ha, e⟩ := slot_surj (fun i => (secondKey n k rk i).toNat) n j hj
    exact ⟨a, ha, e, by rw [← e]; exact hval1 a ha⟩
  have hτlt : ∀ j, j < n → (st1.2.getD j 0).toNat < n := by
    intro j hj
    obtain ⟨a, ha, -, e⟩ := hτ j hj
    rw [e]
    simpa using ha
  have hτinj : ∀ i j, i < n → j < n → (st1.2.getD i 0).toNat = (st1.2.getD j 0).toNat →
      i = j := by
    intro i j hi hj e
    obtain ⟨a, ha, e1, e2⟩ := hτ i hi
    obtain ⟨b, hb', e3, e4⟩ := hτ j hj
    rw [e2, e4] at e
    simp only [Int.toNat_ofNat] at e
    subst e
    omega
  have hperm1 : ((List.range n).map (fun j => (st1.2.getD j 0).toNat)).Perm (List.range n) := by
    apply perm_range_of_slots _ n (fun p => p) (fun j => (st1.2.getD j 0).toNat) (by simp)
      (fun p hp => ⟨p, hp, rfl⟩) ?_ hτlt hτinj
    intro i hi
    rw [List.getD_eq_getElem _ _ (by simpa using hi)]
    simp
  -- second pass
  have hk2 : ∀ i, i < n → 0 ≤ firstKey rk i ∧ firstKey rk i < ((max 256 n : Nat) : Int) := by
    intro i hi
    unfold firstKey
    have := hb i hi
    omega
  obtain ⟨c2, hc2, hl2, hv2⟩ := count_prefix_spec (firstKey rk) n (max 256 n) hk2
  have hfun : (fun i => (firstKey rk i).toNat) = (fun i => (rk.getD i 0).toNat + 1) := by
    funext i
    unfold firstKey
    by_cases hi : i < n
    · have := hb i hi
      omega
    · rw [List.getD_eq_default _ _ (by omega)]
      rfl
  have ht2 : ∀ i, i < n → 0 ≤ st1.2.getD i 0 ∧ st1.2.getD i 0 < (rk.length : Int) := by
    intro i hi
    obtain ⟨a, ha, -, e⟩ := hτ i hi
    rw [e, hrk]
    omega
  have hr2 : ∀ i, i < n → 0 ≤ rk.getD (st1.2.getD i 0).toNat 0 ∧
      rk.getD (st1.2.getD i 0).toNat 0 < ((max 256 n : Nat) : Int) := by
    intro i hi
    have := hb _ (hτlt i hi)
    omega
  obtain ⟨st2, hst2, -, hlen2, -, hval2⟩ := place_loop rk st1.2 n (max 256 n) ht2 hr2
    (prefixSums c2, sa) hl2 hsa
    (fun v hv => by
      simp only
      rw [hv2 v hv, hfun, cntLt_shift,
        cntLt_perm (fun a => (rk.getD a 0).toNat) (fun j => (st1.2.getD j 0).toNat) n v hperm1])
    n (le_refl _)
  have hsl : ∀ p, p < n → ∃ i, i < n ∧
      slot (fun i => (rk.getD (st1.2.getD i 0).toNat 0).toNat) n i = p ∧
      st2.2.getD p 0 = (st1.2.getD i 0).toNat := by
    intro p hp
    obtain ⟨i, hi, e⟩ := slot_surj (fun i => (rk.getD (st1.2.getD i 0).toNat 0).toNat) n p hp
    exact ⟨i, hi, e, by rw [← e]; exact hval2 i hi⟩
  refine ⟨(st2.2, st1.2), ?_, ?_, hlen1, ?_⟩
  · unfold radixSort
    rw [hc1]
    simp only
    rw [hst1]
    simp only
    rw [hc2]
    simp only
    rw [hst2]
  · exact perm_range_of_slots st2.2 n
      (slot (fun i => (rk.getD (st1.2.getD i 0).toNat 0).toNat) n)
      (fun j => (st1.2.getD j 0).toNat) hlen2
      (fun p hp => slot_surj _ n p hp) hval2 hτlt hτinj
  · simp only
    rw [List.pairwise_iff_getElem]
    intro p q hp hq hpq
    rw [hlen2] at hp hq
    obtain ⟨i, hi, e1, e2⟩ := hsl p hp
    obtain ⟨j, hj, e3, e4⟩ := hsl q hq
    rw [List.getD_eq_getElem _ _ (by omega)] at e2 e4
    rw [e2, e4]
    have hlt : slot (fun i => (rk.getD (st1.2.getD i 0).toNat 0).toNat) n i <
        slot (fun i => (rk.getD (st1.2.getD i 0).toNat 0).toNat) n j := by omega
    rw [slot_lt_iff _ n i j hi hj] at hlt
    obtain ⟨a, ha, ea1, ea2⟩ := hτ i hi
    obtain ⟨b, hb', eb1, eb2⟩ := hτ j hj
    rw [ea2, eb2] at hlt ⊢
    simp only [Int.toNat_ofNat] at hlt ⊢
    have hra := hb a ha
    have hrb := hb b hb'
    rw [cmp_eq_false_iff]
    rcases hlt with hlt | ⟨heq, hij⟩
    · omega
    · have h2 : slot (fun i => (secondKey n k rk i).toNat) n a <
          slot (fun i => (secondKey n k rk i).toNat) n b := by omega
      rw [slot_lt_iff _ n a b ha hb'] at h2
      have hka := hk1 a ha
      have hkb := hk1 b hb'
      have hle : secondKey n k rk a ≤ secondKey n k rk b := by omega
      unfold secondKey at hle
      have hrr : rk.getD a 0 = rk.getD b 0 := by omega
      intro hcon
      rcases hcon with hcon | ⟨_, hcon⟩
      · omega
      · by_cases c1 : a + k < n
        · by_cases c2 : b + k < n
          · rw [if_pos c1, if_pos c2] at hle hcon
            omega
          · rw [if_pos c1, if_neg c2] at hle hcon
            have := hb (a + k) c1
            omega
        · by_cases c2 : b + k < n
          · rw [if_neg c1, if_pos c2] at hle hcon
            have := hb (b + k) c2
            omega
          · rw [if_neg c1, if_neg c2] at hcon
            omega

/-! ## The doubling loop of `computeBWT` -/

theorem differ_eq_cmp (n k : Nat) (rk : List Int) (a b : Nat) (h : cmp n k rk b a = false) :
    differ n k rk a b = cmp n k rk a b := by
  rw [cmp_eq_false_iff] at h
  cases hc : cmp n k rk a b
  · rw [cmp_eq_false_iff] at hc
    unfold differ
    simp only [Bool.not_eq_false', Bool.and_eq_true, decide_eq_true_eq]
    constructor <;> omega
  · rw [cmp_iff] at hc
    unfold differ
    simp only [Bool.not_eq_true', Bool.and_eq_false_iff, decide_eq_false_iff_not]
    omega

theorem rerank_congr (c1 c2 : Nat → Nat → Bool) (n : Nat) (sa : List Nat) (tmp : List Int)
    (h : ∀ i, 1 ≤ i → i < n → c1 (sa.getD (i - 1) 0) (sa.getD i 0) =
      c2 (sa.getD (i - 1) 0) (sa.getD i 0)) :
    rerank c1 n sa tmp = rerank c2 n sa tmp := by
  unfold rerank
  apply List.foldl_ext
  intro t i hi
  rw [List.mem_range'_1] at hi
  unfold rerankStep
  rw [h i hi.1 (by omega)]

theorem rerank_differ (n k : Nat) (rk : List Int) (sa : List Nat) (tmp : List Int)
    (hlen : sa.length = n) (hsorted : sa.Pairwise (fun a b => cmp n k rk b a = false)) :
    rerank (differ n k rk) n sa tmp = rerank (cmp n k rk) n sa tmp := by
  apply rerank_congr
  intro i h1 hi
  exact differ_eq_cmp n k rk _ _ (sorted_getD _ sa hsorted (i - 1) i (by omega) (by omega))

/-- What one round gives for a sorted rearrangement `sa` of the indices: the new ranks keep
the invariant for `2k`; if the last rank is `n - 1` or `2k ≥ n`, the suffixes are in order;
otherwise every rank is at most `n - 2`. -/
theorem round_facts (s : Str) (k : Nat) (rk tmp : List Int) (sa : List Nat) (hk : 0 < k)
    (hinv : RankInv s k rk) (hp : sa.Perm (List.range s.length))
    (hsorted : sa.Pairwise (fun a b => cmp s.length k rk b a = false))
    (htmp : tmp.length = s.length) :
    RankInv s (k * 2) (rerank (cmp s.length k rk) s.length sa tmp) ∧
    ((rerank (cmp s.length k rk) s.length sa tmp).getD (sa.getD (s.length - 1) 0) 0 =
      (s.length : Int) - 1 → SortedSuffixes s sa) ∧
    (s.length ≤ k * 2 → SortedSuffixes s sa) ∧
    ((rerank (cmp s.length k rk) s.length sa tmp).getD (sa.getD (s.length - 1) 0) 0 ≠
      (s.length : Int) - 1 →
      ∀ a, a < s.length →
        (rerank (cmp s.length k rk) s.length sa tmp).getD a 0 + 2 ≤ (s.length : Int)) := by
  obtain ⟨hlen, hnd, hlt, hex⟩ := perm_range_facts _ s.length hp
  obtain ⟨hinv', hiff⟩ := rerank_rankInv s k rk tmp _ hk hinv hp hsorted htmp
  have hget : ∀ i, i < s.length →
      (rerank (cmp s.length k rk) s.length sa tmp).getD (sa.getD i 0) 0 =
        rankAt (cmp s.length k rk) sa i :=
    fun i hi => rerank_spec _ _ sa tmp hlen hnd (fun x hx => by rw [htmp]; exact hlt x hx) i hi
  refine ⟨hinv', ?_, ?_, ?_⟩
  · intro hbreak i j hij hj
    rw [hget (s.length - 1) (by omega)] at hbreak
    have hid : ∀ t, t < s.length → rankAt (cmp s.length k rk) sa t = (t : Int) := by
      intro t ht
      have h1 := (rankAt_mono (cmp s.length k rk) sa t (s.length - 1) (by omega)).2
      have h2 := (rankAt_bounds (cmp s.length k rk) sa t).2
      omega
    have hlt' := (hiff i j (by omega) hj).1
      (by rw [hid i (by omega), hid j (by omega)]; exact_mod_cast hij)
    have := lexLt_of_take (k * 2) _ _ hlt'
    unfold lexLe
    rw [lexLt_asymm _ _ this]
    rfl
  · intro hfull i j hij hj
    have h1 := sorted_getD _ _ hsorted i j hij hj
    have hj' : sa.getD j 0 < s.length := hlt _ (getD_mem _ j hj)
    have hi' : sa.getD i 0 < s.length := hlt _ (getD_mem _ i (by omega))
    have h2 := cmp_spec s k rk hk hinv _ _ hj' hi'
    rw [pre_full s _ _ hfull, pre_full s _ _ hfull] at h2
    unfold lexLe
    cases hx : lexLt (s.drop (sa.getD j 0)) (s.drop (sa.getD i 0))
    · rfl
    · rw [h2.2 hx] at h1; cases h1
  · intro hne a ha
    rw [hget (s.length - 1) (by omega)] at hne
    obtain ⟨i, hi, e⟩ := hex a ha
    rw [← e, hget i (by omega)]
    have h1 := (rankAt_mono (cmp s.length k rk) sa i (s.length - 1) (by omega)).1
    have h2 := (rankAt_bounds (cmp s.length k rk) sa (s.length - 1)).2
    omega

/-- The doubling loop of `computeBWT` returns the suffix array. -/
theorem bwtLoop_spec (s : Str) : ∀ (fuel k : Nat) (sa : List Nat) (rk tmp : List Int),
    0 < k → s.length ≤ k * 2 ^ fuel → sa.length = s.length → RankInv s k rk →
    tmp.length = s.length →
    (∀ a, a < s.length → rk.getD a 0 + 1 < ((max 256 s.length : Nat) : Int)) →
    (s.length ≤ k → IsSuffixArray s sa) →
    ∃ out, bwtLoop s.length fuel k sa rk tmp = some out ∧ IsSuffixArray s out := by
  intro fuel
  induction fuel with
  | zero =>
    intro k sa rk tmp hk hfuel hsa hinv htmp hb hdone
    unfold bwtLoop
    rw [if_neg (by simp at hfuel; omega)]
    exact ⟨sa, rfl, hdone (by simpa using hfuel)⟩
  | succ fuel ih =>
    intro k sa rk tmp hk hfuel hsa hinv htmp hb hdone
    unfold bwtLoop
    by_cases hkn : k < s.length
    · rw [if_pos hkn]
      simp only
      obtain ⟨st, hst, hperm, hlen2, hsorted⟩ := radixSort_spec s.length k rk sa tmp hinv.1 hsa
        htmp (fun a ha => ⟨hinv.2.1 a ha, hb a ha⟩)
      rw [hst]
      simp only
      have hl1 : st.1.length = s.length := by simpa using hperm.length_eq
      rw [rerank_differ s.length k rk st.1 st.2 hl1 hsorted]
      obtain ⟨f1, f2, f3, f4⟩ := round_facts s k rk st.2 st.1 hk hinv hperm hsorted hlen2
      split
      · rename_i hbreak
        exact ⟨st.1, rfl, hperm, f2 hbreak⟩
      · rename_i hne
        apply ih (k * 2) st.1 _ _ (by omega) (by
          have e : k * 2 * 2 ^ fuel = k * 2 ^ (fuel + 1) := by ring
          rw [e]; exact hfuel) hl1 f1
          (by rw [rerank_length, hlen2])
        · intro a ha
          have := f4 hne a ha
          have : s.length ≤ max 256 s.length := le_max_right _ _
          omega
        · intro hfull
          exact ⟨hperm, f3 hfull⟩
    · rw [if_neg hkn]
      exact ⟨sa, rfl, hdone (by omega)⟩

/-- The function `computeBWT` returns, for an input whose bytes are below 255, the last
column for the suffix array `sa` of `s = input + '$'`. -/
theorem computeBWT_spec (input : Str) (h : ∀ c, c ∈ input → c < 255) :
    ∃ sa, IsSuffixArray (input ++ [36]) sa ∧
      computeBWT input = some (lastColumn (input ++ [36]) sa) := by
  obtain ⟨sa, hsa, hI⟩ := bwtLoop_spec (input ++ [36]) (input ++ [36]).length 1
    (List.replicate (input ++ [36]).length 0) ((input ++ [36]).map Int.ofNat)
    (List.replicate (input ++ [36]).length 0) (by omega)
    (by rw [one_mul]; exact (Nat.lt_two_pow _).le) (by simp) (rankInv_init _) (by simp)
    (by
      intro a ha
      rw [List.getD_eq_getElem _ _ (by simpa using ha), List.getElem_map]
      have hmem : (input ++ [36])[a] ∈ input ++ [36] := List.getElem_mem _
      have hb : (input ++ [36])[a] < 255 := by
        rcases List.mem_append.1 hmem with hm | hm
        · exact h _ hm
        · simp only [List.mem_singleton] at hm
          omega
      have : 256 ≤ max 256 (input ++ [36]).length := le_max_left _ _
      have e : Int.ofNat (input ++ [36])[a] = (((input ++ [36])[a] : Nat) : Int) := rfl
      rw [e]
      omega)
    (by
      intro hle
      have h0 : input.length = 0 := by
        simp only [List.length_append, List.length_singleton] at hle
        omega
      have : input = [] := List.length_eq_zero.1 h0
      subst this
      refine ⟨by decide, ?_⟩
      intro i j hij hj
      simp at hj
      omega)
  refine ⟨sa, hI, ?_⟩
  unfold computeBWT
  rw [hsa]

/-! ## The vectors of `inverseBWT` -/

theorem dnaCharToIdx_lt (c : Nat) : dnaCharToIdx c < 5 := by
  unfold dnaCharToIdx
  split
  · omega
  · split
    · omega
    · split
      · omega
      · split <;> omega

theorem getD_replicate_self {α : Type} (n v : Nat) (d : α) :
    (List.replicate n d).getD v d = d := by
  simp only [List.getD_eq_getElem?_getD, List.getElem?_replicate]
  split <;> rfl

theorem cntEq_congr (κ κ1 : Nat → Nat) (v : Nat) :
    ∀ n, (∀ i, i < n → κ i = κ1 i) → cntEq κ n v = cntEq κ1 n v := by
  intro n
  induction n with
  | zero => intro _; rfl
  | succ n ih =>
    intro h
    simp only [cntEq]
    rw [ih (fun i hi => h i (by omega)), h n (by omega)]

/-- The vector `cnt` of `inverseBWT`: `cnt[v]` is the number of bytes of class `v`. -/
theorem charCounts_spec (bwt : Str) :
    (charCounts bwt).length = 5 ∧
    ∀ v, (charCounts bwt).getD v 0 =
      cntEq (fun i => dnaCharToIdx (bwt.getD i 0)) bwt.length v := by
  unfold charCounts
  induction bwt using List.reverseRecOn with
  | nil => exact ⟨rfl, fun v => by
      simp only [List.foldl_nil, List.length_nil, cntEq]
      exact getD_replicate_self 5 v 0⟩
  | append_singleton l c ih =>
    obtain ⟨h1, h2⟩ := ih
    rw [List.foldl_append]
    simp only [List.foldl_cons, List.foldl_nil]
    refine ⟨by rw [List.length_set]; exact h1, ?_⟩
    intro v
    rw [getD_set_eq_ite _ _ _ _ _ (by rw [h1]; exact dnaCharToIdx_lt c), h2, h2]
    simp only [List.length_append, List.length_singleton, cntEq]
    have e1 : (l ++ [c]).getD l.length 0 = c := by
      simp [List.getD_eq_getElem?_getD]
    have e2 : ∀ w, cntEq (fun i => dnaCharToIdx ((l ++ [c]).getD i 0)) l.length w =
        cntEq (fun i => dnaCharToIdx (l.getD i 0)) l.length w := by
      intro w
      apply cntEq_congr
      intro i hi
      simp only [List.getD_eq_getElem?_getD]
      rw [List.getElem?_append_left hi]
    rw [e1, e2]
    by_cases e : v = dnaCharToIdx c
    · rw [if_pos e, if_pos e.symm, e]
    · rw [if_neg e, if_neg (fun h => e h.symm)]
      rfl

/-- The array `C` of `inverseBWT`: `C[v]` is the number of bytes of a class below `v`. -/
theorem cumulativeCounts_spec (κ : Nat → Nat) (n : Nat) (cnt : List Nat) (hlen : cnt.length = 5)
    (h : ∀ v, cnt.getD v 0 = cntEq κ n v) (v : Nat) (hv : v < 5) :
    (cumulativeCounts cnt).getD v 0 = cntLt κ n v := by
  match cnt, hlen with
  | [a, b, c, d, e], _ =>
    have h0 := h 0
    have h1 := h 1
    have h2 := h 2
    have h3 := h 3
    simp only [List.getD_cons_zero, List.getD_cons_succ] at h0 h1 h2 h3
    have e1 := cntLt_succ κ n 0
    have e2 := cntLt_succ κ n 1
    have e3 := cntLt_succ κ n 2
    have e4 := cntLt_succ κ n 3
    have e0 := cntLt_zero κ n
    simp only [zero_add, Nat.reduceAdd] at e1 e2 e3 e4
    have hC : cumulativeCounts [a, b, c, d, e] = [0, a, a + b, a + b + c, a + b + c + d] := by
      simp [cumulativeCounts, List.range', List.replicate]
    rw [hC]
    interval_cases v
    · simp only [List.getD_cons_zero]; omega
    · simp only [List.getD_cons_zero, List.getD_cons_succ]; omega
    · simp only [List.getD_cons_zero, List.getD_cons_succ]; omega
    · simp only [List.getD_cons_zero, List.getD_cons_succ]; omega
    · simp only [List.getD_cons_zero, List.getD_cons_succ]; omega

theorem rankArray_fold (bwt : Str) :
    ∀ j, j ≤ bwt.length →
      ((List.range j).foldl (rankStep bwt)
        (List.replicate bwt.length 0, List.replicate 5 0)).1.length = bwt.length ∧
      ((List.range j).foldl (rankStep bwt)
        (List.replicate bwt.length 0, List.replicate 5 0)).2.length = 5 ∧
      (∀ v, ((List.range j).foldl (rankStep bwt)
        (List.replicate bwt.length 0, List.replicate 5 0)).2.getD v 0 =
          cntEq (fun i => dnaCharToIdx (bwt.getD i 0)) j v) ∧
      (∀ i, i < j → ((List.range j).foldl (rankStep bwt)
        (List.replicate bwt.length 0, List.replicate 5 0)).1.getD i 0 =
          cntEq (fun i => dnaCharToIdx (bwt.getD i 0)) i (dnaCharToIdx (bwt.getD i 0))) := by
  intro j
  induction j with
  | zero =>
    intro _
    refine ⟨by simp, by simp, ?_, fun i hi => by omega⟩
    intro v
    simp only [List.range_zero, List.foldl_nil, cntEq]
    exact getD_replicate_self 5 v 0
  | succ j ih =>
    intro hj
    obtain ⟨h1, h2, h3, h4⟩ := ih (by omega)
    rw [List.range_succ, List.foldl_append]
    simp only [List.foldl_cons, List.foldl_nil]
    generalize (List.range j).foldl (rankStep bwt)
      (List.replicate bwt.length 0, List.replicate 5 0) = st at h1 h2 h3 h4
    unfold rankStep
    simp only
    refine ⟨by simp [h1], by simp [h2], ?_, ?_⟩
    · intro v
      rw [getD_set_eq_ite _ _ _ _ _ (by rw [h2]; exact dnaCharToIdx_lt _), h3, h3]
      simp only [cntEq]
      by_cases e : v = dnaCharToIdx (bwt.getD j 0)
      · rw [if_pos e, if_pos e.symm, e]
      · rw [if_neg e, if_neg (fun h => e h.symm)]
        rfl
    · intro i hi
      rw [getD_set_eq_ite _ _ _ _ _ (by omega)]
      by_cases e : i = j
      · rw [if_pos e, h3, e]
      · rw [if_neg e]
        exact h4 i (by omega)

/-- The step `C[idx(bwt[i])] + rank[i]` of `inverseBWT` is the stable place of row `i` among
the rows ordered by the class of their byte. -/
theorem lf_eq_slot (bwt : Str) (i : Nat) (hi : i < bwt.length) :
    (cumulativeCounts (charCounts bwt)).getD (dnaCharToIdx (bwt.getD i 0)) 0 +
        (rankArray bwt).getD i 0 =
      slot (fun i => dnaCharToIdx (bwt.getD i 0)) bwt.length i := by
  obtain ⟨c1, c2⟩ := charCounts_spec bwt
  obtain ⟨-, -, -, r4⟩ := rankArray_fold bwt bwt.length (le_refl _)
  unfold rankArray slot
  rw [cumulativeCounts_spec _ bwt.length (charCounts bwt) c1 c2 _ (dnaCharToIdx_lt _), r4 i hi]

theorem dollarScan_spec : ∀ (l : Str) (b i0 : Nat), i0 < l.length → l.getD i0 0 = 36 →
    (∀ i, i < i0 → l.getD i 0 ≠ 36) → dollarScan l b = b + i0
  | [], _, _, h, _, _ => by simp at h
  | c :: rest, b, 0, _, h1, _ => by
    simp only [List.getD_cons_zero] at h1
    simp [dollarScan, h1]
  | c :: rest, b, i0 + 1, h, h1, h2 => by
    have hc : c ≠ 36 := by
      have := h2 0 (by omega)
      simpa using this
    simp only [dollarScan, if_neg hc]
    rw [dollarScan_spec rest (b + 1) i0 (by simpa using h) (by simpa using h1)
      (fun i hi => by
        have := h2 (i + 1) (by omega)
        simpa using this)]
    omega

/-! ## The last-to-first step -/

theorem suffixes_strict (s : Str) (sa : List Nat) (h : IsSuffixArray s sa) (i j : Nat)
    (hij : i < j) (hj : j < s.length) :
    lexLt (s.drop (sa.getD i 0)) (s.drop (sa.getD j 0)) = true := by
  obtain ⟨hlen, hnd, hlt, -⟩ := perm_range_facts sa s.length h.1
  have h1 := h.2 i j hij (by omega)
  unfold lexLe at h1
  cases hx : lexLt (s.drop (sa.getD i 0)) (s.drop (sa.getD j 0))
  · have h2 : lexLt (s.drop (sa.getD j 0)) (s.drop (sa.getD i 0)) = false := by simpa using h1
    have e := lexLt_total _ _ hx h2
    have hne : sa.getD i 0 ≠ sa.getD j 0 := by
      intro e'
      have := getD_inj sa hnd i j (by omega) (by omega) e'
      omega
    exact absurd e (drop_ne_of_ne s _ _ (hlt _ (getD_mem sa i (by omega)))
      (hlt _ (getD_mem sa j (by omega))) hne)
  · rfl

theorem row_lt_of_lexLt (s : Str) (sa : List Nat) (h : IsSuffixArray s sa) (a b : Nat)
    (ha : a < s.length)
    (hl : lexLt (s.drop (sa.getD a 0)) (s.drop (sa.getD b 0)) = true) : a < b := by
  by_contra hc
  rcases Nat.eq_or_lt_of_le (Nat.le_of_not_lt hc) with e | hlt
  · rw [e, lexLt_irrefl] at hl
    cases hl
  · have := suffixes_strict s sa h b a hlt ha
    rw [lexLt_asymm _ _ this] at hl
    cases hl

theorem dnaCharToIdx_strict (c d : Nat)
    (hc : c = 36 ∨ c = 65 ∨ c = 67 ∨ c = 71 ∨ c = 84)
    (hd : d = 36 ∨ d = 65 ∨ d = 67 ∨ d = 71 ∨ d = 84) :
    (dnaCharToIdx c < dnaCharToIdx d → c < d) ∧ (dnaCharToIdx c = dnaCharToIdx d → c = d) := by
  rcases hc with rfl | rfl | rfl | rfl | rfl <;> rcases hd with rfl | rfl | rfl | rfl | rfl <;>
    simp [dnaCharToIdx]

theorem sentinel_getD (input : Str) (hA : ∀ c, c ∈ input → c = 65 ∨ c = 67 ∨ c = 71 ∨ c = 84)
    (q : Nat) (hq : q < (input ++ [36]).length) :
    ((input ++ [36]).getD q 0 = 36 ∨ (input ++ [36]).getD q 0 = 65 ∨
      (input ++ [36]).getD q 0 = 67 ∨ (input ++ [36]).getD q 0 = 71 ∨
      (input ++ [36]).getD q 0 = 84) ∧
    ((input ++ [36]).getD q 0 = 36 ↔ q + 1 = (input ++ [36]).length) := by
  simp only [List.length_append, List.length_singleton] at hq ⊢
  by_cases h : q < input.length
  · rw [List.getD_append _ _ _ _ h, List.getD_eq_getElem _ _ h]
    have := hA _ (List.getElem_mem h)
    constructor
    · omega
    · constructor
      · intro e; omega
      · intro e; omega
  · have e : q = input.length := by omega
    subst e
    rw [List.getD_append_right _ _ _ _ (le_refl _)]
    simp

theorem lastColumn_length (s : Str) (sa : List Nat) : (lastColumn s sa).length = s.length := by
  simp [lastColumn]

theorem lastColumn_getD (s : Str) (sa : List Nat) (i : Nat) (hi : i < s.length) :
    (lastColumn s sa).getD i 0 = s.getD ((sa.getD i 0 + s.length - 1) % s.length) 0 := by
  unfold lastColumn
  rw [List.getD_eq_getElem _ _ (by simpa using hi), List.getElem_map, List.getElem_range]

theorem prev_pos (p n : Nat) (h0 : 0 < p) (hp : p < n) : (p + n - 1) % n = p - 1 := by
  have e : p + n - 1 = n + (p - 1) := by omega
  rw [e, Nat.add_mod_left, Nat.mod_eq_of_lt (by omega)]

theorem prev_zero (n : Nat) (h0 : 0 < n) : (0 + n - 1) % n = n - 1 := by
  rw [Nat.zero_add, Nat.mod_eq_of_lt (by omega)]

/-- The stable place of row `i` among the rows ordered by the class of their last byte is the
row of the suffix that starts one position earlier (cyclically). -/
theorem lf_row (s : Str) (sa : List Nat) (hI : IsSuffixArray s sa)
    (hchar : ∀ q, q < s.length → (s.getD q 0 = 36 ∨ s.getD q 0 = 65 ∨ s.getD q 0 = 67 ∨
      s.getD q 0 = 71 ∨ s.getD q 0 = 84) ∧ (s.getD q 0 = 36 ↔ q + 1 = s.length))
    (i : Nat) (hi : i < s.length) :
    slot (fun i => dnaCharToIdx ((lastColumn s sa).getD i 0)) s.length i < s.length ∧
    sa.getD (slot (fun i => dnaCharToIdx ((lastColumn s sa).getD i 0)) s.length i) 0 =
      (sa.getD i 0 + s.length - 1) % s.length := by
  obtain ⟨hlen, hnd, hlt, hex⟩ := perm_range_facts sa s.length hI.1
  have hn : 0 < s.length := by omega
  have hsa : ∀ j, j < s.length → sa.getD j 0 < s.length :=
    fun j hj => hlt _ (getD_mem sa j (by omega))
  have hprev : ∀ j, (sa.getD j 0 + s.length - 1) % s.length < s.length :=
    fun j => Nat.mod_lt _ hn
  have hgmem : ∀ j, (sa.getD j 0 + s.length - 1) % s.length ∈ sa :=
    fun j => hI.1.mem_iff.2 (List.mem_range.2 (hprev j))
  have hglt : ∀ j, sa.indexOf ((sa.getD j 0 + s.length - 1) % s.length) < s.length := by
    intro j
    have := List.indexOf_lt_length.2 (hgmem j)
    omega
  have hgval : ∀ j, sa.getD (sa.indexOf ((sa.getD j 0 + s.length - 1) % s.length)) 0 =
      (sa.getD j 0 + s.length - 1) % s.length := by
    intro j
    rw [List.getD_eq_getElem _ _ (by rw [hlen]; exact hglt j)]
    exact List.getElem_indexOf _
  have hdrop : ∀ j, j < s.length → s.drop ((sa.getD j 0 + s.length - 1) % s.length) =
      (lastColumn s sa).getD j 0 :: s.drop ((sa.getD j 0 + s.length - 1) % s.length + 1) := by
    intro j hj
    rw [List.drop_eq_getElem_cons (hprev j), lastColumn_getD s sa j hj,
      List.getD_eq_getElem _ _ (hprev j)]
  have hcol : ∀ j, j < s.length → ((lastColumn s sa).getD j 0 = 36 ∨
      (lastColumn s sa).getD j 0 = 65 ∨ (lastColumn s sa).getD j 0 = 67 ∨
      (lastColumn s sa).getD j 0 = 71 ∨ (lastColumn s sa).getD j 0 = 84) ∧
      ((lastColumn s sa).getD j 0 = 36 ↔ sa.getD j 0 = 0) := by
    intro j hj
    rw [lastColumn_getD s sa j hj]
    refine ⟨(hchar _ (hprev j)).1, ?_⟩
    rw [(hchar _ (hprev j)).2]
    have hp := hsa j hj
    rcases Nat.eq_zero_or_pos (sa.getD j 0) with e | e
    · rw [e, prev_zero _ hn]
      constructor
      · intro; rfl
      · intro; omega
    · rw [prev_pos _ _ e hp]
      omega
  have key := mono_unique
    (fun a b => dnaCharToIdx ((lastColumn s sa).getD a 0) <
        dnaCharToIdx ((lastColumn s sa).getD b 0) ∨
      (dnaCharToIdx ((lastColumn s sa).getD a 0) = dnaCharToIdx ((lastColumn s sa).getD b 0) ∧
        a < b))
    (slot (fun i => dnaCharToIdx ((lastColumn s sa).getD i 0)) s.length)
    (fun j => sa.indexOf ((sa.getD j 0 + s.length - 1) % s.length)) s.length
    (fun a b _ _ hne => by omega)
    (fun a ha => slot_lt _ _ a ha)
    (fun a _ => hglt a)
    (fun a b ha _ hR => slot_lt_slot _ _ a b ha hR)
    (by
      intro a b ha hb hR
      apply row_lt_of_lexLt s sa hI _ _ (hglt a)
      rw [hgval a, hgval b, hdrop a ha, hdrop b hb, lexLt_cons_cons]
      obtain ⟨ca, da⟩ := hcol a ha
      obtain ⟨cb, db⟩ := hcol b hb
      obtain ⟨m1, m2⟩ := dnaCharToIdx_strict _ _ ca cb
      rcases hR with hR | ⟨hR, hab⟩
      · exact Or.inl (m1 hR)
      · refine Or.inr ⟨m2 hR, ?_⟩
        have hpa : sa.getD a 0 ≠ 0 := by
          intro e0
          have e1 : sa.getD b 0 = 0 := db.1 (by rw [← m2 hR]; exact da.2 e0)
          have := getD_inj sa hnd a b (by omega) (by omega) (by rw [e0, e1])
          omega
        have hpb : sa.getD b 0 ≠ 0 := by
          intro e0
          have e1 : sa.getD a 0 = 0 := da.1 (by rw [m2 hR]; exact db.2 e0)
          exact hpa e1
        rw [prev_pos _ _ (by omega) (hsa a ha), prev_pos _ _ (by omega) (hsa b hb)]
        have e1 : sa.getD a 0 - 1 + 1 = sa.getD a 0 := by omega
        have e2 : sa.getD b 0 - 1 + 1 = sa.getD b 0 := by omega
        rw [e1, e2]
        exact suffixes_strict s sa hI a b hab hb)
    i hi
  refine ⟨slot_lt _ _ i hi, ?_⟩
  rw [key]
  exact hgval i

/-! ## The round trip -/

theorem lastColumn_dollar (s : Str) (sa : List Nat) (hI : IsSuffixArray s sa)
    (hchar : ∀ q, q < s.length → (s.getD q 0 = 36 ↔ q + 1 = s.length))
    (j : Nat) (hj : j < s.length) :
    (lastColumn s sa).getD j 0 = 36 ↔ sa.getD j 0 = 0 := by
  obtain ⟨hlen, -, hlt, -⟩ := perm_range_facts sa s.length hI.1
  have hn : 0 < s.length := by omega
  have hp : sa.getD j 0 < s.length := hlt _ (getD_mem sa j (by omega))
  rw [lastColumn_getD s sa j hj, hchar _ (Nat.mod_lt _ hn)]
  rcases Nat.eq_zero_or_pos (sa.getD j 0) with e | e
  · rw [e, prev_zero _ hn]
    constructor
    · intro; rfl
    · intro; omega
  · rw [prev_pos _ _ e hp]
    omega

/-- The sentinel occurs exactly once in the last column. -/
theorem lastColumn_count (input : Str) (hA : ∀ c, c ∈ input → c = 65 ∨ c = 67 ∨ c = 71 ∨ c = 84)
    (sa : List Nat) (hI : IsSuffixArray (input ++ [36]) sa) :
    (lastColumn (input ++ [36]) sa).count 36 = 1 := by
  have hlen : (input ++ [36]).length = input.length + 1 := by simp
  have e1 : lastColumn (input ++ [36]) sa =
      sa.map (fun p => (input ++ [36]).getD ((p + (input ++ [36]).length - 1) %
        (input ++ [36]).length) 0) := by
    have hl : sa.length = (input ++ [36]).length := by simpa using hI.1.length_eq
    unfold lastColumn
    conv_rhs => rw [← map_getD_range' sa]
    rw [List.map_map, List.range_eq_range', hl]
    rfl
  rw [e1, (hI.1.map _).count_eq, hlen, List.range_succ_eq_map, List.map_cons, List.map_map]
  have h0 : (input ++ [36]).getD ((0 + (input.length + 1) - 1) % (input.length + 1)) 0 = 36 := by
    rw [prev_zero _ (by omega)]
    have := (sentinel_getD input hA input.length (by simp)).2
    simp only [Nat.add_sub_cancel]
    exact this.2 (by simp)
  rw [h0, List.count_cons_self]
  have hz : List.count 36 (List.map ((fun p => (input ++ [36]).getD
      ((p + (input.length + 1) - 1) % (input.length + 1)) 0) ∘ Nat.succ)
      (List.range input.length)) = 0 := by
    rw [List.count_eq_zero]
    intro hmem
    obtain ⟨p, hp, e⟩ := List.mem_map.1 hmem
    rw [List.mem_range] at hp
    simp only [Function.comp, Nat.succ_eq_add_one] at e
    rw [prev_pos _ _ (by omega) (by omega)] at e
    have := (sentinel_getD input hA (p + 1 - 1) (by simp; omega)).2.1 e
    simp at this
    omega
  rw [hz]

/-- The reconstruction loop of `inverseBWT` on the last column of `s = input + '$'`: after
`m` passes `pos` is the row of the suffix that starts at `n - m` and `result` holds the last
`m` bytes of the input in reverse order. -/
theorem invLoop_spec (input : Str) (hA : ∀ c, c ∈ input → c = 65 ∨ c = 67 ∨ c = 71 ∨ c = 84)
    (sa : List Nat) (hI : IsSuffixArray (input ++ [36]) sa) :
    ∀ (t pos : Nat) (result : Str) (m : Nat), m + t = input.length →
      pos < input.length + 1 →
      sa.getD pos 0 = (input.length + 1 - m) % (input.length + 1) →
      result = (input.drop (input.length - m)).reverse →
      invLoop (lastColumn (input ++ [36]) sa)
        (cumulativeCounts (charCounts (lastColumn (input ++ [36]) sa)))
        (rankArray (lastColumn (input ++ [36]) sa)) t pos result = some input.reverse := by
  have hlen : (input ++ [36]).length = input.length + 1 := by simp
  have hcl : (lastColumn (input ++ [36]) sa).length = input.length + 1 := by
    rw [lastColumn_length, hlen]
  intro t
  induction t with
  | zero =>
    intro pos result m hm _ _ hres
    have e : m = input.length := by omega
    subst e
    simp only [Nat.sub_self, List.drop_zero] at hres
    rw [hres]
    rfl
  | succ t ih =>
    intro pos result m hm hpos hsa hres
    unfold invLoop
    rw [if_pos (by rw [hcl]; exact hpos),
      lf_eq_slot (lastColumn (input ++ [36]) sa) pos (by rw [hcl]; exact hpos), hcl]
    obtain ⟨hlt, hrow⟩ := lf_row (input ++ [36]) sa hI (sentinel_getD input hA) pos
      (by rw [hlen]; exact hpos)
    rw [hlen] at hlt hrow
    rw [if_pos hlt]
    have hnew : sa.getD (slot (fun i => dnaCharToIdx ((lastColumn (input ++ [36]) sa).getD i 0))
        (input.length + 1) pos) 0 = input.length - m := by
      rcases Nat.eq_zero_or_pos m with e | e
      · subst e
        have h0 : sa.getD pos 0 = 0 := by rw [hsa, Nat.sub_zero, Nat.mod_self]
        rw [hrow, h0, prev_zero _ (by omega)]
        omega
      · have h1 : sa.getD pos 0 = input.length + 1 - m := by
          rw [hsa]
          exact Nat.mod_eq_of_lt (by omega)
        rw [hrow, h1, prev_pos _ _ (by omega) (by omega)]
        omega
    apply ih _ _ (m + 1) (by omega) hlt
    · rw [hnew, Nat.mod_eq_of_lt (by omega)]
      omega
    · rw [lastColumn_getD _ _ _ (by rw [hlen]; exact hlt), hlen, hnew,
        prev_pos _ _ (by omega) (by omega), hres]
      have hidx : input.length - m - 1 < input.length := by omega
      rw [List.getD_append _ _ _ _ hidx, List.getD_eq_getElem _ _ hidx]
      have e1 : input.length - (m + 1) = input.length - m - 1 := by omega
      have e2 : input.length - m = input.length - m - 1 + 1 := by omega
      rw [e1, List.drop_eq_getElem_cons hidx, List.reverse_cons, ← e2]

/-- The function `inverseBWT` recovers the input from the last column of `input + '$'`. -/
theorem inverseBWT_lastColumn (input : Str)
    (hA : ∀ c, c ∈ input → c = 65 ∨ c = 67 ∨ c = 71 ∨ c = 84)
    (sa : List Nat) (hI : IsSuffixArray (input ++ [36]) sa) :
    inverseBWT (lastColumn (input ++ [36]) sa) = some input := by
  have hlen : (input ++ [36]).length = input.length + 1 := by simp
  have hcl : (lastColumn (input ++ [36]) sa).length = input.length + 1 := by
    rw [lastColumn_length, hlen]
  obtain ⟨hl, hnd, -, hex⟩ := perm_range_facts sa _ hI.1
  obtain ⟨i0, hi0, e0⟩ := hex 0 (by omega)
  have hd := fun j hj => lastColumn_dollar (input ++ [36]) sa hI
    (fun q hq => (sentinel_getD input hA q hq).2) j hj
  have hscan : dollarScan (lastColumn (input ++ [36]) sa) 0 = 0 + i0 := by
    apply dollarScan_spec _ 0 i0 (by rw [hcl]; omega) ((hd i0 (by omega)).2 e0)
    intro i hi hc
    have := (hd i (by omega)).1 hc
    have := getD_inj sa hnd i i0 (by omega) hi0 (by rw [this, e0])
    omega
  unfold inverseBWT
  rw [if_neg (by rw [hcl]; omega), hscan, hcl, Nat.zero_add, Nat.add_sub_cancel,
    invLoop_spec input hA sa hI input.length i0 [] 0 (by omega) (by omega)
      (by rw [e0, Nat.sub_zero, Nat.mod_self]) (by simp)]
  simp

/-- C23: for every string `s` over the bytes `A`, `C`, `G`, `T` (the empty string included),
`computeBWT` returns a string of length `|s| + 1` that contains the sentinel `'$'` (byte 36)
exactly once, and `inverseBWT` returns `s` on it. -/
theorem inverseBWT_computeBWT (s : Str)
    (hA : ∀ c, c ∈ s → c = 65 ∨ c = 67 ∨ c = 71 ∨ c = 84) :
    ∃ bwt, computeBWT s = some bwt ∧ bwt.length = s.length + 1 ∧ bwt.count 36 = 1 ∧
      inverseBWT bwt = some s := by
  obtain ⟨sa, hI, hc⟩ := computeBWT_spec s (fun c hc => by
    have := hA c hc
    omega)
  refine ⟨lastColumn (s ++ [36]) sa, hc, ?_, lastColumn_count s hA sa hI,
    inverseBWT_lastColumn s hA sa hI⟩
  rw [lastColumn_length]
  simp

set_option maxRecDepth 1000000 in
theorem inverseBWT_computeBWT_witness :
    (∀ c, c ∈ ([65, 67, 71, 84, 65] : Str) → c = 65 ∨ c = 67 ∨ c = 71 ∨ c = 84) ∧
    computeBWT [65, 67] = some [67, 36, 65] ∧
    inverseBWT [65, 84, 36, 65, 67, 71] = some [65, 67, 71, 84, 65] ∧
    ∃ bwt, computeBWT [65, 67, 71, 84, 65] = some bwt ∧
      bwt.length = ([65, 67, 71, 84, 65] : Str).length + 1 ∧ bwt.count 36 = 1 ∧
      inverseBWT bwt = some [65, 67, 71, 84, 65] :=
  ⟨by decide, by decide, by decide, inverseBWT_computeBWT [65, 67, 71, 84, 65] (by decide)⟩

/-! ## The read mapper: which positions become candidates -/

theorem seedOffset_cast (read : Str) (seed_len : Int) (i : Nat) (h1 : 1 ≤ seed_len)
    (h2 : seed_len ≤ (read.length : Int)) (hi : i < 3) :
    (i : Int) * seedStep read seed_len = (seedOffset read seed_len i : Int) ∧
    seedOffset read seed_len i + seed_len.toNat ≤ read.length := by
  rw [seedStep_eq read seed_len h2]
  unfold seedOffset
  have hq : (((read.length - seed_len.toNat) / 2 : Nat) : Int) =
      ((read.length : Int) - seed_len) / 2 := by omega
  generalize (read.length - seed_len.toNat) / 2 = q at hq ⊢
  rw [← hq]
  push_cast
  refine ⟨rfl, ?_⟩
  interval_cases i <;> omega

theorem seedOf_substr (read : Str) (seed_len : Int) (i : Nat) (h1 : 1 ≤ seed_len)
    (h2 : seed_len ≤ (read.length : Int)) (hi : i < 3) :
    substr read ((i : Int) * seedStep read seed_len) seed_len = some (seedOf read seed_len i) ∧
    (seedOf read seed_len i).length = seed_len.toNat := by
  obtain ⟨e, hle⟩ := seedOffset_cast read seed_len i h1 h2 hi
  obtain ⟨s1, s2⟩ := substr_seed read seed_len ((i : Int) * seedStep read seed_len) (by omega)
    (by rw [e]; exact Int.ofNat_nonneg _) (by rw [e]; omega)
  rw [e, Int.toNat_ofNat] at s1 s2
  refine ⟨by rw [e]; exact s1, ?_⟩
  unfold seedOf
  omega

theorem mem_hitCandidates (g : Str) (sa : List Nat) (read : Str) (off : Int) (slo shi : Nat)
    (x : Int) :
    x ∈ hitCandidates g sa read off slo shi ↔
      ∃ j, slo ≤ j ∧ j < slo + min (shi - slo) 100 ∧ x = ((sa.getD j 0 : Nat) : Int) - off ∧
        0 ≤ x ∧ x + (read.length : Int) ≤ (g.length : Int) := by
  unfold hitCandidates
  rw [List.mem_filter, List.mem_map]
  constructor
  · rintro ⟨⟨j, hj, e⟩, ht⟩
    rw [List.mem_range'_1] at hj
    have ht' : 0 ≤ x ∧ x + (read.length : Int) ≤ (g.length : Int) := by simpa using ht
    exact ⟨j, hj.1, hj.2, e.symm, ht'.1, ht'.2⟩
  · rintro ⟨j, h1, h2, e, h3, h4⟩
    exact ⟨⟨j, List.mem_range'_1.2 ⟨h1, h2⟩, e.symm⟩, by simpa using ⟨h3, h4⟩⟩

theorem suffix_order_strict (s : Str) (sa : List Nat) (h : IsSuffixArray s sa) (i j : Nat)
    (hi : i < s.length) (hj : j < s.length) :
    lexLt (s.drop (sa.getD i 0)) (s.drop (sa.getD j 0)) = true ↔ i < j := by
  constructor
  · exact row_lt_of_lexLt s sa h i j hi
  · intro hij
    exact suffixes_strict s sa h i j hij hj

/-- In the suffix array the entry at row `j` of the range of a pattern is preceded, in suffix
order, by exactly `j - lo` occurrences of the pattern. -/
theorem rank_in_range (s : Str) (sa : List Nat) (h : IsSuffixArray s sa) (pat : Str)
    (lo hi : Nat) (hhi : hi ≤ sa.length)
    (hperm : ((List.range' lo (hi - lo)).map (fun i => sa.getD i 0)).Perm (occurrences s pat))
    (j : Nat) (hlo : lo ≤ j) (hj : j < hi) :
    ((occurrences s pat).filter
      (fun q => lexLt (s.drop q) (s.drop (sa.getD j 0)))).length = j - lo := by
  have hlen : sa.length = s.length := by simpa using h.1.length_eq
  rw [← (hperm.filter _).length_eq, List.filter_map, List.length_map]
  have e : List.range' lo (hi - lo) = List.range' lo (j - lo) ++ List.range' j (hi - j) := by
    have := List.range'_append lo (j - lo) (hi - j) 1
    rw [show lo + 1 * (j - lo) = j by omega, show hi - j + (j - lo) = hi - lo by omega] at this
    exact this.symm
  rw [e, List.filter_append, List.length_append]
  have e1 : List.filter ((fun q => lexLt (s.drop q) (s.drop (sa.getD j 0))) ∘
      fun i => sa.getD i 0) (List.range' lo (j - lo)) = List.range' lo (j - lo) := by
    rw [List.filter_eq_self]
    intro a ha
    rw [List.mem_range'_1] at ha
    exact (suffix_order_strict s sa h a j (by omega) (by omega)).2 (by omega)
  have e2 : List.filter ((fun q => lexLt (s.drop q) (s.drop (sa.getD j 0))) ∘
      fun i => sa.getD i 0) (List.range' j (hi - j)) = [] := by
    rw [List.filter_eq_nil_iff]
    intro a ha
    rw [List.mem_range'_1] at ha
    intro hc
    have := (suffix_order_strict s sa h a j (by omega) (by omega)).1 hc
    omega
  rw [e1, e2, List.length_range']
  rfl

/-- A position comes out of the hits of a seed exactly when it is a placement of the read
inside the reference that the seed hits. -/
theorem hitCandidates_iff (g : Str) (sa : List Nat) (hI : IsSuffixArray g sa) (read : Str)
    (seed_len : Int) (i : Nat) (h1 : 1 ≤ seed_len) (h2 : seed_len ≤ (read.length : Int))
    (hi : i < 3) (hn : 78 ∉ seedOf read seed_len i) (slo shi : Nat)
    (hslo : suffixArrayLowerBound g sa (seedOf read seed_len i) = some slo)
    (hshi : suffixArrayUpperBound g sa (seedOf read seed_len i) = some shi) (x : Int) :
    x ∈ hitCandidates g sa read (seedOffset read seed_len i : Int) slo shi ↔
      ∃ p : Nat, x = (p : Int) ∧ p + read.length ≤ g.length ∧ SeedHit g read seed_len p i := by
  have hlen : sa.length = g.length := by simpa using hI.1.length_eq
  obtain ⟨-, hsl⟩ := seedOf_substr read seed_len i h1 h2 hi
  obtain ⟨-, hoff⟩ := seedOffset_cast read seed_len i h1 h2 hi
  obtain ⟨lo, hi', hlo, hhi, hle, hhil, hiff⟩ := suffixArray_range g sa hI (seedOf read seed_len i)
  have hperm := suffixArray_range_perm g sa hI (seedOf read seed_len i) lo hi' hle hhil hiff
  rw [hslo] at hlo
  rw [hshi] at hhi
  cases hlo
  cases hhi
  rw [hsl] at hiff
  have hsl1 : 1 ≤ seed_len.toNat := by omega
  rw [mem_hitCandidates]
  constructor
  · rintro ⟨j, j1, j2, e, x0, x1⟩
    have hjhi : j < shi := by
      have := Nat.min_le_left (shi - slo) 100
      omega
    have hj100 : j < slo + 100 := by
      have := Nat.min_le_right (shi - slo) 100
      omega
    have hsaj : sa.getD j 0 = x.toNat + seedOffset read seed_len i := by omega
    refine ⟨x.toNat, by omega, by omega, hn, ?_, ?_⟩
    · rw [← hsaj]
      exact (hiff j (by omega)).1 ⟨j1, hjhi⟩
    · rw [← hsaj, rank_in_range g sa hI _ slo shi hhil hperm j j1 hjhi]
      omega
  · rintro ⟨p, rfl, hp, -, hm, hr⟩
    have hocc : p + seedOffset read seed_len i ∈ occurrences g (seedOf read seed_len i) := by
      rw [mem_occurrences, hsl]
      exact ⟨by omega, hm⟩
    obtain ⟨j, hj, e⟩ := List.mem_map.1 (hperm.mem_iff.2 hocc)
    rw [List.mem_range'_1] at hj
    rw [← e, rank_in_range g sa hI _ slo shi hhil hperm j hj.1 (by omega)] at hr
    refine ⟨j, hj.1, ?_, by rw [e]; push_cast; ring, Int.ofNat_nonneg _, by exact_mod_cast hp⟩
    have : j - slo < min (shi - slo) 100 := lt_min (by omega) hr
    omega

theorem seedBody_mem (g : Str) (sa : List Nat) (hI : IsSuffixArray g sa) (read : Str)
    (seed_len : Int) (h1 : 1 ≤ seed_len) (h2 : seed_len ≤ (read.length : Int))
    (cands out : List Int) (i : Nat) (hi : i < 3)
    (h : seedBody g sa read seed_len (seedStep read seed_len) cands i = some out) (x : Int) :
    x ∈ out ↔ x ∈ cands ∨
      ∃ p : Nat, x = (p : Int) ∧ p + read.length ≤ g.length ∧ SeedHit g read seed_len p i := by
  unfold seedBody at h
  rw [(seedOf_substr read seed_len i h1 h2 hi).1] at h
  simp only at h
  by_cases hn : (78 : Nat) ∈ seedOf read seed_len i
  · rw [if_pos hn] at h
    cases h
    constructor
    · exact Or.inl
    · rintro (hx | ⟨p, -, -, hh, -⟩)
      · exact hx
      · exact absurd hn hh
  · rw [if_neg hn] at h
    cases hlo : suffixArrayLowerBound g sa (seedOf read seed_len i) with
    | none => rw [hlo] at h; cases h
    | some slo =>
      cases hhi : suffixArrayUpperBound g sa (seedOf read seed_len i) with
      | none => rw [hlo, hhi] at h; cases h
      | some shi =>
        rw [hlo, hhi] at h
        cases h
        rw [List.mem_append, (seedOffset_cast read seed_len i h1 h2 hi).1,
          hitCandidates_iff g sa hI read seed_len i h1 h2 hi hn slo shi hlo hhi x]

theorem seedLoop_mem (g : Str) (sa : List Nat) (hI : IsSuffixArray g sa) (read : Str)
    (seed_len : Int) (h1 : 1 ≤ seed_len) (h2 : seed_len ≤ (read.length : Int)) :
    ∀ (iters : List Nat) (cands out : List Int), (∀ i, i ∈ iters → i < 3) →
      seedLoop g sa read seed_len (seedStep read seed_len) iters cands = some out →
      ∀ x, x ∈ out ↔ x ∈ cands ∨
        ∃ i, i ∈ iters ∧ ∃ p : Nat, x = (p : Int) ∧ p + read.length ≤ g.length ∧
          SeedHit g read seed_len p i := by
  intro iters
  induction iters with
  | nil =>
    intro cands out _ h x
    unfold seedLoop at h
    cases h
    simp
  | cons i rest ih =>
    intro cands out hlt h x
    unfold seedLoop at h
    cases hb : seedBody g sa read seed_len (seedStep read seed_len) cands i with
    | none => rw [hb] at h; cases h
    | some c =>
      rw [hb] at h
      rw [ih c out (fun j hj => hlt j (List.mem_cons_of_mem _ hj)) h x,
        seedBody_mem g sa hI read seed_len h1 h2 cands c i (hlt i (List.mem_cons_self _ _)) hb x]
      constructor
      · rintro ((hx | hx) | ⟨j, hj, hx⟩)
        · exact Or.inl hx
        · exact Or.inr ⟨i, List.mem_cons_self _ _, hx⟩
        · exact Or.inr ⟨j, List.mem_cons_of_mem _ hj, hx⟩
      · rintro (hx | ⟨j, hj, hx⟩)
        · exact Or.inl (Or.inl hx)
        · rcases List.mem_cons.1 hj with rfl | hj
          · exact Or.inl (Or.inr hx)
          · exact Or.inr ⟨j, hj, hx⟩

/-- Which positions the seed loop of `mapRead` produces: exactly the placements of the read
inside the reference that one of the three seeds hits. -/
theorem mem_seedCandidates_iff (g : Str) (sa : List Nat) (hI : IsSuffixArray g sa) (read : Str)
    (seed_len : Int) (h1 : 1 ≤ seed_len) (h2 : seed_len ≤ (read.length : Int))
    (raw : List Int) (hraw : seedCandidates g sa read seed_len = some raw) (x : Int) :
    x ∈ raw ↔ ∃ p : Nat, x = (p : Int) ∧ p + read.length ≤ g.length ∧
      ∃ i, i < 3 ∧ SeedHit g read seed_len p i := by
  unfold seedCandidates at hraw
  rw [seedIters_eq read seed_len h2] at hraw
  rw [seedLoop_mem g sa hI read seed_len h1 h2 [0, 1, 2] [] raw
    (fun i hi => by simp at hi; omega) hraw x]
  constructor
  · rintro (hx | ⟨i, hi, p, e, hp, hh⟩)
    · cases hx
    · exact ⟨p, e, hp, i, by simp at hi; omega, hh⟩
  · rintro ⟨p, e, hp, i, hi, hh⟩
    exact Or.inr ⟨i, by simp; omega, p, e, hp, hh⟩

/-- C15, amended: under the preconditions, if the segment of the reference at position `p` is
at distance `d ≤ max_errors` from the read and every other segment of the read's length is
farther than `d`, then `mapRead` answers `Unique` with position `p` and edit distance `d`
exactly when the read does not start with `'N'` and either `d = 0` or one of the three seeds
of the read hits `p`: the seed contains no `'N'`, it equals the reference at `p` plus its
offset, and it is among the first 100 occurrences of the seed in suffix order. -/
theorem mapRead_bounded_edits (sort : (Nat → Nat → Bool) → List Nat → List Nat)
    (hs : SortContract sort) (g : Str) (sa : List Nat) (hsa : buildSuffixArray sort g = some sa)
    (read : Str) (seed_len max_errors : Int) (p d : Nat)
    (h1 : 1 ≤ seed_len) (h2 : seed_len ≤ (read.length : Int)) (h10 : max_errors ≤ 10)
    (hp : p + read.length ≤ g.length)
    (hd : lev (segment g (p : Int) read.length) read = d) (hdM : (d : Int) ≤ max_errors)
    (hother : ∀ q : Nat, q + read.length ≤ g.length → q ≠ p →
      d < lev (segment g (q : Int) read.length) read) :
    mapRead g sa read seed_len max_errors = some ⟨MapStatus.Unique, (p : Int), (d : Int)⟩ ↔
      (read.head? ≠ some 78 ∧ (d = 0 ∨ ∃ i, i < 3 ∧ SeedHit g read seed_len p i)) := by
  have h := buildSuffixArray_isSuffixArray sort hs g sa hsa
  constructor
  · intro hres
    have hN : read.head? ≠ some 78 := by
      intro hN
      unfold mapRead at hres
      rw [if_pos hN] at hres
      cases hres
    refine ⟨hN, ?_⟩
    by_cases hocc : occurrences g read = []
    · right
      rw [mapRead_seed_path g sa h read seed_len max_errors hN hocc] at hres
      obtain ⟨raw, hraw⟩ := seedCandidates_total g sa h read seed_len h1 h2
      obtain ⟨r, hr, -, -, hm⟩ := seedAndExtend_spec g sa read seed_len max_errors raw hraw
      rw [hres] at hr
      cases hr
      obtain ⟨m1, -⟩ := hm (by simp)
      simp only at m1
      have hpraw := ((dedup_facts raw).2 _).1 m1
      obtain ⟨p', e, -, i, hi, hh⟩ :=
        (mem_seedCandidates_iff g sa h read seed_len h1 h2 raw hraw _).1 hpraw
      have : p' = p := by omega
      subst this
      exact ⟨i, hi, hh⟩
    · left
      obtain ⟨lo, hi, -, -, -, -, -, -, hex⟩ :=
        mapRead_exact g sa h read seed_len max_errors hN hocc
      rw [hex] at hres
      have := congrArg (fun r => r.map MappingResult.edit_dist) hres
      simp only [Option.map_some', Option.some.injEq] at this
      omega
  · rintro ⟨hN, hseed⟩
    by_cases hocc : occurrences g read = []
    · -- the read does not occur: seed-and-extend
      have hd0 : d ≠ 0 := by
        intro e
        rw [e] at hd
        have hseg := lev_eq_zero _ _ hd
        rw [segment_natCast] at hseg
        have : p ∈ occurrences g read := by
          rw [mem_occurrences]
          exact ⟨by omega, hseg⟩
        rw [hocc] at this
        cases this
      obtain ⟨raw, hraw⟩ := seedCandidates_total g sa h read seed_len h1 h2
      have hpraw : (p : Int) ∈ raw := by
        rcases hseed with e | ⟨i, hi, hh⟩
        · exact absurd e hd0
        · exact (mem_seedCandidates_iff g sa h read seed_len h1 h2 raw hraw _).2
            ⟨p, rfl, hp, i, hi, hh⟩
      obtain ⟨hstrict, hmem⟩ := dedup_facts raw
      have hvalid := seedCandidates_valid g sa read seed_len raw hraw
      have hpC : (p : Int) ∈ uniqueAdj (sortInts raw) := (hmem _).2 hpraw
      -- the banded distance at p is d, elsewhere it is above d
      have hdp : segDist g read (p : Int) = some (d : Int) := by
        obtain ⟨v, hv, -, -, hex⟩ := segDist_valid g read (p : Int) (hvalid _ hpraw)
        rw [hv, hex (by rw [hd]; omega), hd]
      have hfar : ∀ c, c ∈ uniqueAdj (sortInts raw) → c ≠ (p : Int) →
          ∀ v, segDist g read c = some v → (d : Int) < v := by
        intro c hc hne v hv
        have hcv := hvalid c ((hmem c).1 hc)
        obtain ⟨v', hv', -, hlb, -⟩ := segDist_valid g read c hcv
        rw [hv] at hv'
        cases hv'
        have hc0 : ((c.toNat : Nat) : Int) = c := Int.toNat_of_nonneg hcv.1
        have := hother c.toNat (by have := hcv.2; omega) (by intro e; apply hne; omega)
        rw [hc0] at this
        omega
      rw [mapRead_seed_path g sa h read seed_len max_errors hN hocc]
      obtain ⟨r, hr, -, hu, hm⟩ := seedAndExtend_spec g sa read seed_len max_errors raw hraw
      have hne : r.status ≠ MapStatus.Unmapped := by
        intro hst
        rcases hu.1 hst with e | e
        · rw [e] at hpC; cases hpC
        · have := e _ hpC _ hdp
          omega
      obtain ⟨m1, m2, -, m4, -, m6⟩ := hm hne
      have hle := m4 _ hpC _ hdp
      have hpos : r.position = (p : Int) := by
        by_contra hnp
        have := hfar _ m1 hnp _ m2
        omega
      have hdist : r.edit_dist = (d : Int) := by
        rw [hpos, hdp] at m2
        exact (Option.some.inj m2).symm
      have hst : r.status = MapStatus.Unique := by
        rw [m6]
        intro c hc hcd
        by_contra hnp
        rw [hpos] at hnp
        have := hfar c hc hnp _ hcd
        omega
      rw [hr]
      cases r
      simp only at hpos hdist hst
      rw [hpos, hdist, hst]
    · -- the read occurs: it occurs only at p, and d = 0
      have hall : ∀ q, q ∈ occurrences g read → q = p := by
        intro q hq
        obtain ⟨hfit, hseg⟩ := occurrence_fits g read q hq
        by_contra hne
        have := hother q hfit hne
        rw [segment_natCast, hseg, lev_self] at this
        omega
      obtain ⟨q, hq⟩ := List.exists_mem_of_ne_nil _ hocc
      have hqp := hall q hq
      subst hqp
      have hd0 : d = 0 := by
        rw [← hd, segment_natCast, (occurrence_fits g read q hq).2, lev_self]
      have hsingle : occurrences g read = [q] :=
        eq_singleton_of_all_eq _ q ((List.nodup_range _).filter _) hq hall
      rw [mapRead_exact_single g sa h read seed_len max_errors q hN hsingle, hd0]
      rfl

theorem mapRead_bounded_edits_witness :
    SortContract insertionSort ∧
    buildSuffixArray insertionSort [65, 67, 71, 84, 65, 67, 71, 84] =
      some [4, 0, 5, 1, 6, 2, 7, 3] ∧
    (1 : Int) ≤ 3 ∧ (3 : Int) ≤ (([65, 84, 71, 84, 65] : Str).length : Int) ∧
    (1 : Int) ≤ 10 ∧
    0 + ([65, 84, 71, 84, 65] : Str).length ≤ ([65, 67, 71, 84, 65, 67, 71, 84] : Str).length ∧
    lev (segment [65, 67, 71, 84, 65, 67, 71, 84] ((0 : Nat) : Int)
      ([65, 84, 71, 84, 65] : Str).length) [65, 84, 71, 84, 65] = 1 ∧
    (((1 : Nat) : Int) ≤ 1) ∧
    (∀ q : Nat, q + ([65, 84, 71, 84, 65] : Str).length ≤
        ([65, 67, 71, 84, 65, 67, 71, 84] : Str).length → q ≠ 0 →
      1 < lev (segment [65, 67, 71, 84, 65, 67, 71, 84] (q : Int)
        ([65, 84, 71, 84, 65] : Str).length) [65, 84, 71, 84, 65]) ∧
    ([65, 84, 71, 84, 65] : Str).head? ≠ some 78 ∧
    seedOf [65, 84, 71, 84, 65] 3 2 = [71, 84, 65] ∧
    SeedHit [65, 67, 71, 84, 65, 67, 71, 84] [65, 84, 71, 84, 65] 3 0 2 ∧
    (mapRead [65, 67, 71, 84, 65, 67, 71, 84] [4, 0, 5, 1, 6, 2, 7, 3]
        [65, 84, 71, 84, 65] 3 1 =
        some ⟨MapStatus.Unique, ((0 : Nat) : Int), ((1 : Nat) : Int)⟩ ↔
      (([65, 84, 71, 84, 65] : Str).head? ≠ some 78 ∧
        ((1 : Nat) = 0 ∨ ∃ i, i < 3 ∧
          SeedHit [65, 67, 71, 84, 65, 67, 71, 84] [65, 84, 71, 84, 65] 3 0 i))) ∧
    mapRead [65, 67, 71, 84, 65, 67, 71, 84] [4, 0, 5, 1, 6, 2, 7, 3]
      [65, 84, 71, 84, 65] 3 1 = some ⟨MapStatus.Unique, ((0 : Nat) : Int), ((1 : Nat) : Int)⟩ :=
  have hother : ∀ q : Nat, q + ([65, 84, 71, 84, 65] : Str).length ≤
        ([65, 67, 71, 84, 65, 67, 71, 84] : Str).length → q ≠ 0 →
      1 < lev (segment [65, 67, 71, 84, 65, 67, 71, 84] (q : Int)
        ([65, 84, 71, 84, 65] : Str).length) [65, 84, 71, 84, 65] := by
    intro q hq hne
    have hq3 : q ≤ 3 := by simp at hq; omega
    have h3 : q = 1 ∨ q = 2 ∨ q = 3 := by omega
    rcases h3 with rfl | rfl | rfl <;> decide
  have hhit : SeedHit [65, 67, 71, 84, 65, 67, 71, 84] [65, 84, 71, 84, 65] 3 0 2 := by
    unfold SeedHit
    decide
  have hiff := mapRead_bounded_edits insertionSort insertionSort_contract
    [65, 67, 71, 84, 65, 67, 71, 84] [4, 0, 5, 1, 6, 2, 7, 3] (by decide) [65, 84, 71, 84, 65]
    3 1 0 1 (by decide) (by decide) (by decide) (by decide) (by decide) (by decide) hother
  ⟨insertionSort_contract, by decide, by decide, by decide, by decide, by decide, by decide,
    by decide, hother, by decide, by decide, hhit, hiff,
    hiff.2 ⟨by decide, Or.inr ⟨2, by decide, hhit⟩⟩⟩

end bio
